import Mathlib

/-!  A shallow embedding of the skiplist implementation of `skiplist.go`
(package `skiplist`, a redis-like in-memory skiplist).

Nodes live in an arena (`List (Node K V)`); a Go pointer is an arena index
(`Option Nat`, `none` standing for Go's `nil`).  Index `0` is the header
sentinel created by `New`; nodes allocated by `Put` are appended at the end
of the arena, and a deleted node simply becomes unreachable (as under Go's
garbage collector).  Every public method of the Go source is translated
literally, statement by statement; the probabilistic level draw that `Put`
obtains from `randomLevel` is passed to `put` as an explicit argument, and
`randomLevel` itself is modelled separately as a function of the clock
reading it seeds its generator with.  -/

namespace SkipGo

/-- Go constant `MaxLevel = 12` (skiplist.go:16). -/
def MaxLevel : Nat := 12

/-- `skiplistNode` (skiplist.go:20): a key, a value, an integer level, one
forward link per level `0 ≤ i < level`, and a single level-0 backward link. -/
structure Node (K V : Type) where
  key : K
  value : V
  level : Nat
  forward : List (Option Nat)
  backward : Option Nat
deriving DecidableEq

/-- `Skiplist` (skiplist.go:28).  The header lives at arena index `0`; `tail`,
`level` and `length` are the remaining Go fields (`length` is a Go `int`). -/
structure Skiplist (K V : Type) where
  arena : List (Node K V)
  tail : Option Nat
  level : Nat
  length : Int
deriving DecidableEq

variable {K V : Type}

/-- Dereference an arena index. -/
def nodeAt (a : List (Node K V)) (j : Nat) : Option (Node K V) := a.get? j

/-- `n.forward[i]` of the node at index `j` (`none` for Go `nil`, and also
when `j` or the slot does not exist, which cannot happen on a well-formed
state). -/
def fwdA (a : List (Node K V)) (j i : Nat) : Option Nat :=
  match nodeAt a j with
  | some n => n.forward.getD i none
  | none => none

/-- `n.backward` of the node at index `j`. -/
def bwdA (a : List (Node K V)) (j : Nat) : Option Nat :=
  match nodeAt a j with
  | some n => n.backward
  | none => none

/-- `n.level` of the node at index `j`. -/
def levelA (a : List (Node K V)) (j : Nat) : Nat :=
  match nodeAt a j with
  | some n => n.level
  | none => 0

/-- The write `node.forward[i] = p` on the node at index `j`. -/
def setFwd (a : List (Node K V)) (j i : Nat) (p : Option Nat) : List (Node K V) :=
  match nodeAt a j with
  | some n => a.set j { n with forward := n.forward.set i p }
  | none => a

/-- The write `node.backward = p` on the node at index `j`. -/
def setBwd (a : List (Node K V)) (j : Nat) (p : Option Nat) : List (Node K V) :=
  match nodeAt a j with
  | some n => a.set j { n with backward := p }
  | none => a

/-- The write `node.value = v` on the node at index `j`. -/
def setVal (a : List (Node K V)) (j : Nat) (v : V) : List (Node K V) :=
  match nodeAt a j with
  | some n => a.set j { n with value := v }
  | none => a

variable [LinearOrder K]

/-- Go's `p.key < k` for the node `p` at index `j` (only evaluated after the
Go code has checked the pointer is non-nil; `false` on a dangling index). -/
def keyLtA (a : List (Node K V)) (j : Nat) (k : K) : Bool :=
  match nodeAt a j with
  | some n => decide (n.key < k)
  | none => false

/-- Go's `p.key == k` for the node `p` at index `j`. -/
def keyEqA (a : List (Node K V)) (j : Nat) (k : K) : Bool :=
  match nodeAt a j with
  | some n => decide (n.key = k)
  | none => false

/-- Inner loop of `find` (skiplist.go:252): advance `c` along level `i` while
`c.forward[i] != nil && c.forward[i].key < key`.  `fuel` bounds the pointer
chase; any value at least the arena size is enough on a well-formed state. -/
def advance (a : List (Node K V)) (i : Nat) (k : K) : Nat → Nat → Nat
  | 0, c => c
  | fuel+1, c =>
    match fwdA a c i with
    | none => c
    | some j => if keyLtA a j k then advance a i k fuel j else c

/-- The equality test of `find` (skiplist.go:257):
`c.forward[i] != nil && c.forward[i].key == key`, returning the matching
node. -/
def hitTest (a : List (Node K V)) (k : K) (i c : Nat) : Option Nat :=
  match fwdA a c i with
  | some j => if keyEqA a j k then some j else none
  | none => none

/-- The `for i := MaxLevel - 1; i >= 0; i--` loop of `find` (skiplist.go:251),
processing levels `i-1, i-2, …, 0` from current position `c`; returns Go's
`(found, node, updates)` with `updates` listed so that position `i` holds the
level-`i` predecessor.  A hit recorded at a lower level overwrites one from a
higher level, as in the Go code. -/
def findLoop (a : List (Node K V)) (k : K) : Nat → Nat → Bool × Option Nat × List Nat
  | 0, _ => (false, none, [])
  | i+1, c =>
    let c' := advance a i k a.length c
    let hit := hitTest a k i c'
    let r := findLoop a k i c'
    (r.1 || hit.isSome, r.2.1 <|> hit, r.2.2 ++ [c'])

/-- `find` (skiplist.go:244). -/
def find (sl : Skiplist K V) (k : K) : Bool × Option Nat × List Nat :=
  findLoop sl.arena k MaxLevel 0

/-- `New` (skiplist.go:37): a single header node of level `MaxLevel` with
`MaxLevel` nil forward links; `zk` and `zv` are the Go zero values of the key
and value types (never observable through the API). -/
def new (zk : K) (zv : V) : Skiplist K V :=
  { arena := [{ key := zk, value := zv, level := MaxLevel,
                forward := List.replicate MaxLevel none, backward := none }]
    tail := none
    level := 1
    length := 0 }

/-- The splice loop of `Put` (skiplist.go:91): for each level `i < lvl`,
`n.forward[i] = updates[i].forward[i]; updates[i].forward[i] = n`, the read
taken from the current heap exactly as in Go. -/
def spliceLoop (a0 : List (Node K V)) (idx : Nat) (ups : List Nat) (lvl : Nat) :
    List (Node K V) :=
  (List.range lvl).foldl
    (fun a i => setFwd (setFwd a idx i (fwdA a (ups.getD i 0) i)) (ups.getD i 0) i (some idx)) a0

/-- The epilogue of `Put` (skiplist.go:96): `n.backward = updates[0]`, then
either fix the successor's backward link or make the new node the tail, and
increment the length. -/
def putFinish (sl : Skiplist K V) (a1 : List (Node K V)) (idx : Nat) (ups : List Nat) :
    Skiplist K V :=
  let a2 := setBwd a1 idx (some (ups.getD 0 0))
  match fwdA a2 idx 0 with
  | some s =>
    { arena := setBwd a2 s (some idx), tail := sl.tail, level := sl.level,
      length := sl.length + 1 }
  | none =>
    { arena := a2, tail := some idx, level := sl.level, length := sl.length + 1 }

/-- `Put` (skiplist.go:56).  `lvl` is the value the enclosed call to
`randomLevel()` returned (always in `[1, MaxLevel]`). -/
def put (sl : Skiplist K V) (k : K) (v : V) (lvl : Nat) : Skiplist K V :=
  if sl.length = 0 then
    let idx := sl.arena.length
    { arena := setFwd sl.arena 0 0 (some idx) ++
        [{ key := k, value := v, level := 1, forward := [none], backward := some 0 }]
      tail := some idx
      level := sl.level
      length := 1 }
  else
    let r := find sl k
    if r.1 then
      { sl with arena := setVal sl.arena (r.2.1.getD 0) v }
    else
      putFinish sl
        (spliceLoop
          (sl.arena ++
            [{ key := k, value := v, level := lvl, forward := List.replicate lvl none,
               backward := none }])
          sl.arena.length r.2.2 lvl)
        sl.arena.length r.2.2

/-- The Go error strings (skiplist.go:114,121,145,164,202,205). -/
def errNotFound : String := "Not Found"

def errInvalidRange : String := "START key is great than END key"

def errZeroCount : String := "Zero COUNT"

def errOutOfRange : String := "Out of range"

/-- `Get` (skiplist.go:108).  The dangling-index fallbacks are unreachable on
well-formed states (Go dereferences a valid pointer there). -/
def getNode (sl : Skiplist K V) (j : Nat) : Except String V :=
  match nodeAt sl.arena j with
  | some n => .ok n.value
  | none => .error errNotFound

def get (sl : Skiplist K V) (k : K) : Except String V :=
  let r := find sl k
  if r.1 then
    match r.2.1 with
    | some j => getNode sl j
    | none => .error errNotFound
  else .error errNotFound

/-- The unlink loop of `Del` (skiplist.go:130): for each level
`i < node.level`, `updates[i].forward[i] = node.forward[i]`, the read taken
from the current heap exactly as in Go. -/
def unlinkLoop (a : List (Node K V)) (nd : Nat) (ups : List Nat) (lvl : Nat) :
    List (Node K V) :=
  (List.range lvl).foldl (fun a' i => setFwd a' (ups.getD i 0) i (fwdA a' nd i)) a

/-- `Del` (skiplist.go:118).  Returns the new state and `some errNotFound`
when the key is absent (in which case the state is returned untouched, as in
the Go early return).  `step1` is the backward/tail fix of skiplist.go:124,
performed before the unlink loop. -/
def delStep1 (sl : Skiplist K V) (j : Nat) : List (Node K V) × Option Nat :=
  match fwdA sl.arena j 0 with
  | some s => (setBwd sl.arena s (bwdA sl.arena j), sl.tail)
  | none => (sl.arena, bwdA sl.arena j)

def del (sl : Skiplist K V) (k : K) : Skiplist K V × Option String :=
  let r := find sl k
  if r.1 then
    let j := r.2.1.getD 0
    let step1 := delStep1 sl j
    ({ arena := unlinkLoop step1.1 j r.2.2 (levelA sl.arena j), tail := step1.2,
       level := sl.level, length := sl.length - 1 }, none)
  else (sl, some errNotFound)

/-- `Length` (skiplist.go:138). -/
def lengthOf (sl : Skiplist K V) : Int := sl.length

/-- The collection loop of `RangeByKey` (skiplist.go:154): walk forward along
level 0 collecting while `node != nil && node.key <= end`. -/
def collectFwdLe (sl : Skiplist K V) (b : K) : Nat → Option Nat → List (K × V)
  | 0, _ => []
  | _, none => []
  | fuel+1, some j =>
    match nodeAt sl.arena j with
    | some n =>
      if n.key ≤ b then (n.key, n.value) :: collectFwdLe sl b fuel (fwdA sl.arena j 0)
      else []
    | none => []

/-- `RangeByKey` (skiplist.go:143).  The Go function accumulates into a
`map[K]V`; the embedding keeps the pairs in the order the walk collects
them. -/
def rangeByKey (sl : Skiplist K V) (a b : K) : Except String (List (K × V)) :=
  if a > b then .error errInvalidRange
  else
    let r := find sl a
    let st := if r.1 then r.2.1 else fwdA sl.arena (r.2.2.getD 0 0) 0
    .ok (collectFwdLe sl b sl.arena.length st)

/-- The collection loop shared by `RangeByCount` (skiplist.go:187) and
`RangeByIndex` (skiplist.go:231): collect while
`node != nil && node != sl.header && c < count`, stepping forward or
backward. -/
def collectDir (sl : Skiplist K V) (forward : Bool) : Nat → Option Nat → List (K × V)
  | 0, _ => []
  | _, none => []
  | cnt+1, some j =>
    if j = 0 then []
    else
      match nodeAt sl.arena j with
      | some n =>
        (n.key, n.value) ::
          collectDir sl forward cnt (if forward then fwdA sl.arena j 0 else n.backward)
      | none => []

/-- Two's-complement wrap of a mathematical integer into the 64-bit range
`[-2^63, 2^63)`: the value a Go `int` holds after an overflowing operation. -/
def wrap64 (x : Int) : Int := (x + 2^63) % 2^64 - 2^63

/-- `RangeByCount` (skiplist.go:162).  Go's `count` is a 64-bit `int`: the
negation `count = 0 - count` (skiplist.go:170) overflows at the minimum
value, leaving `count` negative, so the collection loop (`c < count`,
skiplist.go:187) runs zero times; `wrap64` models that overflow, and
`Int.toNat` of the possibly-negative bound is the number of iterations the
Go loop performs. -/
def rangeByCount (sl : Skiplist K V) (start : K) (count : Int) : Except String (List (K × V)) :=
  if count = 0 then .error errZeroCount
  else
    let forward := decide (0 < count)
    let cnt : Int := if count < 0 then wrap64 (0 - count) else count
    let r := find sl start
    let st :=
      if r.1 then r.2.1
      else if forward then fwdA sl.arena (r.2.2.getD 0 0) 0
      else some (r.2.2.getD 0 0)
    .ok (collectDir sl forward cnt.toNat st)

/-- The positive-start resolution loop of `RangeByIndex` (skiplist.go:220):
`for i := 0; node != nil && i < start; i++ { node = node.forward[0] }`. -/
def stepFwdN (sl : Skiplist K V) : Nat → Option Nat → Option Nat
  | 0, st => st
  | n+1, st =>
    match st with
    | none => none
    | some j => stepFwdN sl n (fwdA sl.arena j 0)

/-- The negative-start resolution loop of `RangeByIndex` (skiplist.go:225):
`for i := -1; node != sl.header && i > start; i-- { node = node.backward }`.
The Go loop has no nil test on `node`; the `none` branch is unreachable from
`RangeByIndex` on a well-formed state (the bounds test has already ensured a
nonempty list, whose `tail` is a real node). -/
def stepBwdN (sl : Skiplist K V) : Nat → Option Nat → Option Nat
  | 0, st => st
  | n+1, st =>
    match st with
    | some 0 => some 0
    | some j => stepBwdN sl n (bwdA sl.arena j)
    | none => none

/-- `RangeByIndex` (skiplist.go:200).  As in `rangeByCount`, the negation
`count = 0 - count` (skiplist.go:212) wraps at the minimum 64-bit value,
modelled by `wrap64`; a negative bound makes the collection loop run zero
times. -/
def rangeByIndex (sl : Skiplist K V) (start count : Int) : Except String (List (K × V)) :=
  if count = 0 then .error errZeroCount
  else if start ≥ sl.length ∨ start < 0 - sl.length then .error errOutOfRange
  else
    let forward := decide (0 < count)
    let cnt : Int := if count < 0 then wrap64 (0 - count) else count
    let st :=
      if 0 ≤ start then stepFwdN sl start.toNat (fwdA sl.arena 0 0)
      else stepBwdN sl (-1 - start).toNat sl.tail
    .ok (collectDir sl forward cnt.toNat st)

/-- Model of `randomLevel` (skiplist.go:267).  The Go function builds a fresh
generator from the clock on every call —
`r := rand.New(rand.NewSource(time.Now().UnixNano()))` — then repeatedly
draws `v := r.Uint32()`, incrementing `level` while
`float32(v&0xFFFF) <= float32(P*0xFFFF)`; with `P = 0.3` both sides of that
float32 comparison are exactly representable, so it holds iff
`v % 65536 ≤ 19660`.  Here `src seed i` stands for the `i`-th `Uint32` draw
of a generator seeded with `seed`, and `now` for the `time.Now().UnixNano()`
reading taken by the call: the call's result depends on nothing else.  The
loop is unrolled at most `MaxLevel` times; beyond that the Go loop keeps
drawing but its result is already pinned to `MaxLevel` (whenever it
terminates at all), which the final `min` accounts for. -/
def randomLevelAux (draw : Nat → Nat) : Nat → Nat → Nat → Nat
  | 0, _, level => level
  | fuel+1, i, level =>
    if draw i % 65536 > 19660 then level
    else randomLevelAux draw fuel (i+1) (level+1)

/-- One call of `randomLevel` at clock reading `now`. -/
def randomLevel (src : Nat → Nat → Nat) (now : Nat) : Nat :=
  min (randomLevelAux (src now) MaxLevel 0 1) MaxLevel

/-- The states reachable from `New` by any sequence of `Put` and `Del`; the
level a `Put` draws from `randomLevel` is abstracted to an arbitrary value in
`[1, MaxLevel]` (which `randomLevel` always satisfies). -/
inductive Reachable : Skiplist K V → Prop
  | new (zk : K) (zv : V) : Reachable (new zk zv)
  | put {sl : Skiplist K V} (k : K) (v : V) {lvl : Nat} :
      Reachable sl → 1 ≤ lvl → lvl ≤ MaxLevel → Reachable (put sl k v lvl)
  | del {sl : Skiplist K V} (k : K) : Reachable sl → Reachable (del sl k).1

/-- Walk the level-`i` forward links. -/
def walkFwd (a : List (Node K V)) (i : Nat) : Nat → Option Nat → List Nat
  | 0, _ => []
  | _, none => []
  | fuel+1, some j => j :: walkFwd a i fuel (fwdA a j i)

/-- The level-`i` forward chain of the container, as arena indices (header
excluded). -/
def chainAt (sl : Skiplist K V) (i : Nat) : List Nat :=
  walkFwd sl.arena i sl.arena.length (fwdA sl.arena 0 i)

/-- The level-0 forward chain of the container, as arena indices. -/
def chainIdx (sl : Skiplist K V) : List Nat := chainAt sl 0

/-- The stored key/value pairs, in level-0 chain order. -/
def pairsOf (sl : Skiplist K V) : List (K × V) :=
  (chainIdx sl).filterMap (fun j => (nodeAt sl.arena j).map (fun n => (n.key, n.value)))

end SkipGo

namespace SkipGo

variable {K V : Type}

/-! ### Basic facts about the arena accessors -/

theorem nodeAt_lt_length {a : List (Node K V)} {j : Nat} {n : Node K V}
    (h : nodeAt a j = some n) : j < a.length := by
  by_contra hle
  rw [nodeAt, List.get?_len_le (Nat.le_of_not_lt hle)] at h
  exact Option.noConfusion h

theorem length_setFwd (a : List (Node K V)) (j i : Nat) (p : Option Nat) :
    (setFwd a j i p).length = a.length := by
  rw [setFwd]
  cases nodeAt a j <;> simp

theorem length_setBwd (a : List (Node K V)) (j : Nat) (p : Option Nat) :
    (setBwd a j p).length = a.length := by
  rw [setBwd]
  cases nodeAt a j <;> simp

theorem length_setVal (a : List (Node K V)) (j : Nat) (v : V) :
    (setVal a j v).length = a.length := by
  rw [setVal]
  cases nodeAt a j <;> simp

theorem nodeAt_set_of_get {a : List (Node K V)} {j : Nat} {n : Node K V}
    (h : nodeAt a j = some n) (m : Node K V) (j' : Nat) :
    nodeAt (a.set j m) j' = if j' = j then some m else nodeAt a j' := by
  by_cases hj : j' = j
  · subst hj
    rw [if_pos rfl, nodeAt, List.get?_set_eq]
    rw [nodeAt] at h
    rw [h]
    rfl
  · rw [if_neg hj, nodeAt, nodeAt]
    exact List.get?_set_ne _ _ (fun hh => hj hh.symm)

theorem nodeAt_setFwd (a : List (Node K V)) (j i : Nat) (p : Option Nat) (j' : Nat) :
    nodeAt (setFwd a j i p) j' =
      if j' = j then (nodeAt a j).map (fun n => { n with forward := n.forward.set i p })
      else nodeAt a j' := by
  rw [setFwd]
  cases h : nodeAt a j with
  | none =>
    by_cases hj : j' = j <;> simp [hj, h]
  | some n => rw [nodeAt_set_of_get h]; by_cases hj : j' = j <;> simp [hj]

theorem nodeAt_setBwd (a : List (Node K V)) (j : Nat) (p : Option Nat) (j' : Nat) :
    nodeAt (setBwd a j p) j' =
      if j' = j then (nodeAt a j).map (fun n => { n with backward := p })
      else nodeAt a j' := by
  rw [setBwd]
  cases h : nodeAt a j with
  | none =>
    by_cases hj : j' = j <;> simp [hj, h]
  | some n => rw [nodeAt_set_of_get h]; by_cases hj : j' = j <;> simp [hj]

theorem nodeAt_setVal (a : List (Node K V)) (j : Nat) (v : V) (j' : Nat) :
    nodeAt (setVal a j v) j' =
      if j' = j then (nodeAt a j).map (fun n => { n with value := v })
      else nodeAt a j' := by
  rw [setVal]
  cases h : nodeAt a j with
  | none =>
    by_cases hj : j' = j <;> simp [hj, h]
  | some n => rw [nodeAt_set_of_get h]; by_cases hj : j' = j <;> simp [hj]

theorem nodeAt_append_lt {a : List (Node K V)} {j : Nat} (l : List (Node K V))
    (h : j < a.length) : nodeAt (a ++ l) j = nodeAt a j :=
  List.get?_append h

theorem nodeAt_append_self (a : List (Node K V)) (n : Node K V) :
    nodeAt (a ++ [n]) a.length = some n :=
  List.get?_concat_length a n

theorem fwdA_setBwd (a : List (Node K V)) (j : Nat) (p : Option Nat) (j' i' : Nat) :
    fwdA (setBwd a j p) j' i' = fwdA a j' i' := by
  rw [fwdA, fwdA, nodeAt_setBwd]
  by_cases hj : j' = j
  · subst hj
    cases nodeAt a j' <;> simp
  · rw [if_neg hj]

theorem fwdA_setVal (a : List (Node K V)) (j : Nat) (v : V) (j' i' : Nat) :
    fwdA (setVal a j v) j' i' = fwdA a j' i' := by
  rw [fwdA, fwdA, nodeAt_setVal]
  by_cases hj : j' = j
  · subst hj
    cases nodeAt a j' <;> simp
  · rw [if_neg hj]

theorem bwdA_setFwd (a : List (Node K V)) (j i : Nat) (p : Option Nat) (j' : Nat) :
    bwdA (setFwd a j i p) j' = bwdA a j' := by
  rw [bwdA, bwdA, nodeAt_setFwd]
  by_cases hj : j' = j
  · subst hj
    cases nodeAt a j' <;> simp
  · rw [if_neg hj]

theorem bwdA_setVal (a : List (Node K V)) (j : Nat) (v : V) (j' : Nat) :
    bwdA (setVal a j v) j' = bwdA a j' := by
  rw [bwdA, bwdA, nodeAt_setVal]
  by_cases hj : j' = j
  · subst hj
    cases nodeAt a j' <;> simp
  · rw [if_neg hj]

theorem fwdA_setFwd_self {a : List (Node K V)} {j : Nat} {n : Node K V}
    (h : nodeAt a j = some n) (i : Nat) (hi : i < n.forward.length) (p : Option Nat) :
    fwdA (setFwd a j i p) j i = p := by
  rw [fwdA, nodeAt_setFwd, if_pos rfl, h]
  simp only [Option.map_some']
  rw [List.getD_eq_get?, List.get?_set_eq]
  rw [List.get?_eq_get hi]
  rfl

theorem fwdA_setFwd_slot (a : List (Node K V)) (j i : Nat) (p : Option Nat) {i' : Nat}
    (h : i' ≠ i) : fwdA (setFwd a j i p) j i' = fwdA a j i' := by
  rw [fwdA, fwdA, nodeAt_setFwd, if_pos rfl]
  cases nodeAt a j with
  | none => rfl
  | some n =>
    simp only [Option.map_some']
    rw [List.getD_eq_get?, List.getD_eq_get?, List.get?_set_ne _ _ (fun hh => h hh.symm)]

theorem fwdA_setFwd_other (a : List (Node K V)) (j i : Nat) (p : Option Nat) {j' : Nat}
    (h : j' ≠ j) (i' : Nat) : fwdA (setFwd a j i p) j' i' = fwdA a j' i' := by
  rw [fwdA, fwdA, nodeAt_setFwd, if_neg h]

theorem bwdA_setBwd_self {a : List (Node K V)} {j : Nat} {n : Node K V}
    (h : nodeAt a j = some n) (p : Option Nat) : bwdA (setBwd a j p) j = p := by
  rw [bwdA, nodeAt_setBwd, if_pos rfl, h]
  rfl

theorem bwdA_setBwd_other (a : List (Node K V)) (j : Nat) (p : Option Nat) {j' : Nat}
    (h : j' ≠ j) : bwdA (setBwd a j p) j' = bwdA a j' := by
  rw [bwdA, bwdA, nodeAt_setBwd, if_neg h]

theorem fwdA_append_lt {a : List (Node K V)} {j : Nat} (l : List (Node K V))
    (h : j < a.length) (i : Nat) : fwdA (a ++ l) j i = fwdA a j i := by
  rw [fwdA, fwdA, nodeAt_append_lt l h]

theorem bwdA_append_lt {a : List (Node K V)} {j : Nat} (l : List (Node K V))
    (h : j < a.length) : bwdA (a ++ l) j = bwdA a j := by
  rw [bwdA, bwdA, nodeAt_append_lt l h]

theorem fwdA_of_nodeAt {a : List (Node K V)} {j : Nat} {n : Node K V}
    (h : nodeAt a j = some n) (i : Nat) : fwdA a j i = n.forward.getD i none := by
  rw [fwdA, h]

theorem bwdA_of_nodeAt {a : List (Node K V)} {j : Nat} {n : Node K V}
    (h : nodeAt a j = some n) : bwdA a j = n.backward := by
  rw [bwdA, h]

theorem levelA_of_nodeAt {a : List (Node K V)} {j : Nat} {n : Node K V}
    (h : nodeAt a j = some n) : levelA a j = n.level := by
  rw [levelA, h]

/-! ### Linked chains -/

/-- `LinkedFrom a i s l`: starting from the pointer `s`, following the
level-`i` forward links visits exactly the indices in `l` and then reaches
Go `nil`. -/
inductive LinkedFrom (a : List (Node K V)) (i : Nat) : Option Nat → List Nat → Prop
  | nil : LinkedFrom a i none []
  | cons {j : Nat} {l : List Nat} :
      LinkedFrom a i (fwdA a j i) l → LinkedFrom a i (some j) (j :: l)

theorem LinkedFrom.head {a : List (Node K V)} {i : Nat} {s : Option Nat} {l : List Nat}
    (h : LinkedFrom a i s l) : s = l.head? := by
  cases h with
  | nil => rfl
  | cons h => rfl

theorem chain'_rel_of_append {α : Type _} {R : α → α → Prop} :
    ∀ (X : List α) {Y : List α} {p q : α}, List.Chain' R (X ++ p :: q :: Y) → R p q := by
  intro X
  induction X with
  | nil =>
    intro Y p q h
    exact (List.chain'_cons.mp h).1
  | cons z X ih =>
    intro Y p q h
    exact ih ((List.chain'_cons'.mp h).2)

theorem linkedFrom_iff (a : List (Node K V)) (i : Nat) (s : Option Nat) (l : List Nat) :
    LinkedFrom a i s l ↔
      s = l.head? ∧ l.Chain' (fun p q => fwdA a p i = some q) ∧
        (∀ x, l.getLast? = some x → fwdA a x i = none) := by
  induction l generalizing s with
  | nil =>
    constructor
    · intro h
      cases h
      exact ⟨rfl, List.chain'_nil, fun x hx => Option.noConfusion hx⟩
    · rintro ⟨hs, -, -⟩
      rw [hs]
      exact LinkedFrom.nil
  | cons x xs ih =>
    constructor
    · intro h
      cases h with
      | cons h' =>
        obtain ⟨hs, hc, hl⟩ := (ih _).mp h'
        refine ⟨rfl, ?_, ?_⟩
        · rw [List.chain'_cons']
          exact ⟨fun y hy => by rw [hs, hy], hc⟩
        · intro z hz
          cases xs with
          | nil =>
            simp only [List.getLast?_singleton, Option.some.injEq] at hz
            subst hz
            exact hs.trans rfl
          | cons y ys =>
            apply hl
            rw [List.getLast?_cons_cons] at hz
            exact hz
    · rintro ⟨hs, hc, hl⟩
      rw [hs]
      refine LinkedFrom.cons ((ih _).mpr ⟨?_, (List.chain'_cons'.mp hc).2, ?_⟩)
      · cases xs with
        | nil =>
          have := hl x (by simp)
          simp [this]
        | cons y ys =>
          have := (List.chain'_cons'.mp hc).1 y rfl
          simp [this]
      · intro z hz
        apply hl
        cases xs with
        | nil => exact Option.noConfusion hz
        | cons y ys => rw [List.getLast?_cons_cons]; exact hz

theorem LinkedFrom.congr {a a' : List (Node K V)} {i : Nat} {s : Option Nat} {l : List Nat}
    (h : LinkedFrom a i s l) (hf : ∀ x ∈ l, fwdA a' x i = fwdA a x i) :
    LinkedFrom a' i s l := by
  induction h with
  | nil => exact LinkedFrom.nil
  | @cons j l' h' ih =>
    refine LinkedFrom.cons ?_
    rw [hf j (List.mem_cons_self _ _)]
    exact ih (fun x hx => hf x (List.mem_cons_of_mem _ hx))

theorem LinkedFrom.next {a : List (Node K V)} {i : Nat} {s : Option Nat} {l : List Nat}
    (h : LinkedFrom a i s l) (X Y : List Nat) (p q : Nat) (hl : l = X ++ p :: q :: Y) :
    fwdA a p i = some q := by
  subst hl
  exact chain'_rel_of_append X ((linkedFrom_iff a i s _).mp h).2.1

theorem LinkedFrom.last_none {a : List (Node K V)} {i : Nat} {s : Option Nat} {l : List Nat}
    (h : LinkedFrom a i s l) (x : Nat) (hx : l.getLast? = some x) : fwdA a x i = none :=
  ((linkedFrom_iff a i s l).mp h).2.2 x hx

theorem walkFwd_eq {a : List (Node K V)} {i : Nat} {s : Option Nat} {l : List Nat}
    (h : LinkedFrom a i s l) : ∀ fuel, l.length ≤ fuel → walkFwd a i fuel s = l := by
  induction h with
  | nil =>
    intro fuel _
    cases fuel <;> rfl
  | @cons j l' h' ih =>
    intro fuel hf
    cases fuel with
    | zero => exact absurd hf (by simp)
    | succ f =>
      show j :: walkFwd a i f (fwdA a j i) = j :: l'
      rw [ih f (Nat.le_of_succ_le_succ hf)]

end SkipGo

namespace SkipGo

variable {K V : Type}

/-! ### Chains with node data, and the structural invariant -/

/-- The indices of a chain-with-data. -/
def idxs (D : List (Nat × Node K V)) : List Nat := D.map Prod.fst

/-- The key/value pairs of a chain-with-data. -/
def absPairs (D : List (Nat × Node K V)) : List (K × V) :=
  D.map (fun p => (p.2.key, p.2.value))

/-- The level-`i` view of a chain: the entries whose node participates at
level `i`. -/
def atLvl (D : List (Nat × Node K V)) (i : Nat) : List (Nat × Node K V) :=
  D.filter (fun p => decide (i < p.2.level))

variable [LinearOrder K]

/-- The prefix of entries with key `< k`. -/
def lowOf (D : List (Nat × Node K V)) (k : K) : List (Nat × Node K V) :=
  D.takeWhile (fun p => decide (p.2.key < k))

/-- The remainder after `lowOf`: the entries with key `≥ k` (on a sorted
chain). -/
def restOf (D : List (Nat × Node K V)) (k : K) : List (Nat × Node K V) :=
  D.dropWhile (fun p => decide (p.2.key < k))

/-- The level-`i` predecessor that `find` records in `updates[i]` for key
`k`: the last level-`i` entry with key `< k`, or the header. -/
def predIdx (D : List (Nat × Node K V)) (i : Nat) (k : K) : Nat :=
  (idxs (lowOf (atLvl D i) k)).getLastD 0

/-- The `(found, node)` outcome of `find` for key `k` on a sorted chain:
the first entry with key `≥ k`, if its key is exactly `k`. -/
def hitOf (D : List (Nat × Node K V)) (k : K) : Option Nat :=
  (restOf D k).head?.bind (fun p => if p.2.key = k then some p.1 else none)

/-- The hit, if any, that `find` records while processing level `i`. -/
def hitAt (D : List (Nat × Node K V)) (i : Nat) (k : K) : Option Nat :=
  hitOf (atLvl D i) k

/-- The structural invariant tying a container state `sl` to its level-0
chain-with-data `D` (`D` lists, in order, the arena index and node value of
every live node). -/
structure InvL (sl : Skiplist K V) (D : List (Nat × Node K V)) : Prop where
  hdr : ∃ h, nodeAt sl.arena 0 = some h ∧ h.forward.length = MaxLevel
  mem : ∀ p ∈ D, p.1 ≠ 0 ∧ 1 ≤ p.2.level ∧ p.2.level ≤ MaxLevel ∧
      ∃ n, nodeAt sl.arena p.1 = some n ∧ n.key = p.2.key ∧ n.value = p.2.value ∧
        n.level = p.2.level ∧ n.forward.length = p.2.level
  sorted : D.Pairwise (fun p q => p.2.key < q.2.key)
  upper : ∀ i < MaxLevel, LinkedFrom sl.arena i (fwdA sl.arena 0 i) (idxs (atLvl D i))
  bwd : List.Chain (fun x y => bwdA sl.arena y = some x) 0 (idxs D)
  tl0 : D = [] → sl.tail = none ∨ sl.tail = some 0
  tl1 : D ≠ [] → sl.tail = (idxs D).getLast?
  len : sl.length = (D.length : Int)

/-- A well-formed container: some chain-with-data satisfies `InvL`. -/
def Inv (sl : Skiplist K V) : Prop := ∃ D, InvL sl D

/-! ### Generic list helpers -/

theorem takeWhile_append_of {α : Type _} (p : α → Bool) :
    ∀ (A B : List α), (∀ a ∈ A, p a = true) → (∀ b ∈ B, p b = false) →
      (A ++ B).takeWhile p = A := by
  intro A
  induction A with
  | nil =>
    intro B _ hB
    cases B with
    | nil => rfl
    | cons b B' => simp [List.takeWhile_cons, hB b (by simp)]
  | cons a A' ih =>
    intro B hA hB
    simp only [List.cons_append, List.takeWhile_cons, hA a (by simp), if_true]
    rw [ih B (fun x hx => hA x (by simp [hx])) hB]

theorem dropWhile_append_of {α : Type _} (p : α → Bool) :
    ∀ (A B : List α), (∀ a ∈ A, p a = true) → (∀ b ∈ B, p b = false) →
      (A ++ B).dropWhile p = B := by
  intro A
  induction A with
  | nil =>
    intro B _ hB
    cases B with
    | nil => rfl
    | cons b B' => simp [List.dropWhile_cons, hB b (by simp)]
  | cons a A' ih =>
    intro B hA hB
    simp only [List.cons_append, List.dropWhile_cons, hA a (by simp), if_true]
    exact ih B (fun x hx => hA x (by simp [hx])) hB

theorem dropWhile_all_not {α : Type _} {R : α → α → Prop} {p : α → Bool}
    (hdc : ∀ x y, R x y → p y = true → p x = true) :
    ∀ (l : List α), l.Pairwise R → ∀ x ∈ l.dropWhile p, p x = false := by
  intro l
  induction l with
  | nil => intro _ x hx; simp at hx
  | cons a l' ih =>
    intro hs x hx
    rw [List.dropWhile_cons] at hx
    by_cases ha : p a = true
    · rw [if_pos ha] at hx
      exact ih (List.pairwise_cons.mp hs).2 x hx
    · rw [if_neg ha] at hx
      rcases List.mem_cons.mp hx with h | h
      · subst h; exact Bool.eq_false_iff.mpr ha
      · by_contra hpx
        have hx' : p x = true := Bool.not_eq_false _ |>.mp hpx
        exact ha (hdc a x ((List.pairwise_cons.mp hs).1 x h) hx')

theorem filter_last_split {α : Type _} (f : α → Bool) :
    ∀ (l : List α), l.filter f ≠ [] →
      ∃ l1 p l2, l = l1 ++ p :: l2 ∧ f p = true ∧ l2.filter f = [] ∧
        (l.filter f).getLast? = some p := by
  intro l
  induction l using List.reverseRecOn with
  | nil => intro h; exact absurd rfl h
  | append_singleton l' z ih =>
    intro h
    by_cases hz : f z = true
    · refine ⟨l', z, [], rfl, hz, rfl, ?_⟩
      rw [List.filter_append, List.filter_cons, if_pos hz]
      simp
    · have hfz : (l' ++ [z]).filter f = l'.filter f := by
        rw [List.filter_append, List.filter_cons, if_neg hz]
        simp
      rw [hfz] at h
      obtain ⟨l1, p, l2, hsplit, hp, hl2, hlast⟩ := ih h
      refine ⟨l1, p, l2 ++ [z], ?_, hp, ?_, ?_⟩
      · rw [hsplit]; simp
      · rw [List.filter_append, hl2, List.filter_cons, if_neg hz]
        simp
      · rw [hfz, hlast]

theorem getLastD_append_cons {α : Type _} :
    ∀ (A : List α) (p : α) (B : List α) (d : α), (A ++ p :: B).getLastD d = B.getLastD p := by
  intro A
  induction A with
  | nil => intro p B d; rw [List.nil_append, List.getLastD_cons]
  | cons a A' ih =>
    intro p B d
    rw [List.cons_append, List.getLastD_cons, ih]

theorem cons_eq_append_getLastD {α : Type _} :
    ∀ (l : List α) (d : α), ∃ Y, d :: l = Y ++ [l.getLastD d] := by
  intro l
  induction l with
  | nil => intro d; exact ⟨[], rfl⟩
  | cons a l' ih =>
    intro d
    obtain ⟨Y', hY⟩ := ih a
    exact ⟨d :: Y', by rw [List.getLastD_cons, List.cons_append, ← hY]⟩

end SkipGo

namespace SkipGo

variable {K V : Type} [LinearOrder K]
variable {sl : Skiplist K V} {D : List (Nat × Node K V)}

/-! ### Facts derived from the invariant -/

theorem mem_of_atLvl {i : Nat} {p : Nat × Node K V} (hp : p ∈ atLvl D i) : p ∈ D :=
  List.mem_of_mem_filter hp

theorem mem_of_lowOf {k : K} {p : Nat × Node K V} (hp : p ∈ lowOf D k) : p ∈ D :=
  List.Sublist.mem hp (List.takeWhile_sublist _)

theorem mem_of_restOf {k : K} {p : Nat × Node K V} (hp : p ∈ restOf D k) : p ∈ D :=
  List.Sublist.mem hp (List.dropWhile_sublist _)

theorem InvL.atLvl_zero (h : InvL sl D) : atLvl D 0 = D := by
  rw [atLvl]
  refine List.filter_eq_self.mpr ?_
  intro p hp
  simpa using (h.mem p hp).2.1

theorem InvL.atLvl_top (h : InvL sl D) : atLvl D MaxLevel = [] := by
  rw [atLvl]
  refine List.filter_eq_nil.mpr ?_
  intro p hp
  simp only [decide_eq_true_eq, not_lt]
  exact (h.mem p hp).2.2.1

theorem InvL.keyLtA_of_mem (h : InvL sl D) {p : Nat × Node K V} (hp : p ∈ D) (k : K) :
    keyLtA sl.arena p.1 k = decide (p.2.key < k) := by
  obtain ⟨-, -, -, n, hn, hk, -, -, -⟩ := h.mem p hp
  rw [keyLtA, hn]
  show decide (n.key < k) = decide (p.2.key < k)
  rw [hk]

theorem InvL.keyEqA_of_mem (h : InvL sl D) {p : Nat × Node K V} (hp : p ∈ D) (k : K) :
    keyEqA sl.arena p.1 k = decide (p.2.key = k) := by
  obtain ⟨-, -, -, n, hn, hk, -, -, -⟩ := h.mem p hp
  rw [keyEqA, hn]
  show decide (n.key = k) = decide (p.2.key = k)
  rw [hk]

theorem InvL.sorted_atLvl (h : InvL sl D) (i : Nat) :
    (atLvl D i).Pairwise (fun p q => p.2.key < q.2.key) :=
  List.Pairwise.sublist (List.filter_sublist _) h.sorted

theorem InvL.idx_nodup (h : InvL sl D) : (idxs D).Nodup := by
  rw [idxs, List.Nodup, List.pairwise_map]
  refine List.Pairwise.imp_of_mem ?_ h.sorted
  intro p q hp hq hlt heq
  obtain ⟨-, -, -, n, hn, hk, -, -, -⟩ := h.mem p hp
  obtain ⟨-, -, -, n', hn', hk', -, -, -⟩ := h.mem q hq
  rw [heq, hn'] at hn
  have h3 : n' = n := by injection hn
  rw [← hk, ← hk', h3] at hlt
  exact lt_irrefl _ hlt

theorem InvL.length_lt_arena (h : InvL sl D) : D.length < sl.arena.length := by
  obtain ⟨hd, hhd, -⟩ := h.hdr
  have h0 : 0 < sl.arena.length := nodeAt_lt_length hhd
  have hlen : D.length = (idxs D).length := by rw [idxs, List.length_map]
  rw [hlen]
  have hnd := h.idx_nodup
  have hsub : (idxs D).toFinset ⊆ (Finset.range sl.arena.length).erase 0 := by
    intro j hj
    rw [List.mem_toFinset] at hj
    rw [idxs, List.mem_map] at hj
    obtain ⟨p, hp, rfl⟩ := hj
    obtain ⟨h01, -, -, n, hn, -⟩ := h.mem p hp
    refine Finset.mem_erase.mpr ⟨h01, ?_⟩
    rw [Finset.mem_range]
    exact nodeAt_lt_length hn
  have hc := Finset.card_le_card hsub
  rw [List.toFinset_card_of_nodup hnd] at hc
  have hce : ((Finset.range sl.arena.length).erase 0).card = sl.arena.length - 1 := by
    rw [Finset.card_erase_of_mem (Finset.mem_range.mpr h0), Finset.card_range]
  omega

theorem InvL.chain0 (h : InvL sl D) :
    LinkedFrom sl.arena 0 (fwdA sl.arena 0 0) (idxs D) := by
  have hu := h.upper 0 (by decide)
  rwa [h.atLvl_zero] at hu

theorem InvL.chainIdx_eq (h : InvL sl D) : chainIdx sl = idxs D := by
  rw [chainIdx, chainAt]
  refine walkFwd_eq h.chain0 _ ?_
  rw [idxs, List.length_map]
  exact le_of_lt h.length_lt_arena

theorem InvL.chainAt_eq (h : InvL sl D) {i : Nat} (hi : i < MaxLevel) :
    chainAt sl i = idxs (atLvl D i) := by
  rw [chainAt]
  refine walkFwd_eq (h.upper i hi) _ ?_
  rw [idxs, List.length_map]
  exact le_of_lt (lt_of_le_of_lt (List.length_filter_le _ _) h.length_lt_arena)

theorem filterMap_idxs {a : List (Node K V)} :
    ∀ (D : List (Nat × Node K V)),
      (∀ p ∈ D, ∃ n, nodeAt a p.1 = some n ∧ n.key = p.2.key ∧ n.value = p.2.value) →
      (idxs D).filterMap (fun j => (nodeAt a j).map (fun n => (n.key, n.value))) = absPairs D := by
  intro D
  induction D with
  | nil => intro _; rfl
  | cons p D' ih =>
    intro hmem
    obtain ⟨n, hn, hk, hv⟩ := hmem p (by simp)
    simp only [idxs, List.map_cons, List.filterMap_cons, hn, Option.map_some']
    rw [show (List.map Prod.fst D' : List Nat) = idxs D' from rfl,
      ih (fun q hq => hmem q (by simp [hq]))]
    show (n.key, n.value) :: absPairs D' = absPairs (p :: D')
    rw [hk, hv]
    rfl

theorem InvL.pairsOf_eq (h : InvL sl D) : pairsOf sl = absPairs D := by
  rw [pairsOf, h.chainIdx_eq]
  refine filterMap_idxs D ?_
  intro p hp
  obtain ⟨-, -, -, n, hn, hk, hv, -, -⟩ := h.mem p hp
  exact ⟨n, hn, hk, hv⟩

theorem InvL.pairs_sorted (h : InvL sl D) :
    (absPairs D).Pairwise (fun x y => x.1 < y.1) := by
  rw [absPairs, List.pairwise_map]
  exact h.sorted

end SkipGo

namespace SkipGo

variable {K V : Type} [LinearOrder K]
variable {sl : Skiplist K V} {D : List (Nat × Node K V)}

/-! ### Characterizing `find` -/

theorem InvL.full_chain (h : InvL sl D) {i : Nat} (hi : i < MaxLevel) :
    List.Chain' (fun x y => fwdA sl.arena x i = some y) (0 :: idxs (atLvl D i)) ∧
      (∀ x, (0 :: idxs (atLvl D i)).getLast? = some x → fwdA sl.arena x i = none) := by
  have hu := h.upper i hi
  obtain ⟨hs, hc, hl⟩ := (linkedFrom_iff _ _ _ _).mp hu
  constructor
  · rw [List.chain'_cons']
    refine ⟨?_, hc⟩
    intro y hy
    rw [hs, hy]
  · intro x hx
    cases hE : idxs (atLvl D i) with
    | nil =>
      rw [hE, List.getLast?_singleton] at hx
      have hx0 : x = 0 := by injection hx; omega
      subst hx0
      rw [hs, hE]
      rfl
    | cons y ys =>
      apply hl
      rw [hE] at hx ⊢
      rw [List.getLast?_cons_cons] at hx
      exact hx

theorem advance_decomp {a : List (Node K V)} {i : Nat} {k : K} :
    ∀ (M X R : List Nat) (c fuel : Nat),
      List.Chain' (fun x y => fwdA a x i = some y) (X ++ c :: (M ++ R)) →
      (∀ x, (X ++ c :: (M ++ R)).getLast? = some x → fwdA a x i = none) →
      (∀ m ∈ M, keyLtA a m k = true) →
      (∀ x ∈ R, keyLtA a x k = false) →
      M.length + 1 ≤ fuel →
      advance a i k fuel c = M.getLastD c := by
  intro M
  induction M with
  | nil =>
    intro X R c fuel hchain hlast hM hR hfuel
    cases fuel with
    | zero => omega
    | succ f =>
      cases R with
      | nil =>
        have hlc : (X ++ c :: ([] ++ [])).getLast? = some c := by simp
        have hnone := hlast c hlc
        simp [advance, hnone]
      | cons r' R' =>
        have hnext : fwdA a c i = some r' := chain'_rel_of_append X hchain
        have hr' : keyLtA a r' k = false := hR r' (by simp)
        simp [advance, hnext, hr']
  | cons m M' ih =>
    intro X R c fuel hchain hlast hM hR hfuel
    cases fuel with
    | zero => omega
    | succ f =>
      have hnext : fwdA a c i = some m := chain'_rel_of_append X hchain
      have hm : keyLtA a m k = true := hM m (by simp)
      have hshape : X ++ c :: ((m :: M') ++ R) = (X ++ [c]) ++ m :: (M' ++ R) := by simp
      rw [hshape] at hchain hlast
      have hrec := ih (X ++ [c]) R m f hchain hlast
        (fun x hx => hM x (by simp [hx])) hR (by simp at hfuel ⊢; omega)
      simp only [advance, hnext, hm, if_true]
      rw [hrec, List.getLastD_cons]

theorem atLvl_atLvl (D : List (Nat × Node K V)) (i : Nat) :
    atLvl D (i+1) = (atLvl D i).filter (fun p => decide (i+1 < p.2.level)) := by
  unfold atLvl
  rw [List.filter_filter]
  congr 1
  funext p
  by_cases h1 : i+1 < p.2.level
  · simp [h1, Nat.lt_of_succ_lt h1]
  · simp [h1]

theorem sorted_key_dc (k : K) :
    ∀ (x y : Nat × Node K V), x.2.key < y.2.key →
      decide (y.2.key < k) = true → decide (x.2.key < k) = true := by
  intro x y hxy hy
  simp only [decide_eq_true_eq] at hy ⊢
  exact lt_trans hxy hy

theorem InvL.advance_eq (h : InvL sl D) {i : Nat} (hi : i < MaxLevel) (k : K) :
    advance sl.arena i k sl.arena.length (predIdx D (i+1) k) = predIdx D i k := by
  obtain ⟨hchain, hlast⟩ := h.full_chain hi
  have hsplit : atLvl D i = lowOf (atLvl D i) k ++ restOf (atLvl D i) k :=
    (List.takeWhile_append_dropWhile _ _).symm
  have hclt : ∀ p ∈ lowOf (atLvl D i) k, decide (p.2.key < k) = true := by
    intro p hp
    exact @List.mem_takeWhile_imp _ (fun q : Nat × Node K V => decide (q.2.key < k)) _ _ hp
  have hcrf : ∀ p ∈ restOf (atLvl D i) k, decide (p.2.key < k) = false :=
    dropWhile_all_not (sorted_key_dc k) _ (h.sorted_atLvl i)
  have hlow_eq : lowOf (atLvl D (i+1)) k =
      (lowOf (atLvl D i) k).filter (fun p => decide (i+1 < p.2.level)) := by
    rw [atLvl_atLvl]
    show ((atLvl D i).filter (fun p => decide (i+1 < p.2.level))).takeWhile
        (fun p => decide (p.2.key < k)) =
      (lowOf (atLvl D i) k).filter (fun p => decide (i+1 < p.2.level))
    conv_lhs => rw [hsplit]
    rw [List.filter_append]
    exact takeWhile_append_of _ _ _
      (fun p hp => hclt p (List.mem_of_mem_filter hp))
      (fun p hp => hcrf p (List.mem_of_mem_filter hp))
  have hMmem : ∀ m ∈ idxs (lowOf (atLvl D i) k), keyLtA sl.arena m k = true := by
    intro m hm
    rw [idxs, List.mem_map] at hm
    obtain ⟨p, hp, rfl⟩ := hm
    rw [h.keyLtA_of_mem (mem_of_atLvl (mem_of_lowOf hp)) k]
    exact hclt p hp
  have hRmem : ∀ x ∈ idxs (restOf (atLvl D i) k), keyLtA sl.arena x k = false := by
    intro x hx
    rw [idxs, List.mem_map] at hx
    obtain ⟨p, hp, rfl⟩ := hx
    rw [h.keyLtA_of_mem (mem_of_atLvl (mem_of_restOf hp)) k]
    exact hcrf p hp
  have hfuel : (idxs (lowOf (atLvl D i) k)).length + 1 ≤ sl.arena.length := by
    have h1 : (lowOf (atLvl D i) k).length ≤ (atLvl D i).length :=
      List.Sublist.length_le (List.takeWhile_sublist _)
    have h2 : (atLvl D i).length ≤ D.length :=
      List.Sublist.length_le (List.filter_sublist _)
    have h3 := h.length_lt_arena
    rw [idxs, List.length_map]
    omega
  rw [predIdx, hlow_eq]
  by_cases hE : (lowOf (atLvl D i) k).filter (fun p => decide (i+1 < p.2.level)) = []
  · rw [hE]
    have hc0 : (idxs ([] : List (Nat × Node K V))).getLastD 0 = 0 := rfl
    rw [hc0]
    have hdecomp : (0 : Nat) :: idxs (atLvl D i) =
        [] ++ 0 :: (idxs (lowOf (atLvl D i) k) ++ idxs (restOf (atLvl D i) k)) := by
      rw [List.nil_append]
      congr 1
      conv_lhs => rw [hsplit]
      simp [idxs]
    rw [hdecomp] at hchain hlast
    rw [advance_decomp _ [] _ 0 _ hchain hlast hMmem hRmem hfuel]
    rw [predIdx]
  · obtain ⟨cl1, p, cl2, hcl, hfp, hcl2, hlastp⟩ := filter_last_split _ _ hE
    have hc : (idxs ((lowOf (atLvl D i) k).filter
        (fun p => decide (i+1 < p.2.level)))).getLastD 0 = p.1 := by
      rw [idxs, List.getLastD_eq_getLast?, List.getLast?_map, hlastp]
      rfl
    rw [hc]
    have hdecomp : (0 : Nat) :: idxs (atLvl D i) =
        (0 :: idxs cl1) ++ p.1 :: (idxs cl2 ++ idxs (restOf (atLvl D i) k)) := by
      rw [List.cons_append]
      congr 1
      conv_lhs => rw [hsplit, hcl]
      simp [idxs]
    rw [hdecomp] at hchain hlast
    have hM2 : ∀ m ∈ idxs cl2, keyLtA sl.arena m k = true := by
      intro m hm
      refine hMmem m ?_
      rw [hcl]
      simp only [idxs, List.map_append, List.map_cons, List.mem_append, List.mem_cons]
      simp only [idxs] at hm
      exact Or.inr (Or.inr hm)
    rw [advance_decomp _ (0 :: idxs cl1) _ p.1 _ hchain hlast hM2 hRmem ?_]
    · rw [predIdx, hcl]
      simp only [idxs, List.map_append, List.map_cons]
      rw [getLastD_append_cons]
    · have hle : (idxs cl2).length + 1 ≤ (idxs (lowOf (atLvl D i) k)).length := by
        simp only [idxs, List.length_map, hcl, List.length_append, List.length_cons]
        omega
      omega

end SkipGo

namespace SkipGo

variable {K V : Type} [LinearOrder K]
variable {sl : Skiplist K V} {D : List (Nat × Node K V)}

theorem InvL.fwd_pred (h : InvL sl D) {i : Nat} (hi : i < MaxLevel) (k : K) :
    fwdA sl.arena (predIdx D i k) i = (idxs (restOf (atLvl D i) k)).head? := by
  obtain ⟨hchain, hlast⟩ := h.full_chain hi
  have hsplit : atLvl D i = lowOf (atLvl D i) k ++ restOf (atLvl D i) k :=
    (List.takeWhile_append_dropWhile _ _).symm
  obtain ⟨Y, hY⟩ := cons_eq_append_getLastD (idxs (lowOf (atLvl D i) k)) 0
  have hF : (0 : Nat) :: idxs (atLvl D i) =
      Y ++ predIdx D i k :: idxs (restOf (atLvl D i) k) := by
    conv_lhs => rw [hsplit]
    rw [show idxs (lowOf (atLvl D i) k ++ restOf (atLvl D i) k) =
      idxs (lowOf (atLvl D i) k) ++ idxs (restOf (atLvl D i) k) by simp [idxs]]
    rw [← List.cons_append, hY, List.append_assoc]
    rfl
  cases hcr : idxs (restOf (atLvl D i) k) with
  | nil =>
    rw [hcr] at hF
    have hlc : (0 :: idxs (atLvl D i)).getLast? = some (predIdx D i k) := by
      rw [hF]
      exact List.getLast?_concat Y
    rw [hlast _ hlc]
    rfl
  | cons q qs =>
    rw [hcr] at hF
    have hnext : fwdA sl.arena (predIdx D i k) i = some q :=
      chain'_rel_of_append Y (hF ▸ hchain)
    rw [hnext]
    rfl

theorem InvL.hitTest_eq (h : InvL sl D) {i : Nat} (hi : i < MaxLevel) (k : K) :
    hitTest sl.arena k i (predIdx D i k) = hitAt D i k := by
  rw [hitTest, h.fwd_pred hi k, hitAt, hitOf]
  cases hcr : restOf (atLvl D i) k with
  | nil => rfl
  | cons q qs =>
    have hmemq : q ∈ D := by
      refine mem_of_atLvl (@mem_of_restOf K V _ (atLvl D i) k q ?_)
      rw [hcr]
      exact List.mem_cons_self q qs
    show (if keyEqA sl.arena q.1 k then some q.1 else none) =
      (if q.2.key = k then some q.1 else none)
    rw [h.keyEqA_of_mem hmemq k]
    by_cases hqk : q.2.key = k
    · simp [hqk]
    · simp [hqk]

theorem restOf_head_of_mem {D : List (Nat × Node K V)} {k : K}
    (hs : D.Pairwise (fun p q => p.2.key < q.2.key)) {p : Nat × Node K V}
    (hp : p ∈ D) (hk : p.2.key = k) : (restOf D k).head? = some p := by
  have hsplit :=
    (List.takeWhile_append_dropWhile (fun q : Nat × Node K V => decide (q.2.key < k)) D).symm
  have hnl : p ∉ lowOf D k := by
    intro hmem
    have hlt := @List.mem_takeWhile_imp _ (fun q : Nat × Node K V => decide (q.2.key < k)) _ _ hmem
    simp only [decide_eq_true_eq] at hlt
    rw [hk] at hlt
    exact lt_irrefl _ hlt
  have hpr : p ∈ restOf D k := by
    have hmm : p ∈ lowOf D k ++ restOf D k := hsplit ▸ hp
    rcases List.mem_append.mp hmm with h1 | h2
    · exact absurd h1 hnl
    · exact h2
  cases hcr : restOf D k with
  | nil => rw [hcr] at hpr; simp at hpr
  | cons q t =>
    rw [hcr] at hpr
    rcases List.mem_cons.mp hpr with heq | hpt
    · rw [heq]
      rfl
    · exfalso
      have hsr : (restOf D k).Pairwise (fun p q => p.2.key < q.2.key) :=
        List.Pairwise.sublist (List.dropWhile_sublist _) hs
      rw [hcr] at hsr
      have hqp : q.2.key < p.2.key := (List.pairwise_cons.mp hsr).1 p hpt
      have hqk : decide (q.2.key < k) = false := by
        refine dropWhile_all_not (sorted_key_dc k) D hs q ?_
        show q ∈ restOf D k
        rw [hcr]
        exact List.mem_cons_self q t
      rw [hk] at hqp
      simp only [decide_eq_false_iff_not] at hqk
      exact hqk hqp

theorem InvL.hitOf_of_hitAt (h : InvL sl D) (i : Nat) (k : K) {x : Nat}
    (hx : hitAt D i k = some x) : hitOf D k = some x := by
  rw [hitAt, hitOf] at hx
  cases hcr : (restOf (atLvl D i) k).head? with
  | none => rw [hcr] at hx; exact Option.noConfusion hx
  | some p =>
    rw [hcr] at hx
    simp only [Option.some_bind] at hx
    by_cases hpk : p.2.key = k
    · rw [if_pos hpk] at hx
      have hmh : p ∈ (restOf (atLvl D i) k).head? := by
        rw [Option.mem_def, hcr]
      have hpd : p ∈ D := mem_of_atLvl (mem_of_restOf (List.mem_of_mem_head? hmh))
      rw [hitOf, restOf_head_of_mem h.sorted hpd hpk]
      simpa [hpk] using hx
    · rw [if_neg hpk] at hx
      exact Option.noConfusion hx

theorem hitAt_zero (h : InvL sl D) (k : K) : hitAt D 0 k = hitOf D k := by
  rw [hitAt, h.atLvl_zero]

theorem InvL.findLoop_eq (h : InvL sl D) (k : K) :
    ∀ i, i ≤ MaxLevel →
      findLoop sl.arena k i (predIdx D i k) =
        (decide (0 < i) && (hitOf D k).isSome,
         if 0 < i then hitOf D k else none,
         (List.range i).map (fun t => predIdx D t k)) := by
  intro i
  induction i with
  | zero =>
    intro _
    simp [findLoop]
  | succ i ih =>
    intro hle
    have hi : i < MaxLevel := Nat.lt_of_lt_of_le (Nat.lt_succ_self i) hle
    have hadv := h.advance_eq hi k
    have hhit := h.hitTest_eq hi k
    have hr := ih (Nat.le_of_succ_le hle)
    simp only [findLoop]
    rw [hadv, hhit, hr]
    refine Prod.ext ?_ (Prod.ext ?_ ?_)
    · show (decide (0 < i) && (hitOf D k).isSome || (hitAt D i k).isSome) =
        (decide (0 < i+1) && (hitOf D k).isSome)
      rcases Nat.eq_zero_or_pos i with hz | hpos
      · subst hz
        rw [hitAt_zero h k]
        simp
      · cases hP : hitOf D k with
        | some x => simp [hpos]
        | none =>
          have hA : hitAt D i k = none := by
            cases hA' : hitAt D i k with
            | none => rfl
            | some y =>
              have := h.hitOf_of_hitAt i k hA'
              rw [hP] at this
              exact Option.noConfusion this
          simp [hA, hpos]
    · show ((if 0 < i then hitOf D k else none) <|> hitAt D i k) =
        (if 0 < i+1 then hitOf D k else none)
      rcases Nat.eq_zero_or_pos i with hz | hpos
      · subst hz
        rw [hitAt_zero h k]
        simp
      · rw [if_pos hpos, if_pos (Nat.succ_pos i)]
        cases hP : hitOf D k with
        | some x => rfl
        | none =>
          have hA : hitAt D i k = none := by
            cases hA' : hitAt D i k with
            | none => rfl
            | some y =>
              have := h.hitOf_of_hitAt i k hA'
              rw [hP] at this
              exact Option.noConfusion this
          rw [hA]
          rfl
    · show (List.range i).map (fun t => predIdx D t k) ++ [predIdx D i k] =
        (List.range (i+1)).map (fun t => predIdx D t k)
      rw [List.range_succ, List.map_append]
      rfl

theorem InvL.find_eq (h : InvL sl D) (k : K) :
    find sl k = ((hitOf D k).isSome, hitOf D k,
      (List.range MaxLevel).map (fun t => predIdx D t k)) := by
  have h12 : predIdx D MaxLevel k = 0 := by
    rw [predIdx, h.atLvl_top]
    rfl
  have hfl := h.findLoop_eq k MaxLevel (le_refl _)
  rw [h12] at hfl
  rw [find, hfl]
  refine Prod.ext ?_ (Prod.ext rfl rfl)
  show (decide (0 < MaxLevel) && (hitOf D k).isSome) = (hitOf D k).isSome
  rw [show decide (0 < MaxLevel) = true by decide]
  simp

theorem getD_map_range (f : Nat → Nat) {i n : Nat} (hi : i < n) :
    ((List.range n).map f).getD i 0 = f i := by
  rw [List.getD_eq_get?, List.get?_map, List.get?_range hi]
  rfl

theorem InvL.find_ups (h : InvL sl D) (k : K) {i : Nat} (hi : i < MaxLevel) :
    (find sl k).2.2.getD i 0 = predIdx D i k := by
  rw [h.find_eq k]
  exact getD_map_range _ hi

end SkipGo

namespace SkipGo

variable {K V : Type} [LinearOrder K]
variable {sl : Skiplist K V} {D : List (Nat × Node K V)}

/-! ### Shape preservation and chain congruence -/

/-- Agreement of two nodes on everything except the contents of their link
fields. -/
def NodeShape (n n' : Node K V) : Prop :=
  n'.key = n.key ∧ n'.value = n.value ∧ n'.level = n.level ∧
    n'.forward.length = n.forward.length

/-- Every node of `a0` is still present in `aF` with key, value, level and
forward capacity intact (only link contents may differ). -/
def ShapeEq (a0 aF : List (Node K V)) : Prop :=
  ∀ j n, nodeAt a0 j = some n → ∃ n', nodeAt aF j = some n' ∧ NodeShape n n'

theorem shapeEq_refl (a : List (Node K V)) : ShapeEq a a :=
  fun _ n hn => ⟨n, hn, rfl, rfl, rfl, rfl⟩

theorem shapeEq_setFwd {a0 aF : List (Node K V)} (h : ShapeEq a0 aF)
    (j i : Nat) (p : Option Nat) : ShapeEq a0 (setFwd aF j i p) := by
  intro j' n hn
  obtain ⟨n', hn', h1, h2, h3, h4⟩ := h j' n hn
  rw [nodeAt_setFwd]
  by_cases hj : j' = j
  · subst hj
    rw [if_pos rfl, hn']
    refine ⟨{ n' with forward := n'.forward.set i p }, ?_, h1, h2, h3, by simpa using h4⟩
    rw [Option.map_some']
  · rw [if_neg hj]
    exact ⟨n', hn', h1, h2, h3, h4⟩

theorem shapeEq_setBwd {a0 aF : List (Node K V)} (h : ShapeEq a0 aF)
    (j : Nat) (p : Option Nat) : ShapeEq a0 (setBwd aF j p) := by
  intro j' n hn
  obtain ⟨n', hn', h1, h2, h3, h4⟩ := h j' n hn
  rw [nodeAt_setBwd]
  by_cases hj : j' = j
  · subst hj
    rw [if_pos rfl, hn']
    refine ⟨{ n' with backward := p }, ?_, h1, h2, h3, h4⟩
    rw [Option.map_some']
  · rw [if_neg hj]
    exact ⟨n', hn', h1, h2, h3, h4⟩

theorem shapeEq_append (a l : List (Node K V)) : ShapeEq a (a ++ l) := by
  intro j n hn
  rw [nodeAt_append_lt l (nodeAt_lt_length hn)]
  exact ⟨n, hn, rfl, rfl, rfl, rfl⟩

theorem chain'_congr_dropLast {α : Type _} {R S : α → α → Prop} :
    ∀ l : List α, List.Chain' R l → (∀ x ∈ l.dropLast, ∀ y, R x y → S x y) →
      List.Chain' S l := by
  intro l
  induction l with
  | nil => intros; exact List.chain'_nil
  | cons x xs ih =>
    intro hc hd
    cases xs with
    | nil => exact List.chain'_singleton x
    | cons z zs =>
      rw [List.chain'_cons] at hc ⊢
      refine ⟨hd x (by simp) z hc.1, ih hc.2 ?_⟩
      intro w hw y hR
      refine hd w ?_ y hR
      show w ∈ x :: (z :: zs).dropLast
      exact List.mem_cons_of_mem x hw

theorem chain'_congr_tail {α : Type _} {R S : α → α → Prop} :
    ∀ l : List α, List.Chain' R l → (∀ y ∈ l.tail, ∀ x, R x y → S x y) →
      List.Chain' S l := by
  intro l
  induction l with
  | nil => intros; exact List.chain'_nil
  | cons x xs ih =>
    intro hc hd
    cases xs with
    | nil => exact List.chain'_singleton x
    | cons z zs =>
      rw [List.chain'_cons] at hc ⊢
      refine ⟨hd z (by simp) x hc.1, ih hc.2 ?_⟩
      intro w hw y hR
      exact hd w (List.mem_cons_of_mem z hw) y hR

theorem getD_replicate {α : Type _} (x : α) : ∀ (n i : Nat), (List.replicate n x).getD i x = x := by
  intro n
  induction n with
  | zero => intro i; rfl
  | succ n ih =>
    intro i
    cases i with
    | zero => rfl
    | succ i' => exact ih i'

/-! ### `New` establishes the invariant -/

theorem new_inv (zk : K) (zv : V) : InvL (new zk zv) ([] : List (Nat × Node K V)) := by
  have hhd : nodeAt (new zk zv).arena 0 =
      some ⟨zk, zv, MaxLevel, List.replicate MaxLevel none, none⟩ := rfl
  refine ⟨⟨_, hhd, by simp⟩, ?_, List.Pairwise.nil, ?_, List.Chain.nil, ?_, ?_, rfl⟩
  · intro p hp
    simp at hp
  · intro i _
    have hf : fwdA (new zk zv).arena 0 i = none := by
      rw [fwdA_of_nodeAt hhd]
      exact getD_replicate none MaxLevel i
    show LinkedFrom (new zk zv).arena i (fwdA (new zk zv).arena 0 i) []
    rw [hf]
    exact LinkedFrom.nil
  · intro _
    exact Or.inl rfl
  · intro hne
    exact absurd rfl hne

/-! ### `Put` on an empty container -/

theorem put_inv_empty (h : InvL sl D) (hD : D = []) (k : K) (v : V) (lvl : Nat) :
    InvL (put sl k v lvl)
      [(sl.arena.length, ⟨k, v, 1, [none], some 0⟩)] := by
  subst hD
  have hlen0 : sl.length = 0 := by simpa using h.len
  obtain ⟨h0, hh0, hlen12⟩ := h.hdr
  have h0lt : 0 < sl.arena.length := nodeAt_lt_length hh0
  rw [put, if_pos hlen0]
  show InvL
    { arena := setFwd sl.arena 0 0 (some sl.arena.length) ++
        [{ key := k, value := v, level := 1, forward := [none], backward := some 0 }],
      tail := some sl.arena.length, level := sl.level, length := 1 }
    [(sl.arena.length, ⟨k, v, 1, [none], some 0⟩)]
  have hlenS : (setFwd sl.arena 0 0 (some sl.arena.length)).length = sl.arena.length :=
    length_setFwd _ _ _ _
  have hnew : nodeAt (setFwd sl.arena 0 0 (some sl.arena.length) ++
      [{ key := k, value := v, level := 1, forward := [none], backward := some 0 }])
      sl.arena.length =
      some { key := k, value := v, level := 1, forward := [none], backward := some 0 } := by
    have hx := nodeAt_append_self (setFwd sl.arena 0 0 (some sl.arena.length))
      { key := k, value := v, level := 1, forward := [none], backward := some 0 }
    rw [hlenS] at hx
    exact hx
  have hhd' : nodeAt (setFwd sl.arena 0 0 (some sl.arena.length) ++
      [{ key := k, value := v, level := 1, forward := [none], backward := some 0 }]) 0 =
      some { h0 with forward := h0.forward.set 0 (some sl.arena.length) } := by
    rw [nodeAt_append_lt _ (by rw [hlenS]; exact h0lt), nodeAt_setFwd, if_pos rfl, hh0]
    rfl
  refine ⟨⟨_, hhd', by simpa using hlen12⟩, ?_, ?_, ?_, ?_, ?_, ?_, rfl⟩
  · intro p hp
    rw [List.mem_singleton] at hp
    subst hp
    exact ⟨Nat.pos_iff_ne_zero.mp h0lt, by simp, by show (1:Nat) ≤ MaxLevel; decide, _, hnew,
      rfl, rfl, rfl, rfl⟩
  · exact List.pairwise_singleton _ _
  · intro i hi
    by_cases hiz : i = 0
    · subst hiz
      have hf0 : fwdA (setFwd sl.arena 0 0 (some sl.arena.length) ++
          [{ key := k, value := v, level := 1, forward := [none], backward := some 0 }]) 0 0 =
          some sl.arena.length := by
        rw [fwdA_of_nodeAt hhd']
        show (h0.forward.set 0 (some sl.arena.length)).getD 0 none = some sl.arena.length
        rw [List.getD_eq_get?, List.get?_set_eq]
        rw [List.get?_eq_get (by omega : 0 < h0.forward.length)]
        rfl
      show LinkedFrom _ 0 (fwdA _ 0 0) (idxs (atLvl [(sl.arena.length, ⟨k, v, 1, [none], some 0⟩)] 0))
      rw [hf0]
      rw [show idxs (atLvl [(sl.arena.length, ⟨k, v, 1, [none], some 0⟩)] 0) = [sl.arena.length] from rfl]
      refine LinkedFrom.cons ?_
      rw [fwdA_of_nodeAt hnew]
      exact LinkedFrom.nil
    · have hfi : fwdA (setFwd sl.arena 0 0 (some sl.arena.length) ++
          [{ key := k, value := v, level := 1, forward := [none], backward := some 0 }]) 0 i =
          fwdA sl.arena 0 i := by
        rw [fwdA_append_lt _ (by rw [hlenS]; exact h0lt), fwdA_setFwd_slot _ _ _ _ hiz]
      have hold : fwdA sl.arena 0 i = none := by
        have hu := h.upper i hi
        rw [show atLvl ([] : List (Nat × Node K V)) i = [] from rfl] at hu
        exact hu.head
      have hemp : idxs (atLvl [(sl.arena.length, ⟨k, v, 1, [none], some 0⟩)] i) = [] := by
        have hlt : ¬ i < 1 := by omega
        simp [atLvl, idxs, hlt]
      show LinkedFrom _ i (fwdA _ 0 i) (idxs (atLvl [(sl.arena.length, ⟨k, v, 1, [none], some 0⟩)] i))
      rw [hfi, hold, hemp]
      exact LinkedFrom.nil
  · show List.Chain _ 0 [sl.arena.length]
    refine List.Chain.cons ?_ List.Chain.nil
    rw [bwdA_of_nodeAt hnew]
  · intro hne
    exact absurd hne (by simp)
  · intro _
    rfl

end SkipGo

namespace SkipGo

variable {K V : Type} [LinearOrder K]
variable {sl : Skiplist K V} {D : List (Nat × Node K V)}

theorem fwdA_setFwd_untouched {a : List (Node K V)} (j i : Nat) (p : Option Nat)
    {j' i' : Nat} (h : j' ≠ j ∨ i' ≠ i) :
    fwdA (setFwd a j i p) j' i' = fwdA a j' i' := by
  rcases h with h | h
  · exact fwdA_setFwd_other a j i p h i'
  · by_cases hj : j' = j
    · rw [hj]
      exact fwdA_setFwd_slot a j i p h
    · exact fwdA_setFwd_other a j i p hj i'

/-- What the splice loop of `Put` (skiplist.go:91) has done to the heap after
its first `m` iterations: slot `i < m` of predecessor `pI i` points at the
new node `idx`, slot `i < m` of `idx` holds the predecessor's former
successor, and every other link is untouched. -/
structure SpliceSpec (a0 : List (Node K V)) (idx : Nat) (pI : Nat → Nat) (m : Nat)
    (aF : List (Node K V)) : Prop where
  len : aF.length = a0.length
  shape : ShapeEq a0 aF
  node_other : ∀ j, j ≠ idx → (∀ i, i < m → j ≠ pI i) → nodeAt aF j = nodeAt a0 j
  fwd_pred : ∀ i, i < m → fwdA aF (pI i) i = some idx
  fwd_idx : ∀ i, i < m → fwdA aF idx i = fwdA a0 (pI i) i
  fwd_frozen : ∀ j i', m ≤ i' → fwdA aF j i' = fwdA a0 j i'
  fwd_other : ∀ j i', i' < m → j ≠ idx → j ≠ pI i' → fwdA aF j i' = fwdA a0 j i'
  bwd_all : ∀ j, bwdA aF j = bwdA a0 j

theorem splice_foldl_spec {a0 : List (Node K V)} {idx : Nat} {pI : Nat → Nat} {lvl : Nat}
    (hnidx : ∀ i, i < lvl → pI i ≠ idx)
    (hcap : ∀ i, i < lvl → ∃ n, nodeAt a0 (pI i) = some n ∧ i < n.forward.length)
    (hicap : ∃ nn, nodeAt a0 idx = some nn ∧ lvl ≤ nn.forward.length) :
    ∀ m, m ≤ lvl →
      SpliceSpec a0 idx pI m
        ((List.range m).foldl
          (fun a' i => setFwd (setFwd a' idx i (fwdA a' (pI i) i)) (pI i) i (some idx)) a0) := by
  intro m
  induction m with
  | zero =>
    intro _
    exact ⟨rfl, shapeEq_refl a0, fun _ _ _ => rfl, fun i hi => absurd hi (Nat.not_lt_zero i),
      fun i hi => absurd hi (Nat.not_lt_zero i), fun _ _ _ => rfl,
      fun j i' hi' _ _ => absurd hi' (Nat.not_lt_zero i'), fun _ => rfl⟩
  | succ m ih =>
    intro hm1
    have hm : m < lvl := hm1
    have hS := ih (Nat.le_of_succ_le hm1)
    rw [List.range_succ, List.foldl_append]
    simp only [List.foldl_cons, List.foldl_nil]
    obtain ⟨n0, hn0, hn0c⟩ := hcap m hm
    obtain ⟨nn, hnn, hnnc⟩ := hicap
    obtain ⟨n1, hn1, hsh1⟩ := hS.shape (pI m) n0 hn0
    obtain ⟨nn1, hnn1, hshn⟩ := hS.shape idx nn hnn
    have hpm : pI m ≠ idx := hnidx m hm
    have hn1c : m < n1.forward.length := by rw [hsh1.2.2.2]; exact hn0c
    have hnn1c : m < nn1.forward.length := by rw [hshn.2.2.2]; omega
    have hn1' : nodeAt (setFwd
        ((List.range m).foldl
          (fun a' i => setFwd (setFwd a' idx i (fwdA a' (pI i) i)) (pI i) i (some idx)) a0)
        idx m (fwdA ((List.range m).foldl
          (fun a' i => setFwd (setFwd a' idx i (fwdA a' (pI i) i)) (pI i) i (some idx)) a0)
          (pI m) m)) (pI m) = some n1 := by
      rw [nodeAt_setFwd, if_neg hpm]
      exact hn1
    refine ⟨?_, ?_, ?_, ?_, ?_, ?_, ?_, ?_⟩
    · rw [length_setFwd, length_setFwd, hS.len]
    · exact shapeEq_setFwd (shapeEq_setFwd hS.shape _ _ _) _ _ _
    · intro j hji hjp
      rw [nodeAt_setFwd, if_neg (hjp m (Nat.lt_succ_self m)), nodeAt_setFwd, if_neg hji]
      exact hS.node_other j hji (fun i hi => hjp i (Nat.lt_succ_of_lt hi))
    · intro i hi
      rcases Nat.lt_succ_iff_lt_or_eq.mp hi with hi' | hieq
      · rw [fwdA_setFwd_untouched _ _ _ (Or.inr (by omega)),
          fwdA_setFwd_untouched _ _ _ (Or.inl (hnidx i (lt_trans hi' hm)))]
        exact hS.fwd_pred i hi'
      · subst hieq
        exact fwdA_setFwd_self hn1' i hn1c (some idx)
    · intro i hi
      rcases Nat.lt_succ_iff_lt_or_eq.mp hi with hi' | hieq
      · rw [fwdA_setFwd_untouched _ _ _ (Or.inl (Ne.symm hpm)),
          fwdA_setFwd_untouched _ _ _ (Or.inr (by omega))]
        exact hS.fwd_idx i hi'
      · subst hieq
        rw [fwdA_setFwd_untouched _ _ _ (Or.inl (Ne.symm hpm)),
          fwdA_setFwd_self hnn1 i hnn1c _]
        exact hS.fwd_frozen (pI i) i (le_refl i)
    · intro j i' hi'
      rw [fwdA_setFwd_untouched _ _ _ (Or.inr (by omega)),
        fwdA_setFwd_untouched _ _ _ (Or.inr (by omega))]
      exact hS.fwd_frozen j i' (by omega)
    · intro j i' hi' hji hjp
      rcases Nat.lt_succ_iff_lt_or_eq.mp hi' with hlt | hieq
      · rw [fwdA_setFwd_untouched _ _ _ (Or.inr (by omega)),
          fwdA_setFwd_untouched _ _ _ (Or.inl hji)]
        exact hS.fwd_other j i' hlt hji hjp
      · subst hieq
        rw [fwdA_setFwd_untouched _ _ _ (Or.inl hjp),
          fwdA_setFwd_untouched _ _ _ (Or.inl hji)]
        exact hS.fwd_frozen j i' (le_refl i')
    · intro j
      rw [bwdA_setFwd, bwdA_setFwd]
      exact hS.bwd_all j

end SkipGo

namespace SkipGo

variable {K V : Type} [LinearOrder K]
variable {sl : Skiplist K V} {D : List (Nat × Node K V)}

/-! ### Helper lemmas for the mutator proofs -/

theorem mem_of_getLast?_eq {α : Type _} : ∀ {l : List α} {a : α}, l.getLast? = some a → a ∈ l := by
  intro l
  induction l with
  | nil => intro a h; exact Option.noConfusion h
  | cons x xs ih =>
    intro a h
    cases xs with
    | nil =>
      rw [List.getLast?_singleton] at h
      have hxa : x = a := by injection h
      rw [hxa]
      exact List.mem_cons_self a []
    | cons y ys =>
      rw [List.getLast?_cons_cons] at h
      exact List.mem_cons_of_mem x (ih h)

theorem ne_getLast_of_mem_dropLast {α : Type _} {l : List α} (hnd : l.Nodup) {x y : α}
    (hx : x ∈ l.dropLast) (hy : l.getLast? = some y) : x ≠ y := by
  have hne : l ≠ [] := by
    intro hl
    rw [hl] at hy
    exact Option.noConfusion hy
  have hdecomp := List.dropLast_append_getLast hne
  have hyl : l.getLast hne = y := by
    rw [List.getLast?_eq_getLast l hne] at hy
    injection hy
  rw [← hdecomp] at hnd
  rw [List.nodup_append] at hnd
  intro hxy
  exact hnd.2.2 hx (List.mem_singleton.mpr (hxy.trans hyl.symm))

theorem getLast?_cons_getLastD {α : Type _} : ∀ (l : List α) (d : α),
    (d :: l).getLast? = some (l.getLastD d) := by
  intro l
  induction l with
  | nil => intro d; rfl
  | cons x xs ih =>
    intro d
    rw [List.getLast?_cons_cons, ih x, List.getLastD_cons]

theorem shapeEq_trans {a b c : List (Node K V)} (h1 : ShapeEq a b) (h2 : ShapeEq b c) :
    ShapeEq a c := by
  intro j n hn
  obtain ⟨n1, hn1, s1, s2, s3, s4⟩ := h1 j n hn
  obtain ⟨n2, hn2, t1, t2, t3, t4⟩ := h2 j n1 hn1
  exact ⟨n2, hn2, t1.trans s1, t2.trans s2, t3.trans s3, t4.trans s4⟩

theorem lowOf_atLvl_comm {D : List (Nat × Node K V)}
    (hs : D.Pairwise (fun p q => p.2.key < q.2.key)) (k : K) (i : Nat) :
    lowOf (atLvl D i) k = atLvl (lowOf D k) i ∧
      restOf (atLvl D i) k = atLvl (restOf D k) i := by
  have hsplit : D = lowOf D k ++ restOf D k := (List.takeWhile_append_dropWhile _ _).symm
  have hsp2 : atLvl D i = atLvl (lowOf D k) i ++ atLvl (restOf D k) i := by
    conv_lhs => rw [hsplit]
    rw [atLvl, List.filter_append]
    rfl
  have hlow : ∀ p ∈ atLvl (lowOf D k) i, decide (p.2.key < k) = true := by
    intro p hp
    exact @List.mem_takeWhile_imp _ (fun q : Nat × Node K V => decide (q.2.key < k)) _ _
      (mem_of_atLvl hp)
  have hrest : ∀ p ∈ atLvl (restOf D k) i, decide (p.2.key < k) = false := by
    intro p hp
    exact dropWhile_all_not (sorted_key_dc k) D hs p (mem_of_atLvl hp)
  constructor
  · rw [lowOf, hsp2]
    exact takeWhile_append_of _ _ _ hlow hrest
  · rw [restOf, hsp2]
    exact dropWhile_append_of _ _ _ hlow hrest

theorem predIdx_cases (D : List (Nat × Node K V)) (i : Nat) (k : K) :
    (lowOf (atLvl D i) k = [] ∧ predIdx D i k = 0) ∨
      ∃ p, (lowOf (atLvl D i) k).getLast? = some p ∧ p ∈ lowOf (atLvl D i) k ∧
        predIdx D i k = p.1 := by
  cases hE : lowOf (atLvl D i) k with
  | nil =>
    left
    exact ⟨rfl, by rw [predIdx, hE]; rfl⟩
  | cons q qs =>
    right
    refine ⟨(q :: qs).getLast (by simp), ?_, ?_, ?_⟩
    · rw [List.getLast?_eq_getLast _ (by simp)]
    · exact mem_of_getLast?_eq (List.getLast?_eq_getLast _ (by simp))
    · rw [predIdx, hE, idxs, List.getLastD_eq_getLast?, List.getLast?_map,
        List.getLast?_eq_getLast _ (by simp : q :: qs ≠ [])]
      rfl

theorem InvL.pred_node (h : InvL sl D) {i : Nat} (hi : i < MaxLevel) (k : K) :
    ∃ n, nodeAt sl.arena (predIdx D i k) = some n ∧ i < n.forward.length := by
  rcases predIdx_cases D i k with ⟨-, hp0⟩ | ⟨p, -, hmem, hpv⟩
  · rw [hp0]
    obtain ⟨h0, hh0, hl⟩ := h.hdr
    exact ⟨h0, hh0, by rw [hl]; exact hi⟩
  · rw [hpv]
    have hlv : p ∈ atLvl D i := mem_of_lowOf hmem
    have hmd : p ∈ D := mem_of_atLvl hlv
    have hlvl : i < p.2.level := by
      have hmf := (List.mem_filter.mp hlv).2
      simpa using hmf
    obtain ⟨-, -, -, n, hn, -, -, hnl, hnf⟩ := h.mem p hmd
    exact ⟨n, hn, by omega⟩

theorem InvL.pred_lt (h : InvL sl D) {i : Nat} (hi : i < MaxLevel) (k : K) :
    predIdx D i k < sl.arena.length := by
  obtain ⟨n, hn, -⟩ := h.pred_node hi k
  exact nodeAt_lt_length hn

theorem InvL.pred_ne_zero_of_last (h : InvL sl D) {i : Nat} (k : K) {p : Nat × Node K V}
    (hmem : p ∈ lowOf (atLvl D i) k) (hpv : predIdx D i k = p.1) : predIdx D i k ≠ 0 := by
  rw [hpv]
  exact (h.mem p (mem_of_atLvl (mem_of_lowOf hmem))).1

theorem restOf_gt_of_none {D : List (Nat × Node K V)} {k : K}
    (hs : D.Pairwise (fun p q => p.2.key < q.2.key)) (hn : hitOf D k = none) :
    ∀ p ∈ restOf D k, k < p.2.key := by
  intro p hp
  cases hcr : restOf D k with
  | nil =>
    rw [hcr] at hp
    simp at hp
  | cons q t =>
    have hqk : ¬ q.2.key < k := by
      have := dropWhile_all_not (sorted_key_dc k) D hs q
        (show q ∈ restOf D k by rw [hcr]; exact List.mem_cons_self q t)
      simpa using this
    have hqne : q.2.key ≠ k := by
      intro he
      rw [hitOf, hcr] at hn
      simp only [List.head?_cons, Option.some_bind] at hn
      rw [if_pos he] at hn
      exact Option.noConfusion hn
    have hqgt : k < q.2.key := lt_of_le_of_ne (not_lt.mp hqk) (Ne.symm hqne)
    rw [hcr] at hp
    rcases List.mem_cons.mp hp with he | ht
    · rw [he]
      exact hqgt
    · have hsr : (restOf D k).Pairwise (fun p q => p.2.key < q.2.key) :=
        List.Pairwise.sublist (List.dropWhile_sublist _) hs
      rw [hcr] at hsr
      exact lt_trans hqgt ((List.pairwise_cons.mp hsr).1 p ht)

theorem idxs_append (A B : List (Nat × Node K V)) : idxs (A ++ B) = idxs A ++ idxs B := by
  rw [idxs, idxs, idxs, List.map_append]

theorem idxs_cons (p : Nat × Node K V) (B : List (Nat × Node K V)) :
    idxs (p :: B) = p.1 :: idxs B := rfl

end SkipGo


namespace SkipGo

variable {K V : Type} [LinearOrder K]
variable {sl : Skiplist K V} {D : List (Nat × Node K V)}

theorem atLvl_zero_of {L : List (Nat × Node K V)} (hm : ∀ p ∈ L, 1 ≤ p.2.level) :
    atLvl L 0 = L := by
  rw [atLvl]
  refine List.filter_eq_self.mpr ?_
  intro p hp
  simpa using hm p hp

theorem idxs_sublist {A B : List (Nat × Node K V)} (h : A.Sublist B) :
    (idxs A).Sublist (idxs B) := List.Sublist.map Prod.fst h

/-- Rebuilding a level-`i` chain after splicing a fresh node `idx` between a
prefix `AL` and a suffix `AR`. -/
theorem linkedFrom_insert_level {a a' : List (Node K V)} {i idx : Nat} {AL AR : List Nat}
    (hold : LinkedFrom a i (fwdA a 0 i) (AL ++ AR))
    (hf_pred : fwdA a' (AL.getLastD 0) i = some idx)
    (hf_idx : fwdA a' idx i = AR.head?)
    (hf_dropL : ∀ x ∈ AL.dropLast, fwdA a' x i = fwdA a x i)
    (hf_R : ∀ x ∈ AR, fwdA a' x i = fwdA a x i)
    (hf_hdr : AL ≠ [] → fwdA a' 0 i = fwdA a 0 i) :
    LinkedFrom a' i (fwdA a' 0 i) (AL ++ idx :: AR) := by
  obtain ⟨hs0, hchain, hlast⟩ := (linkedFrom_iff _ _ _ _).mp hold
  obtain ⟨oldCL, oldCR, -⟩ := List.chain'_append.mp hchain
  refine (linkedFrom_iff _ _ _ _).mpr ⟨?_, ?_, ?_⟩
  · cases hAL : AL with
    | nil =>
      rw [hAL] at hf_pred
      show fwdA a' 0 i = (idx :: AR).head?
      exact hf_pred
    | cons y ys =>
      rw [hf_hdr (by rw [hAL]; simp), hs0, hAL]
      rfl
  · refine List.chain'_append.mpr ⟨?_, ?_, ?_⟩
    · exact chain'_congr_dropLast AL oldCL (fun x hx y hR => by rw [hf_dropL x hx]; exact hR)
    · rw [List.chain'_cons']
      refine ⟨?_, ?_⟩
      · intro y hy
        rw [hf_idx]
        exact Option.mem_def.mp hy
      · exact chain'_congr_dropLast AR oldCR
          (fun x hx y hR => by
            rw [hf_R x (List.Sublist.mem hx (List.dropLast_sublist _))]; exact hR)
    · intro x hx y hy
      rw [Option.mem_def] at hx hy
      have hyv : y = idx := by
        rw [show (idx :: AR).head? = some idx from rfl] at hy
        injection hy with hh
        exact hh.symm
      have hxv : AL.getLastD 0 = x := by
        rw [List.getLastD_eq_getLast?, hx]
        rfl
      rw [hyv, ← hxv]
      exact hf_pred
  · intro x hx
    rw [List.getLast?_append, getLast?_cons_getLastD] at hx
    have hx2 : some (AR.getLastD idx) = some x := hx
    have hxv : x = AR.getLastD idx := by
      injection hx2 with hh
      exact hh.symm
    subst hxv
    cases AR with
    | nil =>
      show fwdA a' idx i = none
      rw [hf_idx]
      rfl
    | cons w ws =>
      have hxm : (w :: ws).getLastD idx ∈ w :: ws := by
        rw [List.getLastD_cons]
        exact mem_of_getLast?_eq (getLast?_cons_getLastD ws w)
      rw [hf_R _ hxm]
      refine hlast _ ?_
      rw [List.getLast?_append, getLast?_cons_getLastD]
      show some (ws.getLastD w) = some ((w :: ws).getLastD idx)
      rw [List.getLastD_cons]

/-- Rebuilding the backward chain after inserting node `idx` between `BL`
and `BR`. -/
theorem chain_insert_bwd {a a' : List (Node K V)} {idx : Nat} {BL BR : List Nat}
    (hold : List.Chain (fun x y => bwdA a y = some x) 0 (BL ++ BR))
    (hb_new : bwdA a' idx = some (BL.getLastD 0))
    (hb_head : ∀ y, BR.head? = some y → bwdA a' y = some idx)
    (hb_L : ∀ y ∈ BL, bwdA a' y = bwdA a y)
    (hb_Rtail : ∀ y ∈ BR.tail, bwdA a' y = bwdA a y) :
    List.Chain (fun x y => bwdA a' y = some x) 0 (BL ++ idx :: BR) := by
  have hold' : List.Chain' (fun x y => bwdA a y = some x) ((0 :: BL) ++ BR) := hold
  obtain ⟨oldCL, oldCR, -⟩ := List.chain'_append.mp hold'
  show List.Chain' (fun x y => bwdA a' y = some x) ((0 :: BL) ++ idx :: BR)
  refine List.chain'_append.mpr ⟨?_, ?_, ?_⟩
  · exact chain'_congr_tail (0 :: BL) oldCL (fun y hy x hR => by rw [hb_L y hy]; exact hR)
  · rw [List.chain'_cons']
    refine ⟨fun y hy => hb_head y (Option.mem_def.mp hy), ?_⟩
    exact chain'_congr_tail BR oldCR (fun y hy x hR => by
      rw [hb_Rtail y (by rw [show BR.tail = List.tail BR from rfl]; exact hy)]; exact hR)
  · intro x hx y hy
    rw [Option.mem_def] at hx hy
    have hyv : y = idx := by
      rw [show (idx :: BR).head? = some idx from rfl] at hy
      injection hy with hh
      exact hh.symm
    rw [getLast?_cons_getLastD] at hx
    have hxv : x = BL.getLastD 0 := by
      injection hx with hh
      exact hh.symm
    rw [hyv, hb_new, hxv]

end SkipGo

namespace SkipGo

variable {K V : Type} [LinearOrder K]
variable {sl : Skiplist K V} {D : List (Nat × Node K V)}

/-- Building the invariant for the state `Put` leaves behind after inserting
a fresh key, from the final heap's accessor facts. -/
theorem put_inv_core (h : InvL sl D) (k : K) (v : V) {lvl : Nat}
    (hnone : hitOf D k = none) (h1 : 1 ≤ lvl) (h2 : lvl ≤ MaxLevel)
    {a' : List (Node K V)} {tl' : Option Nat}
    (hshape : ShapeEq sl.arena a')
    (hnew : ∃ n, nodeAt a' sl.arena.length = some n ∧ n.key = k ∧ n.value = v ∧
      n.level = lvl ∧ n.forward.length = lvl)
    (hfwd_pred : ∀ i, i < lvl → fwdA a' (predIdx D i k) i = some sl.arena.length)
    (hfwd_idx : ∀ i, i < lvl → fwdA a' sl.arena.length i = (idxs (restOf (atLvl D i) k)).head?)
    (hfwd_other : ∀ j i', j < sl.arena.length → (i' < lvl → j ≠ predIdx D i' k) →
      fwdA a' j i' = fwdA sl.arena j i')
    (hbwd_new : bwdA a' sl.arena.length = some (predIdx D 0 k))
    (hbwd_head : ∀ p, (restOf D k).head? = some p → bwdA a' p.1 = some sl.arena.length)
    (hbwd_other : ∀ j, j < sl.arena.length → (∀ p, (restOf D k).head? = some p → j ≠ p.1) →
      bwdA a' j = bwdA sl.arena j)
    (htl0 : restOf D k = [] → tl' = some sl.arena.length)
    (htl1 : restOf D k ≠ [] → tl' = sl.tail) :
    InvL ⟨a', tl', sl.level, sl.length + 1⟩
      (lowOf D k ++ (sl.arena.length, ⟨k, v, lvl, [], none⟩) :: restOf D k) := by
  obtain ⟨h0, hh0, h0len⟩ := h.hdr
  have h0lt : 0 < sl.arena.length := nodeAt_lt_length hh0
  have hmemlt : ∀ x ∈ idxs D, x < sl.arena.length ∧ x ≠ 0 := by
    intro x hx
    rw [idxs, List.mem_map] at hx
    obtain ⟨p, hp, rfl⟩ := hx
    obtain ⟨hne0, -, -, n, hn, -⟩ := h.mem p hp
    exact ⟨nodeAt_lt_length hn, hne0⟩
  have hsplitD : D = lowOf D k ++ restOf D k := (List.takeWhile_append_dropWhile _ _).symm
  have hlowlt : ∀ p ∈ lowOf D k, p.2.key < k := by
    intro p hp
    have := @List.mem_takeWhile_imp _ (fun q : Nat × Node K V => decide (q.2.key < k)) _ _ hp
    simpa using this
  have hrestgt : ∀ p ∈ restOf D k, k < p.2.key := restOf_gt_of_none h.sorted hnone
  have hpred0 : predIdx D 0 k = (idxs (lowOf D k)).getLastD 0 := by
    rw [predIdx, h.atLvl_zero]
  have hmemRest : ∀ x ∈ idxs (restOf D k), x < sl.arena.length ∧ x ≠ 0 :=
    fun x hx => hmemlt x (List.Sublist.mem hx (idxs_sublist (List.dropWhile_sublist _)))
  have hmemLow : ∀ x ∈ idxs (lowOf D k), x < sl.arena.length ∧ x ≠ 0 :=
    fun x hx => hmemlt x (List.Sublist.mem hx (idxs_sublist (List.takeWhile_sublist _)))
  have hnodD : (idxs (lowOf D k) ++ idxs (restOf D k)).Nodup := by
    rw [← idxs_append, ← hsplitD]
    exact h.idx_nodup
  constructor
  · obtain ⟨n2, hn2, -, -, -, s4⟩ := hshape 0 h0 hh0
    exact ⟨n2, hn2, s4.trans h0len⟩
  · intro p hp
    rcases List.mem_append.mp hp with hpl | hpc
    · obtain ⟨hne0, hl1, hl2, n, hn, hk', hv', hnl, hnf⟩ := h.mem p (mem_of_lowOf hpl)
      obtain ⟨n2, hn2, s1, s2, s3, s4⟩ := hshape p.1 n hn
      exact ⟨hne0, hl1, hl2, n2, hn2, s1.trans hk', s2.trans hv', s3.trans hnl, s4.trans hnf⟩
    · rcases List.mem_cons.mp hpc with heq | hpr
      · obtain ⟨n2, hn2, e1, e2, e3, e4⟩ := hnew
        rw [heq]
        exact ⟨Nat.pos_iff_ne_zero.mp h0lt, h1, h2, n2, hn2, e1, e2, e3, by rw [e4]⟩
      · obtain ⟨hne0, hl1, hl2, n, hn, hk', hv', hnl, hnf⟩ := h.mem p (mem_of_restOf hpr)
        obtain ⟨n2, hn2, s1, s2, s3, s4⟩ := hshape p.1 n hn
        exact ⟨hne0, hl1, hl2, n2, hn2, s1.trans hk', s2.trans hv', s3.trans hnl, s4.trans hnf⟩
  · rw [List.pairwise_append]
    refine ⟨List.Pairwise.sublist (List.takeWhile_sublist _) h.sorted, ?_, ?_⟩
    · rw [List.pairwise_cons]
      exact ⟨fun q hq => hrestgt q hq, List.Pairwise.sublist (List.dropWhile_sublist _) h.sorted⟩
    · intro a ha b hb
      rcases List.mem_cons.mp hb with heq | hbr
      · rw [heq]
        exact hlowlt a ha
      · exact lt_trans (hlowlt a ha) (hrestgt b hbr)
  · intro i hi
    have hcomm := lowOf_atLvl_comm h.sorted k i
    have hsplitL : atLvl D i = atLvl (lowOf D k) i ++ atLvl (restOf D k) i := by
      conv_lhs => rw [hsplitD]
      rw [atLvl, List.filter_append]
      rfl
    have hu := h.upper i hi
    rw [hsplitL, idxs_append] at hu
    have hnodA : (idxs (atLvl (lowOf D k) i) ++ idxs (atLvl (restOf D k) i)).Nodup := by
      rw [← idxs_append, ← hsplitL]
      exact List.Nodup.sublist (idxs_sublist (List.filter_sublist D)) h.idx_nodup
    have hmemAL : ∀ x ∈ idxs (atLvl (lowOf D k) i), x < sl.arena.length ∧ x ≠ 0 :=
      fun x hx => hmemLow x (List.Sublist.mem hx (idxs_sublist (List.filter_sublist _)))
    have hmemAR : ∀ x ∈ idxs (atLvl (restOf D k) i), x < sl.arena.length ∧ x ≠ 0 :=
      fun x hx => hmemRest x (List.Sublist.mem hx (idxs_sublist (List.filter_sublist _)))
    have hALpred : (idxs (atLvl (lowOf D k) i)).getLastD 0 = predIdx D i k := by
      rw [predIdx, hcomm.1]
    by_cases hc : i < lvl
    · have hD'lvl : atLvl (lowOf D k ++ (sl.arena.length, (⟨k, v, lvl, [], none⟩ : Node K V)) ::
            restOf D k) i =
          atLvl (lowOf D k) i ++ (sl.arena.length, (⟨k, v, lvl, [], none⟩ : Node K V)) ::
            atLvl (restOf D k) i := by
        rw [atLvl, List.filter_append, List.filter_cons, if_pos (by simpa using hc)]
        rfl
      rw [hD'lvl, idxs_append, idxs_cons]
      refine linkedFrom_insert_level hu ?_ ?_ ?_ ?_ ?_
      · rw [hALpred]
        exact hfwd_pred i hc
      · rw [hfwd_idx i hc, hcomm.2]
      · intro x hx
        have hxm : x ∈ idxs (atLvl (lowOf D k) i) :=
          List.Sublist.mem hx (List.dropLast_sublist _)
        refine hfwd_other x i (hmemAL x hxm).1 ?_
        intro _
        rcases predIdx_cases D i k with ⟨hAe, -⟩ | ⟨p, hpl, -, hpv⟩
        · rw [hcomm.1] at hAe
          rw [hAe] at hxm
          simp [idxs] at hxm
        · rw [hpv]
          rw [hcomm.1] at hpl
          have hgl : (idxs (atLvl (lowOf D k) i)).getLast? = some p.1 := by
            rw [idxs, List.getLast?_map, hpl]
            rfl
          exact ne_getLast_of_mem_dropLast ((List.nodup_append.mp hnodA).1) hx hgl
      · intro x hx
        refine hfwd_other x i (hmemAR x hx).1 ?_
        intro _
        rcases predIdx_cases D i k with ⟨-, hp0⟩ | ⟨p, hpl, hpm, hpv⟩
        · rw [hp0]
          exact (hmemAR x hx).2
        · rw [hpv]
          rw [hcomm.1] at hpm
          have hp1 : p.1 ∈ idxs (atLvl (lowOf D k) i) := by
            rw [idxs]
            exact List.mem_map.mpr ⟨p, hpm, rfl⟩
          intro hxe
          exact (List.nodup_append.mp hnodA).2.2 hp1 (hxe ▸ hx)
      · intro hALne
        refine hfwd_other 0 i h0lt ?_
        intro _
        rcases predIdx_cases D i k with ⟨hAe, -⟩ | ⟨p, hpl, hpm, hpv⟩
        · rw [hcomm.1] at hAe
          rw [hAe] at hALne
          simp [idxs] at hALne
        · rw [hpv]
          exact Ne.symm (h.mem p (mem_of_atLvl (mem_of_lowOf hpm))).1
    · have hD'neg : atLvl (lowOf D k ++ (sl.arena.length, (⟨k, v, lvl, [], none⟩ : Node K V)) ::
            restOf D k) i =
          atLvl (lowOf D k) i ++ atLvl (restOf D k) i := by
        rw [atLvl, List.filter_append, List.filter_cons, if_neg (by simpa using hc)]
        rfl
      rw [hD'neg, idxs_append]
      have h0' : fwdA a' 0 i = fwdA sl.arena 0 i :=
        hfwd_other 0 i h0lt (fun hlt => absurd hlt hc)
      rw [h0']
      refine LinkedFrom.congr hu ?_
      intro x hx
      rcases List.mem_append.mp hx with hxl | hxr
      · exact hfwd_other x i (hmemAL x hxl).1 (fun hlt => absurd hlt hc)
      · exact hfwd_other x i (hmemAR x hxr).1 (fun hlt => absurd hlt hc)
  · rw [idxs_append, idxs_cons]
    have hold := h.bwd
    have hDsplit : idxs D = idxs (lowOf D k) ++ idxs (restOf D k) := by
      conv_lhs => rw [hsplitD]
      exact idxs_append _ _
    rw [hDsplit] at hold
    refine chain_insert_bwd hold ?_ ?_ ?_ ?_
    · rw [hbwd_new, hpred0]
    · intro y hy
      cases hcr : restOf D k with
      | nil =>
        rw [hcr] at hy
        exact Option.noConfusion hy
      | cons q t =>
        rw [hcr] at hy
        have hyq : y = q.1 := by
          rw [show (idxs (q :: t)).head? = some q.1 from rfl] at hy
          injection hy with hh
          exact hh.symm
        rw [hyq]
        exact hbwd_head q (by rw [hcr]; rfl)
    · intro y hy
      refine hbwd_other y (hmemLow y hy).1 ?_
      intro p hp
      have hp1 : p.1 ∈ idxs (restOf D k) := by
        rw [idxs]
        exact List.mem_map.mpr ⟨p, List.mem_of_mem_head? (Option.mem_def.mpr hp), rfl⟩
      intro hye
      exact (List.nodup_append.mp hnodD).2.2 hy (hye ▸ hp1)
    · intro y hy
      have hym : y ∈ idxs (restOf D k) := List.Sublist.mem hy (List.tail_sublist _)
      refine hbwd_other y (hmemRest y hym).1 ?_
      intro p hp
      cases hcr : restOf D k with
      | nil =>
        rw [hcr] at hp
        exact Option.noConfusion hp
      | cons q t =>
        rw [hcr] at hp hy
        have hpq : p = q := by
          rw [show (q :: t).head? = some q from rfl] at hp
          injection hp with hh
          exact hh.symm
        rw [hpq]
        have hnod : (idxs (q :: t)).Nodup := by
          rw [← hcr]
          exact List.Nodup.sublist (idxs_sublist (List.dropWhile_sublist _)) h.idx_nodup
        rw [idxs_cons] at hnod
        intro hye
        exact (List.nodup_cons.mp hnod).1 (hye ▸ hy)
  · intro he
    exact absurd he (by simp)
  · intro hne
    cases hrest : restOf D k with
    | nil =>
      rw [htl0 hrest]
      rw [idxs_append, idxs_cons]
      show some sl.arena.length = (idxs (lowOf D k) ++ [sl.arena.length]).getLast?
      rw [List.getLast?_concat]
    | cons q t =>
      rw [htl1 (by rw [hrest]; simp), h.tl1 (by
        intro hDe
        rw [hDe] at hrest
        exact absurd hrest (by simp [restOf]))]
      conv_lhs => rw [hsplitD, hrest]
      rw [idxs_append, idxs_cons, idxs_append, idxs_cons]
      rw [List.getLast?_append, List.getLast?_append]
      congr 1
  · show sl.length + 1 = _
    rw [List.length_append, List.length_cons]
    have hsum : (lowOf D k).length + (restOf D k).length = D.length := by
      conv_rhs => rw [hsplitD]
      rw [List.length_append]
    rw [h.len]
    push_cast
    omega

end SkipGo

namespace SkipGo

variable {K V : Type} [LinearOrder K]
variable {sl : Skiplist K V} {D : List (Nat × Node K V)}

theorem putFinish_eq_none {sl : Skiplist K V} {a1 : List (Node K V)} {idx : Nat} {ups : List Nat}
    (hfix : fwdA (setBwd a1 idx (some (ups.getD 0 0))) idx 0 = none) :
    putFinish sl a1 idx ups =
      { arena := setBwd a1 idx (some (ups.getD 0 0)), tail := some idx, level := sl.level,
        length := sl.length + 1 } := by
  show (match fwdA (setBwd a1 idx (some (ups.getD 0 0))) idx 0 with
    | some s =>
      ({ arena := setBwd (setBwd a1 idx (some (ups.getD 0 0))) s (some idx), tail := sl.tail,
         level := sl.level, length := sl.length + 1 } : Skiplist K V)
    | none =>
      { arena := setBwd a1 idx (some (ups.getD 0 0)), tail := some idx, level := sl.level,
        length := sl.length + 1 }) = _
  rw [hfix]

theorem putFinish_eq_some {sl : Skiplist K V} {a1 : List (Node K V)} {idx s : Nat}
    {ups : List Nat}
    (hfix : fwdA (setBwd a1 idx (some (ups.getD 0 0))) idx 0 = some s) :
    putFinish sl a1 idx ups =
      { arena := setBwd (setBwd a1 idx (some (ups.getD 0 0))) s (some idx), tail := sl.tail,
        level := sl.level, length := sl.length + 1 } := by
  show (match fwdA (setBwd a1 idx (some (ups.getD 0 0))) idx 0 with
    | some s' =>
      ({ arena := setBwd (setBwd a1 idx (some (ups.getD 0 0))) s' (some idx), tail := sl.tail,
         level := sl.level, length := sl.length + 1 } : Skiplist K V)
    | none =>
      { arena := setBwd a1 idx (some (ups.getD 0 0)), tail := some idx, level := sl.level,
        length := sl.length + 1 }) = _
  rw [hfix]

theorem foldl_ext_mem {α β : Type _} (f g : β → α → β) (l : List α)
    (h : ∀ a ∈ l, ∀ b, f b a = g b a) : ∀ b0 : β, l.foldl f b0 = l.foldl g b0 := by
  induction l with
  | nil => intro b0; rfl
  | cons x xs ih =>
    intro b0
    rw [List.foldl_cons, List.foldl_cons, h x (List.mem_cons_self x xs)]
    exact ih (fun a ha b => h a (List.mem_cons_of_mem x ha) b) _

/-- In the insert case (`length ≠ 0`, key absent), `Put` (skiplist.go:80-104)
reduces to the splice loop followed by the epilogue, with the update vector
delivered by `find`. -/
theorem put_insert_unfold (h : InvL sl D) (k : K) (v : V) (lvl : Nat)
    (hnone : hitOf D k = none) (hlen : sl.length ≠ 0) :
    put sl k v lvl =
      putFinish sl
        (spliceLoop (sl.arena ++ [⟨k, v, lvl, List.replicate lvl none, none⟩])
          sl.arena.length ((List.range MaxLevel).map (fun t => predIdx D t k)) lvl)
        sl.arena.length ((List.range MaxLevel).map (fun t => predIdx D t k)) := by
  have hf := h.find_eq k
  rw [hnone] at hf
  unfold put
  rw [if_neg hlen, hf]
  rfl

/-- The epilogue of `Put` applied to a heap the splice loop has prepared
yields the invariant for the enlarged chain. -/
theorem putFinish_inv (h : InvL sl D) {k : K} {v : V} {lvl : Nat}
    (hnone : hitOf D k = none) (h1 : 1 ≤ lvl) (h2 : lvl ≤ MaxLevel)
    {aS : List (Node K V)} {ups : List Nat}
    (hup0 : ups.getD 0 0 = predIdx D 0 k)
    (hS : SpliceSpec (sl.arena ++ [⟨k, v, lvl, List.replicate lvl none, none⟩])
      sl.arena.length (fun i => predIdx D i k) lvl aS) :
    InvL (putFinish sl aS sl.arena.length ups)
      (lowOf D k ++ (sl.arena.length, ⟨k, v, lvl, [], none⟩) :: restOf D k) := by
  obtain ⟨h0, hh0, h0len⟩ := h.hdr
  have h0lt : 0 < sl.arena.length := nodeAt_lt_length hh0
  have hlt12 : ∀ {i : Nat}, i < lvl → i < MaxLevel := fun hi => lt_of_lt_of_le hi h2
  have h0lvl : 0 < lvl := h1
  have hmemlt : ∀ x ∈ idxs D, x < sl.arena.length ∧ x ≠ 0 := by
    intro x hx
    rw [idxs, List.mem_map] at hx
    obtain ⟨p, hp, rfl⟩ := hx
    obtain ⟨hne0, -, -, n, hn, -⟩ := h.mem p hp
    exact ⟨nodeAt_lt_length hn, hne0⟩
  have hfix0 : fwdA (setBwd aS sl.arena.length (some (ups.getD 0 0))) sl.arena.length 0
      = (idxs (restOf D k)).head? := by
    rw [fwdA_setBwd, hS.fwd_idx 0 h0lvl,
      fwdA_append_lt _ (h.pred_lt (hlt12 h0lvl) k),
      h.fwd_pred (hlt12 h0lvl) k, h.atLvl_zero]
  have hshape2 : ShapeEq sl.arena (setBwd aS sl.arena.length (some (ups.getD 0 0))) :=
    shapeEq_trans (shapeEq_trans (shapeEq_append _ _) hS.shape)
      (shapeEq_setBwd (shapeEq_refl _) _ _)
  have hnewA : ∀ {aX : List (Node K V)},
      ShapeEq (sl.arena ++ [⟨k, v, lvl, List.replicate lvl none, none⟩]) aX →
      ∃ n, nodeAt aX sl.arena.length = some n ∧ n.key = k ∧ n.value = v ∧ n.level = lvl ∧
        n.forward.length = lvl := by
    intro aX hsh
    obtain ⟨n2, hn2, s1, s2, s3, s4⟩ := hsh sl.arena.length _ (nodeAt_append_self _ _)
    refine ⟨n2, hn2, s1, s2, s3, ?_⟩
    rw [s4]
    exact List.length_replicate lvl none
  have hshape2' : ShapeEq (sl.arena ++ [⟨k, v, lvl, List.replicate lvl none, none⟩])
      (setBwd aS sl.arena.length (some (ups.getD 0 0))) :=
    shapeEq_trans hS.shape (shapeEq_setBwd (shapeEq_refl _) _ _)
  cases hcr : (restOf D k).head? with
  | none =>
    have hre : restOf D k = [] := List.head?_eq_none_iff.mp hcr
    have hfixn : fwdA (setBwd aS sl.arena.length (some (ups.getD 0 0))) sl.arena.length 0
        = none := by
      rw [hfix0, hre]
      rfl
    rw [putFinish_eq_none hfixn]
    refine put_inv_core h k v hnone h1 h2 hshape2 (hnewA hshape2') ?_ ?_ ?_ ?_ ?_ ?_ ?_ ?_
    · intro i hi
      rw [fwdA_setBwd]
      exact hS.fwd_pred i hi
    · intro i hi
      rw [fwdA_setBwd, hS.fwd_idx i hi, fwdA_append_lt _ (h.pred_lt (hlt12 hi) k)]
      exact h.fwd_pred (hlt12 hi) k
    · intro j i' hj hcond
      rw [fwdA_setBwd]
      rcases lt_or_ge i' lvl with hi' | hge
      · rw [hS.fwd_other j i' hi' (Nat.ne_of_lt hj) (hcond hi')]
        exact fwdA_append_lt _ hj i'
      · rw [hS.fwd_frozen j i' hge]
        exact fwdA_append_lt _ hj i'
    · obtain ⟨nn, hnn, -⟩ := hS.shape sl.arena.length _ (nodeAt_append_self _ _)
      rw [bwdA_setBwd_self hnn, hup0]
    · intro p hp
      rw [hre] at hp
      exact Option.noConfusion hp
    · intro j hj hcond
      rw [bwdA_setBwd_other _ _ _ (Nat.ne_of_lt hj), hS.bwd_all]
      exact bwdA_append_lt _ hj
    · intro _
      rfl
    · intro hne
      exact absurd hre hne
  | some q =>
    have hq1mem : q.1 ∈ idxs D := by
      rw [idxs]
      exact List.mem_map.mpr ⟨q, mem_of_restOf (List.mem_of_mem_head? (Option.mem_def.mpr hcr)),
        rfl⟩
    obtain ⟨hq1lt, hq1ne0⟩ := hmemlt q.1 hq1mem
    have hfixs : fwdA (setBwd aS sl.arena.length (some (ups.getD 0 0))) sl.arena.length 0
        = some q.1 := by
      rw [hfix0, idxs, List.head?_map, hcr]
      rfl
    rw [putFinish_eq_some hfixs]
    have hshape3 : ShapeEq sl.arena
        (setBwd (setBwd aS sl.arena.length (some (ups.getD 0 0))) q.1 (some sl.arena.length)) :=
      shapeEq_trans hshape2 (shapeEq_setBwd (shapeEq_refl _) _ _)
    have hshape3' : ShapeEq (sl.arena ++ [⟨k, v, lvl, List.replicate lvl none, none⟩])
        (setBwd (setBwd aS sl.arena.length (some (ups.getD 0 0))) q.1 (some sl.arena.length)) :=
      shapeEq_trans hshape2' (shapeEq_setBwd (shapeEq_refl _) _ _)
    refine put_inv_core h k v hnone h1 h2 hshape3 (hnewA hshape3') ?_ ?_ ?_ ?_ ?_ ?_ ?_ ?_
    · intro i hi
      rw [fwdA_setBwd, fwdA_setBwd]
      exact hS.fwd_pred i hi
    · intro i hi
      rw [fwdA_setBwd, fwdA_setBwd, hS.fwd_idx i hi,
        fwdA_append_lt _ (h.pred_lt (hlt12 hi) k)]
      exact h.fwd_pred (hlt12 hi) k
    · intro j i' hj hcond
      rw [fwdA_setBwd, fwdA_setBwd]
      rcases lt_or_ge i' lvl with hi' | hge
      · rw [hS.fwd_other j i' hi' (Nat.ne_of_lt hj) (hcond hi')]
        exact fwdA_append_lt _ hj i'
      · rw [hS.fwd_frozen j i' hge]
        exact fwdA_append_lt _ hj i'
    · obtain ⟨nn, hnn, -⟩ := hS.shape sl.arena.length _ (nodeAt_append_self _ _)
      rw [bwdA_setBwd_other _ _ _ (Ne.symm (Nat.ne_of_lt hq1lt)), bwdA_setBwd_self hnn, hup0]
    · intro p hp
      have hpq : p = q := by
        rw [hcr] at hp
        injection hp with hh
        exact hh.symm
      obtain ⟨-, -, -, nq, hnq, -⟩ :=
        h.mem q (mem_of_restOf (List.mem_of_mem_head? (Option.mem_def.mpr hcr)))
      obtain ⟨n2, hn2, -⟩ := hshape2 q.1 nq hnq
      rw [hpq]
      exact bwdA_setBwd_self hn2 _
    · intro j hj hcond
      rw [bwdA_setBwd_other _ _ _ (hcond q hcr),
        bwdA_setBwd_other _ _ _ (Nat.ne_of_lt hj), hS.bwd_all]
      exact bwdA_append_lt _ hj
    · intro hre
      rw [hre] at hcr
      exact Option.noConfusion hcr
    · intro _
      rfl

/-- `Put` on a nonempty container with an absent key: the invariant holds for
the chain with the new entry inserted between the keys below `k` and the keys
above it. -/
theorem put_insert_spec (h : InvL sl D) {k : K} {v : V} {lvl : Nat}
    (hnone : hitOf D k = none) (h1 : 1 ≤ lvl) (h2 : lvl ≤ MaxLevel)
    (hlen : sl.length ≠ 0) :
    InvL (put sl k v lvl)
      (lowOf D k ++ (sl.arena.length, ⟨k, v, lvl, [], none⟩) :: restOf D k) := by
  rw [put_insert_unfold h k v lvl hnone hlen]
  have hlt12 : ∀ {i : Nat}, i < lvl → i < MaxLevel := fun hi => lt_of_lt_of_le hi h2
  have hnidx : ∀ i, i < lvl → (fun i => predIdx D i k) i ≠ sl.arena.length := by
    intro i hi
    exact Nat.ne_of_lt (h.pred_lt (hlt12 hi) k)
  have hcap : ∀ i, i < lvl →
      ∃ n, nodeAt (sl.arena ++ [(⟨k, v, lvl, List.replicate lvl none, none⟩ : Node K V)])
        ((fun i => predIdx D i k) i) = some n ∧ i < n.forward.length := by
    intro i hi
    obtain ⟨n, hn, hc⟩ := h.pred_node (hlt12 hi) k
    refine ⟨n, ?_, hc⟩
    rw [nodeAt_append_lt _ (h.pred_lt (hlt12 hi) k)]
    exact hn
  have hicap : ∃ nn,
      nodeAt (sl.arena ++ [(⟨k, v, lvl, List.replicate lvl none, none⟩ : Node K V)])
        sl.arena.length = some nn ∧ lvl ≤ nn.forward.length := by
    refine ⟨_, nodeAt_append_self _ _, ?_⟩
    rw [List.length_replicate]
  have hS := splice_foldl_spec hnidx hcap hicap lvl (le_refl lvl)
  have hups : ∀ i ∈ List.range lvl, ∀ b : List (Node K V),
      (fun a i => setFwd (setFwd a sl.arena.length i
          (fwdA a (((List.range MaxLevel).map (fun t => predIdx D t k)).getD i 0) i))
        (((List.range MaxLevel).map (fun t => predIdx D t k)).getD i 0) i
        (some sl.arena.length)) b i =
      (fun a i => setFwd (setFwd a sl.arena.length i (fwdA a ((fun i => predIdx D i k) i) i))
        ((fun i => predIdx D i k) i) i (some sl.arena.length)) b i := by
    intro i hi b
    have hg : ((List.range MaxLevel).map (fun t => predIdx D t k)).getD i 0 = predIdx D i k :=
      getD_map_range _ (hlt12 (List.mem_range.mp hi))
    show setFwd (setFwd b sl.arena.length i
        (fwdA b (((List.range MaxLevel).map (fun t => predIdx D t k)).getD i 0) i))
      (((List.range MaxLevel).map (fun t => predIdx D t k)).getD i 0) i
      (some sl.arena.length) = _
    rw [hg]
  have heq : spliceLoop (sl.arena ++ [(⟨k, v, lvl, List.replicate lvl none, none⟩ : Node K V)])
      sl.arena.length ((List.range MaxLevel).map (fun t => predIdx D t k)) lvl =
      (List.range lvl).foldl
        (fun a' i => setFwd (setFwd a' sl.arena.length i
            (fwdA a' ((fun i => predIdx D i k) i) i))
          ((fun i => predIdx D i k) i) i (some sl.arena.length))
        (sl.arena ++ [(⟨k, v, lvl, List.replicate lvl none, none⟩ : Node K V)]) := by
    rw [spliceLoop]
    exact foldl_ext_mem _ _ _ hups _
  rw [heq]
  exact putFinish_inv h hnone h1 h2
    (getD_map_range _ (by decide : (0 : Nat) < MaxLevel)) hS

/-- In the found case `Put` (skiplist.go:76-78) only overwrites the hit
node's value. -/
theorem put_found_unfold (h : InvL sl D) (k : K) (v : V) (lvl : Nat) {j : Nat}
    (hsome : hitOf D k = some j) :
    put sl k v lvl = { sl with arena := setVal sl.arena j v } := by
  have hDne : D ≠ [] := by
    intro hDe
    rw [hDe] at hsome
    exact Option.noConfusion hsome
  have hlen : sl.length ≠ 0 := by
    rw [h.len]
    intro hz
    have hz' : D.length = 0 := by exact_mod_cast hz
    exact hDne (List.eq_nil_of_length_eq_zero hz')
  have hf := h.find_eq k
  rw [hsome] at hf
  unfold put
  rw [if_neg hlen, hf]
  rfl

/-- `Put` of an existing key under the invariant: the tracked chain keeps its
shape, only the hit entry's value becomes `v`. -/
theorem put_found_spec (h : InvL sl D) {k : K} (v : V) (lvl : Nat) {q : Nat × Node K V}
    {t : List (Nat × Node K V)}
    (hrest : restOf D k = q :: t) (hkey : q.2.key = k) :
    InvL (put sl k v lvl)
      (lowOf D k ++ (q.1, { q.2 with value := v }) :: t) := by
  have hsome : hitOf D k = some q.1 := by
    rw [hitOf, hrest]
    show (some q).bind _ = _
    rw [Option.some_bind]
    rw [if_pos hkey]
  rw [put_found_unfold h k v lvl hsome]
  have hsplitD : D = lowOf D k ++ restOf D k := (List.takeWhile_append_dropWhile _ _).symm
  have hq1ne0 : q.1 ≠ 0 :=
    (h.mem q (mem_of_restOf (hrest ▸ List.mem_cons_self q t))).1
  have hnodD : (idxs (lowOf D k) ++ q.1 :: idxs t).Nodup := by
    have := h.idx_nodup
    rw [hsplitD, hrest] at this
    rw [idxs_append, idxs_cons] at this
    exact this
  have hidxsD : idxs (lowOf D k ++ (q.1, { q.2 with value := v }) :: t) = idxs D := by
    conv_rhs => rw [hsplitD, hrest]
    rw [idxs_append, idxs_append, idxs_cons, idxs_cons]
  have hidxs : ∀ i, idxs (atLvl (lowOf D k ++ (q.1, { q.2 with value := v }) :: t) i) =
      idxs (atLvl D i) := by
    intro i
    conv_rhs => rw [hsplitD, hrest]
    rw [atLvl, atLvl, List.filter_append, List.filter_append, idxs_append, idxs_append,
      List.filter_cons, List.filter_cons]
    congr 1
    by_cases hc : i < q.2.level
    · rw [if_pos (by simpa using hc), if_pos (by simpa using hc), idxs_cons, idxs_cons]
    · rw [if_neg (by simpa using hc), if_neg (by simpa using hc)]
  constructor
  · obtain ⟨h0, hh0, h0len⟩ := h.hdr
    refine ⟨h0, ?_, h0len⟩
    rw [nodeAt_setVal, if_neg (Ne.symm hq1ne0)]
    exact hh0
  · intro p hp
    rcases List.mem_append.mp hp with hpl | hpc
    · obtain ⟨hne0, hl1, hl2, n, hn, hk', hv', hnl, hnf⟩ := h.mem p (mem_of_lowOf hpl)
      refine ⟨hne0, hl1, hl2, n, ?_, hk', hv', hnl, hnf⟩
      rw [nodeAt_setVal, if_neg ?_]
      · exact hn
      · intro he
        have hpL : p.1 ∈ idxs (lowOf D k) := by
          rw [idxs]
          exact List.mem_map.mpr ⟨p, hpl, rfl⟩
        have hq1R : q.1 ∈ q.1 :: idxs t := List.mem_cons_self _ _
        exact (List.nodup_append.mp hnodD).2.2 hpL (he ▸ hq1R)
    · rcases List.mem_cons.mp hpc with heq | hpt
      · obtain ⟨hne0, hl1, hl2, n, hn, hk', hv', hnl, hnf⟩ :=
          h.mem q (mem_of_restOf (hrest ▸ List.mem_cons_self q t))
        rw [heq]
        refine ⟨hne0, hl1, hl2, { n with value := v }, ?_, hk', rfl, hnl, hnf⟩
        rw [nodeAt_setVal, if_pos rfl, hn]
        rfl
      · obtain ⟨hne0, hl1, hl2, n, hn, hk', hv', hnl, hnf⟩ :=
          h.mem p (mem_of_restOf (hrest ▸ List.mem_cons_of_mem q hpt))
        refine ⟨hne0, hl1, hl2, n, ?_, hk', hv', hnl, hnf⟩
        rw [nodeAt_setVal, if_neg ?_]
        · exact hn
        · intro he
          have hpT : p.1 ∈ idxs t := by
            rw [idxs]
            exact List.mem_map.mpr ⟨p, hpt, rfl⟩
          have hnodR : (q.1 :: idxs t).Nodup := (List.nodup_append.mp hnodD).2.1
          exact (List.nodup_cons.mp hnodR).1 (he ▸ hpT)
  · have hs2 := h.sorted
    rw [hsplitD, hrest] at hs2
    rw [List.pairwise_append] at hs2 ⊢
    obtain ⟨hA, hB, hAB⟩ := hs2
    refine ⟨hA, ?_, ?_⟩
    · rw [List.pairwise_cons] at hB ⊢
      exact ⟨fun b hb => hB.1 b hb, hB.2⟩
    · intro a ha b hb
      rcases List.mem_cons.mp hb with heq | hbt
      · rw [heq]
        exact hAB a ha q (List.mem_cons_self _ _)
      · exact hAB a ha b (List.mem_cons_of_mem _ hbt)
  · intro i hi
    rw [hidxs i]
    have hstart : fwdA (setVal sl.arena q.1 v) 0 i = fwdA sl.arena 0 i := fwdA_setVal _ _ _ _ _
    rw [show ({ sl with arena := setVal sl.arena q.1 v } : Skiplist K V).arena =
      setVal sl.arena q.1 v from rfl, hstart]
    exact LinkedFrom.congr (h.upper i hi) (fun x _ => fwdA_setVal _ _ _ _ _)
  · rw [hidxsD]
    exact List.Chain.imp (fun x y hxy => by rw [bwdA_setVal]; exact hxy) h.bwd
  · intro he
    exact absurd he (by simp)
  · intro _
    have hDne : D ≠ [] := by
      intro hDe
      rw [hDe] at hrest
      exact List.noConfusion hrest
    rw [hidxsD]
    exact h.tl1 hDne
  · show sl.length = _
    rw [h.len]
    conv_lhs => rw [hsplitD, hrest]
    rw [List.length_append, List.length_append, List.length_cons, List.length_cons]

/-- Rebuilding a level-`i` chain after unlinking node `idx` from between
`AL` and `AR`. -/
theorem linkedFrom_remove_level {a a' : List (Node K V)} {i idx : Nat} {AL AR : List Nat}
    (hold : LinkedFrom a i (fwdA a 0 i) (AL ++ idx :: AR))
    (hf_pred : fwdA a' (AL.getLastD 0) i = AR.head?)
    (hf_dropL : ∀ x ∈ AL.dropLast, fwdA a' x i = fwdA a x i)
    (hf_R : ∀ x ∈ AR, fwdA a' x i = fwdA a x i)
    (hf_hdr : AL ≠ [] → fwdA a' 0 i = fwdA a 0 i) :
    LinkedFrom a' i (fwdA a' 0 i) (AL ++ AR) := by
  obtain ⟨hs0, hchain, hlast⟩ := (linkedFrom_iff _ _ _ _).mp hold
  obtain ⟨oldCL, oldCR', -⟩ := List.chain'_append.mp hchain
  have oldCR : List.Chain' (fun p q => fwdA a p i = some q) AR := (List.chain'_cons'.mp oldCR').2
  refine (linkedFrom_iff _ _ _ _).mpr ⟨?_, ?_, ?_⟩
  · cases hAL : AL with
    | nil =>
      rw [hAL] at hf_pred
      show fwdA a' 0 i = AR.head?
      exact hf_pred
    | cons y ys =>
      rw [hf_hdr (by rw [hAL]; simp), hs0, hAL]
      rfl
  · refine List.chain'_append.mpr ⟨?_, ?_, ?_⟩
    · exact chain'_congr_dropLast AL oldCL (fun x hx y hR => by rw [hf_dropL x hx]; exact hR)
    · exact chain'_congr_dropLast AR oldCR
        (fun x hx y hR => by
          rw [hf_R x (List.Sublist.mem hx (List.dropLast_sublist _))]; exact hR)
    · intro x hx y hy
      rw [Option.mem_def] at hx hy
      have hxv : AL.getLastD 0 = x := by
        rw [List.getLastD_eq_getLast?, hx]
        rfl
      rw [← hxv, hf_pred, hy]
  · intro x hx
    cases hAR : AR with
    | nil =>
      rw [hAR, List.append_nil] at hx
      have hxv : AL.getLastD 0 = x := by
        rw [List.getLastD_eq_getLast?, hx]
        rfl
      rw [hAR] at hf_pred
      rw [← hxv, hf_pred]
      rfl
    | cons w ws =>
      rw [hAR, List.getLast?_append, getLast?_cons_getLastD] at hx
      have hx2 : some (ws.getLastD w) = some x := hx
      have hxv : x = ws.getLastD w := by
        injection hx2 with hh
        exact hh.symm
      subst hxv
      have hxm : ws.getLastD w ∈ w :: ws := mem_of_getLast?_eq (getLast?_cons_getLastD ws w)
      rw [hf_R _ (hAR ▸ hxm)]
      refine hlast _ ?_
      rw [hAR, List.getLast?_append, getLast?_cons_getLastD]
      show some ((w :: ws).getLastD idx) = some (ws.getLastD w)
      rw [List.getLastD_cons]

/-- Rebuilding the backward chain after unlinking node `idx` from between
`BL` and `BR`. -/
theorem chain_remove_bwd {a a' : List (Node K V)} {idx : Nat} {BL BR : List Nat}
    (hold : List.Chain (fun x y => bwdA a y = some x) 0 (BL ++ idx :: BR))
    (hb_head : ∀ y, BR.head? = some y → bwdA a' y = some (BL.getLastD 0))
    (hb_L : ∀ y ∈ BL, bwdA a' y = bwdA a y)
    (hb_Rtail : ∀ y ∈ BR.tail, bwdA a' y = bwdA a y) :
    List.Chain (fun x y => bwdA a' y = some x) 0 (BL ++ BR) := by
  have hold' : List.Chain' (fun x y => bwdA a y = some x) ((0 :: BL) ++ idx :: BR) := hold
  obtain ⟨oldCL, oldCR', -⟩ := List.chain'_append.mp hold'
  have oldBR : List.Chain' (fun x y => bwdA a y = some x) BR := (List.chain'_cons'.mp oldCR').2
  show List.Chain' (fun x y => bwdA a' y = some x) ((0 :: BL) ++ BR)
  refine List.chain'_append.mpr ⟨?_, ?_, ?_⟩
  · exact chain'_congr_tail (0 :: BL) oldCL (fun y hy x hR => by rw [hb_L y hy]; exact hR)
  · exact chain'_congr_tail BR oldBR (fun y hy x hR => by rw [hb_Rtail y hy]; exact hR)
  · intro x hx y hy
    rw [Option.mem_def] at hx hy
    rw [getLast?_cons_getLastD] at hx
    have hxv : x = BL.getLastD 0 := by
      injection hx with hh
      exact hh.symm
    rw [hb_head y hy, hxv]

/-- The level-`i` forward link of an interior chain element is the head of
its suffix in the level-`i` chain. -/
theorem InvL.elem_fwd (h : InvL sl D) {i : Nat} (hi : i < MaxLevel)
    {X Y : List Nat} {j : Nat} (hsplit : idxs (atLvl D i) = X ++ j :: Y) :
    fwdA sl.arena j i = Y.head? := by
  obtain ⟨hchain, hlast⟩ := h.full_chain hi
  rw [hsplit] at hchain hlast
  cases Y with
  | nil =>
    refine hlast j ?_
    show ((0 :: X) ++ [j]).getLast? = some j
    exact List.getLast?_concat _
  | cons y ys =>
    exact chain'_rel_of_append (0 :: X) hchain

/-- The backward link of a chain element is its predecessor in the level-0
chain (the header when the element is first). -/
theorem InvL.elem_bwd (h : InvL sl D) {X Y : List Nat} {j : Nat}
    (hsplit : idxs D = X ++ j :: Y) :
    bwdA sl.arena j = some (X.getLastD 0) := by
  have hold : List.Chain' (fun x y => bwdA sl.arena y = some x) ((0 :: X) ++ j :: Y) := by
    have hb := h.bwd
    rw [hsplit] at hb
    exact hb
  obtain ⟨Z, hZ⟩ := cons_eq_append_getLastD X 0
  have hold2 : List.Chain' (fun x y => bwdA sl.arena y = some x)
      (Z ++ X.getLastD 0 :: j :: Y) := by
    rw [show Z ++ X.getLastD 0 :: j :: Y = (Z ++ [X.getLastD 0]) ++ j :: Y by
      rw [List.append_assoc]; rfl]
    rw [← hZ]
    exact hold
  exact chain'_rel_of_append Z hold2

theorem getLast?_eq_getLastD {α : Type _} {l : List α} (h : l ≠ []) (d : α) :
    l.getLast? = some (l.getLastD d) := by
  cases l with
  | nil => exact absurd rfl h
  | cons c cs =>
    rw [getLast?_cons_getLastD, List.getLastD_cons]

/-- Building the invariant for the state `Del` leaves behind after unlinking
the hit entry, from the final heap's accessor facts. -/
theorem del_inv_core (h : InvL sl D) (k : K) {q : Nat × Node K V} {t : List (Nat × Node K V)}
    (hrest : restOf D k = q :: t)
    {a' : List (Node K V)} {tl' : Option Nat}
    (hshape : ShapeEq sl.arena a')
    (hfwd_pred : ∀ i, i < q.2.level → fwdA a' (predIdx D i k) i = (idxs (atLvl t i)).head?)
    (hfwd_other : ∀ j i', j < sl.arena.length → (i' < q.2.level → j ≠ predIdx D i' k) →
      j ≠ q.1 → fwdA a' j i' = fwdA sl.arena j i')
    (hbwd_head : ∀ p, t.head? = some p → bwdA a' p.1 = some (predIdx D 0 k))
    (hbwd_other : ∀ j, j < sl.arena.length → (∀ p, t.head? = some p → j ≠ p.1) →
      j ≠ q.1 → bwdA a' j = bwdA sl.arena j)
    (htl0 : t = [] → tl' = some (predIdx D 0 k))
    (htl1 : t ≠ [] → tl' = sl.tail) :
    InvL ⟨a', tl', sl.level, sl.length - 1⟩ (lowOf D k ++ t) := by
  obtain ⟨h0, hh0, h0len⟩ := h.hdr
  have h0lt : 0 < sl.arena.length := nodeAt_lt_length hh0
  have hmemlt : ∀ x ∈ idxs D, x < sl.arena.length ∧ x ≠ 0 := by
    intro x hx
    rw [idxs, List.mem_map] at hx
    obtain ⟨p, hp, rfl⟩ := hx
    obtain ⟨hne0, -, -, n, hn, -⟩ := h.mem p hp
    exact ⟨nodeAt_lt_length hn, hne0⟩
  have hsplitD : D = lowOf D k ++ restOf D k := (List.takeWhile_append_dropWhile _ _).symm
  have hqD : q ∈ D := mem_of_restOf (hrest ▸ List.mem_cons_self q t)
  have hq1ne0 : q.1 ≠ 0 := (h.mem q hqD).1
  have hpred0 : predIdx D 0 k = (idxs (lowOf D k)).getLastD 0 := by
    rw [predIdx, h.atLvl_zero]
  have hnodD9 : (idxs (lowOf D k) ++ q.1 :: idxs t).Nodup := by
    have hnd := h.idx_nodup
    rw [hsplitD, hrest, idxs_append, idxs_cons] at hnd
    exact hnd
  have hmemLow : ∀ x ∈ idxs (lowOf D k), x < sl.arena.length ∧ x ≠ 0 :=
    fun x hx => hmemlt x (List.Sublist.mem hx (idxs_sublist (List.takeWhile_sublist _)))
  have htsub : ∀ p ∈ t, p ∈ D := by
    intro p hp
    exact mem_of_restOf (hrest ▸ List.mem_cons_of_mem q hp)
  have hmemT : ∀ x ∈ idxs t, x < sl.arena.length ∧ x ≠ 0 := by
    intro x hx
    rw [idxs, List.mem_map] at hx
    obtain ⟨p, hp, rfl⟩ := hx
    exact hmemlt p.1 (by rw [idxs]; exact List.mem_map.mpr ⟨p, htsub p hp, rfl⟩)
  have hDne : D ≠ [] := by
    intro hDe
    rw [hDe] at hrest
    exact List.noConfusion hrest
  constructor
  · obtain ⟨n2, hn2, -, -, -, s4⟩ := hshape 0 h0 hh0
    exact ⟨n2, hn2, s4.trans h0len⟩
  · intro p hp
    have hpD : p ∈ D := by
      rcases List.mem_append.mp hp with hpl | hpt
      · exact mem_of_lowOf hpl
      · exact htsub p hpt
    obtain ⟨hne0, hl1, hl2, n, hn, hk', hv', hnl, hnf⟩ := h.mem p hpD
    obtain ⟨n2, hn2, s1, s2, s3, s4⟩ := hshape p.1 n hn
    exact ⟨hne0, hl1, hl2, n2, hn2, s1.trans hk', s2.trans hv', s3.trans hnl, s4.trans hnf⟩
  · have hs2 := h.sorted
    rw [hsplitD, hrest] at hs2
    refine List.Pairwise.sublist ?_ hs2
    exact List.Sublist.append_left (List.sublist_cons_self q t) _
  · intro i hi
    have hsplitL : atLvl D i = atLvl (lowOf D k) i ++ atLvl (restOf D k) i := by
      conv_lhs => rw [hsplitD]
      rw [atLvl, List.filter_append]
      rfl
    have hcomm := lowOf_atLvl_comm h.sorted k i
    have hnodA : (idxs (atLvl (lowOf D k) i) ++ idxs (atLvl (restOf D k) i)).Nodup := by
      rw [← idxs_append, ← hsplitL]
      exact List.Nodup.sublist (idxs_sublist (List.filter_sublist D)) h.idx_nodup
    have hmemAL : ∀ x ∈ idxs (atLvl (lowOf D k) i), x < sl.arena.length ∧ x ≠ 0 :=
      fun x hx => hmemLow x (List.Sublist.mem hx (idxs_sublist (List.filter_sublist _)))
    have hmemAT : ∀ x ∈ idxs (atLvl t i), x < sl.arena.length ∧ x ≠ 0 :=
      fun x hx => hmemT x (List.Sublist.mem hx (idxs_sublist (List.filter_sublist _)))
    have hALpred : (idxs (atLvl (lowOf D k) i)).getLastD 0 = predIdx D i k := by
      rw [predIdx, hcomm.1]
    have hDout : atLvl (lowOf D k ++ t) i = atLvl (lowOf D k) i ++ atLvl t i := by
      rw [atLvl, List.filter_append]
      rfl
    by_cases hc : i < q.2.level
    · have hqhd : atLvl (restOf D k) i = q :: atLvl t i := by
        rw [hrest, atLvl, List.filter_cons, if_pos (by simpa using hc)]
        rfl
      have hold := h.upper i hi
      rw [hsplitL, hqhd, idxs_append, idxs_cons] at hold
      have hnodA' : (idxs (atLvl (lowOf D k) i) ++ q.1 :: idxs (atLvl t i)).Nodup := by
        have := hnodA
        rw [hqhd, idxs_cons] at this
        exact this
      rw [hDout, idxs_append]
      refine linkedFrom_remove_level hold ?_ ?_ ?_ ?_
      · rw [hALpred]
        exact hfwd_pred i hc
      · intro x hx
        have hxm : x ∈ idxs (atLvl (lowOf D k) i) :=
          List.Sublist.mem hx (List.dropLast_sublist _)
        refine hfwd_other x i (hmemAL x hxm).1 ?_ ?_
        · intro _
          rcases predIdx_cases D i k with ⟨hAe, -⟩ | ⟨p, hpl, -, hpv⟩
          · rw [hcomm.1] at hAe
            rw [hAe] at hxm
            simp [idxs] at hxm
          · rw [hpv]
            rw [hcomm.1] at hpl
            have hgl : (idxs (atLvl (lowOf D k) i)).getLast? = some p.1 := by
              rw [idxs, List.getLast?_map, hpl]
              rfl
            exact ne_getLast_of_mem_dropLast ((List.nodup_append.mp hnodA').1) hx hgl
        · intro he
          exact (List.nodup_append.mp hnodA').2.2 hxm (he ▸ List.mem_cons_self _ _)
      · intro x hx
        refine hfwd_other x i (hmemAT x hx).1 ?_ ?_
        · intro _
          rcases predIdx_cases D i k with ⟨-, hp0⟩ | ⟨p, hpl, hpm, hpv⟩
          · rw [hp0]
            exact (hmemAT x hx).2
          · rw [hpv]
            rw [hcomm.1] at hpm
            have hp1 : p.1 ∈ idxs (atLvl (lowOf D k) i) := by
              rw [idxs]
              exact List.mem_map.mpr ⟨p, hpm, rfl⟩
            intro hxe
            exact (List.nodup_append.mp hnodA').2.2 hp1
              (hxe ▸ List.mem_cons_of_mem _ hx)
        · intro he
          have hnodR : (q.1 :: idxs (atLvl t i)).Nodup := (List.nodup_append.mp hnodA').2.1
          exact (List.nodup_cons.mp hnodR).1 (he ▸ hx)
      · intro hALne
        refine hfwd_other 0 i h0lt ?_ (Ne.symm hq1ne0)
        intro _
        rcases predIdx_cases D i k with ⟨hAe, -⟩ | ⟨p, hpl, hpm, hpv⟩
        · rw [hcomm.1] at hAe
          rw [hAe] at hALne
          simp [idxs] at hALne
        · rw [hpv]
          exact Ne.symm (h.mem p (mem_of_atLvl (mem_of_lowOf hpm))).1
    · have hqskip : atLvl (restOf D k) i = atLvl t i := by
        rw [hrest, atLvl, List.filter_cons, if_neg (by simpa using hc)]
        rfl
      have hDi : atLvl (lowOf D k ++ t) i = atLvl D i := by
        rw [hsplitL, hqskip]
        exact hDout
      rw [hDi]
      have hne_q1 : ∀ p ∈ atLvl D i, p.1 ≠ q.1 := by
        intro p hp
        have hplvl : i < p.2.level := by simpa using (List.mem_filter.mp hp).2
        have hpD' : p ∈ lowOf D k ++ q :: t := by
          rw [← hrest, ← hsplitD]
          exact mem_of_atLvl hp
        rcases List.mem_append.mp hpD' with hpl | hpc
        · intro he
          have hq1L : q.1 ∈ idxs (lowOf D k) := by
            rw [← he, idxs]
            exact List.mem_map.mpr ⟨p, hpl, rfl⟩
          exact (List.nodup_append.mp hnodD9).2.2 hq1L (List.mem_cons_self _ _)
        · rcases List.mem_cons.mp hpc with heq | hpt
          · rw [heq] at hplvl
            exact absurd hplvl hc
          · intro he
            have hq1T : q.1 ∈ idxs t := by
              rw [← he, idxs]
              exact List.mem_map.mpr ⟨p, hpt, rfl⟩
            have hnodR : (q.1 :: idxs t).Nodup := (List.nodup_append.mp hnodD9).2.1
            exact (List.nodup_cons.mp hnodR).1 hq1T
      have h0' : fwdA a' 0 i = fwdA sl.arena 0 i :=
        hfwd_other 0 i h0lt (fun hlt => absurd hlt hc) (Ne.symm hq1ne0)
      rw [h0']
      refine LinkedFrom.congr (h.upper i hi) ?_
      intro x hx
      have hx' := hx
      rw [idxs, List.mem_map] at hx'
      obtain ⟨p, hp, rfl⟩ := hx'
      have hxlt : p.1 < sl.arena.length := by
        refine (hmemlt p.1 ?_).1
        rw [idxs]
        exact List.mem_map.mpr ⟨p, mem_of_atLvl hp, rfl⟩
      exact hfwd_other p.1 i hxlt (fun hlt => absurd hlt hc) (hne_q1 p hp)
  · rw [idxs_append]
    have hold := h.bwd
    have hDsplit : idxs D = idxs (lowOf D k) ++ q.1 :: idxs t := by
      conv_lhs => rw [hsplitD, hrest]
      rw [idxs_append, idxs_cons]
    rw [hDsplit] at hold
    refine chain_remove_bwd hold ?_ ?_ ?_
    · intro y hy
      cases hct : t with
      | nil =>
        rw [hct] at hy
        exact Option.noConfusion hy
      | cons p t2 =>
        rw [hct] at hy
        have hyp : y = p.1 := by
          rw [show (idxs (p :: t2)).head? = some p.1 from rfl] at hy
          injection hy with hh
          exact hh.symm
        rw [hyp, ← hpred0]
        exact hbwd_head p (by rw [hct]; rfl)
    · intro y hy
      refine hbwd_other y (hmemLow y hy).1 ?_ ?_
      · intro p hp
        have hpT : p.1 ∈ idxs t := by
          rw [idxs]
          exact List.mem_map.mpr ⟨p, List.mem_of_mem_head? (Option.mem_def.mpr hp), rfl⟩
        intro hye
        exact (List.nodup_append.mp hnodD9).2.2 hy (hye ▸ List.mem_cons_of_mem _ hpT)
      · intro he
        exact (List.nodup_append.mp hnodD9).2.2 hy (he ▸ List.mem_cons_self _ _)
    · intro y hy
      have hym : y ∈ idxs t := List.Sublist.mem hy (List.tail_sublist _)
      have hnodR : (q.1 :: idxs t).Nodup := (List.nodup_append.mp hnodD9).2.1
      refine hbwd_other y (hmemT y hym).1 ?_ ?_
      · intro p hp
        cases hct : t with
        | nil =>
          rw [hct] at hp
          exact Option.noConfusion hp
        | cons p2 t2 =>
          rw [hct] at hp hy
          have hpq : p = p2 := by
            rw [show (p2 :: t2).head? = some p2 from rfl] at hp
            injection hp with hh
            exact hh.symm
          rw [hpq]
          have hnodT : (idxs (p2 :: t2)).Nodup := by
            rw [← hct]
            exact (List.nodup_cons.mp hnodR).2
          rw [idxs_cons] at hnodT
          intro hye
          exact (List.nodup_cons.mp hnodT).1 (hye ▸ hy)
      · intro he
        exact (List.nodup_cons.mp hnodR).1 (he ▸ hym)
  · intro he
    obtain ⟨hlowe, hte⟩ := List.append_eq_nil.mp he
    right
    rw [htl0 hte, hpred0, hlowe]
    rfl
  · intro hne
    cases hct : t with
    | nil =>
      have hlowne : lowOf D k ≠ [] := by
        intro hle
        rw [hct, hle] at hne
        exact hne rfl
      have hilne : idxs (lowOf D k) ≠ [] := by
        intro hie
        cases hle : lowOf D k with
        | nil => exact hlowne hle
        | cons c cs =>
          rw [hle, idxs_cons] at hie
          exact List.noConfusion hie
      rw [htl0 hct, hpred0, List.append_nil]
      rw [getLast?_eq_getLastD hilne 0]
    | cons p t2 =>
      rw [htl1 (by rw [hct]; simp), h.tl1 hDne]
      have hDsp : idxs D = idxs (lowOf D k) ++ q.1 :: idxs t := by
        conv_lhs => rw [hsplitD, hrest]
        rw [idxs_append, idxs_cons]
      conv_lhs => rw [hDsp, hct]
      rw [idxs_append, idxs_cons]
      rw [List.getLast?_append, List.getLast?_append, List.getLast?_cons_cons]
  · show sl.length - 1 = _
    rw [List.length_append]
    have hsum : (lowOf D k).length + (restOf D k).length = D.length := by
      conv_rhs => rw [hsplitD]
      rw [List.length_append]
    rw [hrest, List.length_cons] at hsum
    rw [h.len]
    push_cast
    omega

/-- What the unlink loop of `Del` (skiplist.go:130) has done to the heap
after its first `m` iterations: slot `i < m` of predecessor `pI i` holds the
doomed node's (original) level-`i` successor, and every other link is
untouched. -/
structure UnlinkSpec (a0 : List (Node K V)) (nd : Nat) (pI : Nat → Nat) (m : Nat)
    (aF : List (Node K V)) : Prop where
  len : aF.length = a0.length
  shape : ShapeEq a0 aF
  fwd_pred : ∀ i, i < m → fwdA aF (pI i) i = fwdA a0 nd i
  fwd_other : ∀ j i', (i' < m → j ≠ pI i') → fwdA aF j i' = fwdA a0 j i'
  bwd_all : ∀ j, bwdA aF j = bwdA a0 j

theorem unlink_foldl_spec {a0 : List (Node K V)} {nd : Nat} {pI : Nat → Nat} {lvl : Nat}
    (hnd : ∀ i, i < lvl → pI i ≠ nd)
    (hcap : ∀ i, i < lvl → ∃ n, nodeAt a0 (pI i) = some n ∧ i < n.forward.length) :
    ∀ m, m ≤ lvl →
      UnlinkSpec a0 nd pI m
        ((List.range m).foldl (fun a' i => setFwd a' (pI i) i (fwdA a' nd i)) a0) := by
  intro m
  induction m with
  | zero =>
    intro _
    exact ⟨rfl, shapeEq_refl a0, fun i hi => absurd hi (Nat.not_lt_zero i),
      fun _ _ _ => rfl, fun _ => rfl⟩
  | succ m ih =>
    intro hm1
    have hm : m < lvl := hm1
    have hS := ih (Nat.le_of_succ_le hm1)
    rw [List.range_succ, List.foldl_append]
    simp only [List.foldl_cons, List.foldl_nil]
    obtain ⟨n0, hn0, hn0c⟩ := hcap m hm
    obtain ⟨n1, hn1, hsh1⟩ := hS.shape (pI m) n0 hn0
    have hn1c : m < n1.forward.length := by
      rw [hsh1.2.2.2]
      exact hn0c
    refine ⟨?_, ?_, ?_, ?_, ?_⟩
    · rw [length_setFwd, hS.len]
    · exact shapeEq_setFwd hS.shape _ _ _
    · intro i hi
      rcases Nat.lt_succ_iff_lt_or_eq.mp hi with hi' | hieq
      · rw [fwdA_setFwd_untouched _ _ _ (Or.inr (by omega))]
        exact hS.fwd_pred i hi'
      · subst hieq
        rw [fwdA_setFwd_self hn1 i hn1c]
        exact hS.fwd_other nd i (fun hmm => absurd hmm (lt_irrefl i))
    · intro j i' hcond
      by_cases hieq : i' = m
      · subst hieq
        rw [fwdA_setFwd_untouched _ _ _ (Or.inl (hcond (Nat.lt_succ_self i')))]
        exact hS.fwd_other j i' (fun hmm => absurd hmm (lt_irrefl i'))
      · rw [fwdA_setFwd_untouched _ _ _ (Or.inr hieq)]
        exact hS.fwd_other j i' (fun hi'm => hcond (Nat.lt_succ_of_lt hi'm))
    · intro j
      rw [bwdA_setFwd]
      exact hS.bwd_all j

/-- `Del` of an absent key (skiplist.go:120): early return, state untouched. -/
theorem del_notfound (h : InvL sl D) (k : K) (hnone : hitOf D k = none) :
    del sl k = (sl, some errNotFound) := by
  have hf := h.find_eq k
  rw [hnone] at hf
  unfold del
  rw [hf]
  rfl

theorem delStep1_none {j : Nat} (hf0 : fwdA sl.arena j 0 = none) :
    delStep1 sl j = (sl.arena, bwdA sl.arena j) := by
  unfold delStep1
  rw [hf0]

theorem delStep1_some {j s : Nat} (hf0 : fwdA sl.arena j 0 = some s) :
    delStep1 sl j = (setBwd sl.arena s (bwdA sl.arena j), sl.tail) := by
  unfold delStep1
  rw [hf0]

/-- `Del` of a present key (skiplist.go:124-134): backward/tail fix, unlink
loop over the node's level, length decrement. -/
theorem del_found_unfold (h : InvL sl D) (k : K) {j : Nat} (hsome : hitOf D k = some j) :
    del sl k =
      ({ arena := unlinkLoop (delStep1 sl j).1 j
           ((List.range MaxLevel).map (fun t => predIdx D t k)) (levelA sl.arena j),
         tail := (delStep1 sl j).2, level := sl.level, length := sl.length - 1 }, none) := by
  have hf := h.find_eq k
  rw [hsome] at hf
  unfold del
  rw [hf]
  rfl

/-- `Del` of a present key under the invariant: the hit entry disappears
from the tracked chain. -/
theorem del_found_spec (h : InvL sl D) {k : K} {q : Nat × Node K V}
    {t : List (Nat × Node K V)}
    (hrest : restOf D k = q :: t) (hkey : q.2.key = k) :
    InvL (del sl k).1 (lowOf D k ++ t) := by
  have hsome : hitOf D k = some q.1 := by
    rw [hitOf, hrest]
    show (some q).bind _ = _
    rw [Option.some_bind, if_pos hkey]
  have hqD : q ∈ D := mem_of_restOf (hrest ▸ List.mem_cons_self q t)
  obtain ⟨hq1ne0, hlvl1, hlvl12, nq, hnq, hnqk, hnqv, hnql, hnqf⟩ := h.mem q hqD
  have hlevelA : levelA sl.arena q.1 = q.2.level := by
    rw [levelA_of_nodeAt hnq, hnql]
  have hsplitD : D = lowOf D k ++ restOf D k := (List.takeWhile_append_dropWhile _ _).symm
  have hDsp : idxs D = idxs (lowOf D k) ++ q.1 :: idxs t := by
    conv_lhs => rw [hsplitD, hrest]
    rw [idxs_append, idxs_cons]
  have hpred0 : predIdx D 0 k = (idxs (lowOf D k)).getLastD 0 := by
    rw [predIdx, h.atLvl_zero]
  have hbwdq : bwdA sl.arena q.1 = some (predIdx D 0 k) := by
    rw [hpred0]
    exact h.elem_bwd hDsp
  have hnodD9 : (idxs (lowOf D k) ++ q.1 :: idxs t).Nodup := by
    have hnd := h.idx_nodup
    rw [hDsp] at hnd
    exact hnd
  have hfwdqi : ∀ i, i < q.2.level → fwdA sl.arena q.1 i = (idxs (atLvl t i)).head? := by
    intro i hi
    have hi12 : i < MaxLevel := lt_of_lt_of_le hi hlvl12
    have hcomm := lowOf_atLvl_comm h.sorted k i
    have hcons : atLvl (q :: t) i = q :: atLvl t i := by
      rw [atLvl, List.filter_cons, if_pos (by simpa using hi)]
      rfl
    have hsp : atLvl D i = lowOf (atLvl D i) k ++ (q :: atLvl t i) := by
      conv_lhs => rw [show atLvl D i = lowOf (atLvl D i) k ++ restOf (atLvl D i) k from
        (List.takeWhile_append_dropWhile _ _).symm]
      rw [hcomm.2, hrest, hcons]
    have hsp2 : idxs (atLvl D i) = idxs (lowOf (atLvl D i) k) ++ q.1 :: idxs (atLvl t i) := by
      conv_lhs => rw [hsp]
      rw [idxs_append, idxs_cons]
    exact h.elem_fwd hi12 hsp2
  have hnd' : ∀ i, i < q.2.level → predIdx D i k ≠ q.1 := by
    intro i hi
    have hcomm := lowOf_atLvl_comm h.sorted k i
    rcases predIdx_cases D i k with ⟨-, hp0⟩ | ⟨p, -, hpm, hpv⟩
    · rw [hp0]
      exact Ne.symm hq1ne0
    · rw [hpv]
      rw [hcomm.1] at hpm
      have hp1 : p.1 ∈ idxs (lowOf D k) := by
        rw [idxs]
        exact List.mem_map.mpr ⟨p, mem_of_atLvl hpm, rfl⟩
      intro he
      exact (List.nodup_append.mp hnodD9).2.2 hp1 (he ▸ List.mem_cons_self _ _)
  have hcapgen : ∀ {a0 : List (Node K V)}, ShapeEq sl.arena a0 →
      ∀ i, i < q.2.level → ∃ n, nodeAt a0 (predIdx D i k) = some n ∧ i < n.forward.length := by
    intro a0 hsh i hi
    obtain ⟨n, hn, hc⟩ := h.pred_node (lt_of_lt_of_le hi hlvl12) k
    obtain ⟨n2, hn2, -, -, -, s4⟩ := hsh _ n hn
    refine ⟨n2, hn2, ?_⟩
    rw [s4]
    exact hc
  have hupseq : ∀ i ∈ List.range q.2.level, ∀ b : List (Node K V),
      (fun a' i => setFwd a'
          (((List.range MaxLevel).map (fun t => predIdx D t k)).getD i 0) i
          (fwdA a' q.1 i)) b i =
      (fun a' i => setFwd a' ((fun i => predIdx D i k) i) i (fwdA a' q.1 i)) b i := by
    intro i hi b
    have hg : ((List.range MaxLevel).map (fun t => predIdx D t k)).getD i 0 = predIdx D i k :=
      getD_map_range _ (lt_of_lt_of_le (List.mem_range.mp hi) hlvl12)
    show setFwd b (((List.range MaxLevel).map (fun t => predIdx D t k)).getD i 0) i
        (fwdA b q.1 i) = _
    rw [hg]
  rw [del_found_unfold h k hsome, hlevelA]
  by_cases hct : t = []
  · have hf0 : fwdA sl.arena q.1 0 = none := by
      rw [hfwdqi 0 hlvl1, hct]
      rfl
    rw [delStep1_none hf0]
    have heqU : unlinkLoop sl.arena q.1
        ((List.range MaxLevel).map (fun t => predIdx D t k)) q.2.level =
        (List.range q.2.level).foldl
          (fun a' i => setFwd a' ((fun i => predIdx D i k) i) i (fwdA a' q.1 i)) sl.arena := by
      rw [unlinkLoop]
      exact foldl_ext_mem _ _ _ hupseq _
    rw [heqU]
    have hU := unlink_foldl_spec hnd' (hcapgen (shapeEq_refl _)) q.2.level (le_refl _)
    refine del_inv_core h k hrest hU.shape ?_ ?_ ?_ ?_ ?_ ?_
    · intro i hi
      rw [hU.fwd_pred i hi]
      exact hfwdqi i hi
    · intro j i' _ hcond _
      exact hU.fwd_other j i' hcond
    · intro p hp
      rw [hct] at hp
      exact Option.noConfusion hp
    · intro j _ _ _
      exact hU.bwd_all j
    · intro _
      exact hbwdq
    · intro hne
      exact absurd hct hne
  · obtain ⟨p, t2, hpt⟩ := List.exists_cons_of_ne_nil hct
    have hpD : p ∈ D := mem_of_restOf (hrest ▸ List.mem_cons_of_mem q (hpt ▸ List.mem_cons_self p t2))
    obtain ⟨-, -, -, np, hnp, -⟩ := h.mem p hpD
    have hf0 : fwdA sl.arena q.1 0 = some p.1 := by
      rw [hfwdqi 0 hlvl1, hpt]
      have hz : atLvl (p :: t2) 0 = p :: t2 := atLvl_zero_of (fun r hr =>
        (h.mem r (mem_of_restOf
          (by rw [hrest, hpt]; exact List.mem_cons_of_mem q hr))).2.1)
      rw [hz]
      rfl
    rw [delStep1_some hf0]
    have heqU : unlinkLoop (setBwd sl.arena p.1 (bwdA sl.arena q.1)) q.1
        ((List.range MaxLevel).map (fun t => predIdx D t k)) q.2.level =
        (List.range q.2.level).foldl
          (fun a' i => setFwd a' ((fun i => predIdx D i k) i) i (fwdA a' q.1 i))
          (setBwd sl.arena p.1 (bwdA sl.arena q.1)) := by
      rw [unlinkLoop]
      exact foldl_ext_mem _ _ _ hupseq _
    rw [heqU]
    have hU := unlink_foldl_spec hnd'
      (hcapgen (shapeEq_setBwd (shapeEq_refl sl.arena) p.1 (bwdA sl.arena q.1)))
      q.2.level (le_refl _)
    refine del_inv_core h k hrest
      (shapeEq_trans (shapeEq_setBwd (shapeEq_refl sl.arena) p.1 (bwdA sl.arena q.1))
        hU.shape) ?_ ?_ ?_ ?_ ?_ ?_
    · intro i hi
      rw [hU.fwd_pred i hi, fwdA_setBwd]
      exact hfwdqi i hi
    · intro j i' _ hcond _
      rw [hU.fwd_other j i' hcond, fwdA_setBwd]
    · intro p' hp'
      have hpp : p' = p := by
        rw [hpt] at hp'
        rw [show (p :: t2).head? = some p from rfl] at hp'
        injection hp' with hh
        exact hh.symm
      rw [hpp, hU.bwd_all, bwdA_setBwd_self hnp]
      exact hbwdq
    · intro j _ hcond _
      rw [hU.bwd_all, bwdA_setBwd_other _ _ _ (hcond p (by rw [hpt]; rfl))]
    · intro he
      rw [he] at hpt
      exact List.noConfusion hpt
    · intro _
      rfl

/-- The second component of a found `Del` is `none` (no error). -/
theorem del_found_err (h : InvL sl D) {k : K} {j : Nat} (hsome : hitOf D k = some j) :
    (del sl k).2 = none := by
  rw [del_found_unfold h k hsome]

/-- A present key yields a head entry of `restOf` carrying that key. -/
theorem hitOf_some_elim {D : List (Nat × Node K V)} {k : K} {j : Nat}
    (hsome : hitOf D k = some j) :
    ∃ q t, restOf D k = q :: t ∧ q.2.key = k ∧ q.1 = j := by
  cases hcr : restOf D k with
  | nil =>
    rw [hitOf, hcr] at hsome
    exact Option.noConfusion hsome
  | cons q t =>
    have hsome2 : (if q.2.key = k then some q.1 else none) = some j := by
      rw [← hsome, hitOf, hcr]
      rfl
    by_cases hqk : q.2.key = k
    · rw [if_pos hqk] at hsome2
      injection hsome2 with hh
      exact ⟨q, t, rfl, hqk, hh⟩
    · rw [if_neg hqk] at hsome2
      exact Option.noConfusion hsome2

/-- Every state reachable from `New` through `Put`/`Del` satisfies the
invariant. -/
theorem reach_inv {sl : Skiplist K V} (h : Reachable sl) : Inv sl := by
  induction h with
  | new zk zv => exact ⟨[], new_inv zk zv⟩
  | @put sl k v lvl hr h1 h2 ih =>
    obtain ⟨D, hI⟩ := ih
    by_cases hlen : sl.length = 0
    · have hD : D = [] := by
        have hl := hI.len
        rw [hlen] at hl
        have hl0 : D.length = 0 := by exact_mod_cast hl.symm
        exact List.eq_nil_of_length_eq_zero hl0
      exact ⟨_, put_inv_empty hI hD k v lvl⟩
    · cases hhit : hitOf D k with
      | none => exact ⟨_, put_insert_spec hI hhit h1 h2 hlen⟩
      | some j =>
        obtain ⟨q, t, hcr, hqk, -⟩ := hitOf_some_elim hhit
        exact ⟨_, put_found_spec hI v lvl hcr hqk⟩
  | @del sl k hr ih =>
    obtain ⟨D, hI⟩ := ih
    cases hhit : hitOf D k with
    | none =>
      refine ⟨D, ?_⟩
      have hd : (del sl k).1 = sl := by rw [del_notfound hI k hhit]
      rw [hd]
      exact hI
    | some j =>
      obtain ⟨q, t, hcr, hqk, -⟩ := hitOf_some_elim hhit
      exact ⟨_, del_found_spec hI hcr hqk⟩

/-! ### Query characterizations: each query is a function of the tracked
chain-with-data alone -/

/-- The stored value of `k` per the tracked chain. -/
def lookupD (D : List (Nat × Node K V)) (k : K) : Option V :=
  (restOf D k).head?.bind (fun p => if p.2.key = k then some p.2.value else none)

/-- `Get` as a function of the tracked chain. -/
def getD (D : List (Nat × Node K V)) (k : K) : Except String V :=
  match lookupD D k with
  | some v => .ok v
  | none => .error errNotFound

theorem lookupD_of_hitOf_none {D : List (Nat × Node K V)} {k : K} (h : hitOf D k = none) :
    lookupD D k = none := by
  rw [hitOf] at h
  rw [lookupD]
  cases hh : (restOf D k).head? with
  | none => rfl
  | some p =>
    rw [hh] at h
    rw [Option.some_bind] at h ⊢
    by_cases hk : p.2.key = k
    · rw [if_pos hk] at h
      exact Option.noConfusion h
    · rw [if_neg hk]

theorem get_eqD (h : InvL sl D) (k : K) : get sl k = getD D k := by
  have hf := h.find_eq k
  cases hhit : hitOf D k with
  | none =>
    rw [hhit] at hf
    have hred : get sl k = .error errNotFound := by
      unfold get
      rw [hf]
      rfl
    rw [hred, getD, lookupD_of_hitOf_none hhit]
  | some j =>
    obtain ⟨q, t, hcr, hqk, hqj⟩ := hitOf_some_elim hhit
    rw [hhit] at hf
    have hred : get sl k = getNode sl j := by
      unfold get
      rw [hf]
      rfl
    obtain ⟨-, -, -, nq, hnq, -, hnv, -, -⟩ :=
      h.mem q (mem_of_restOf (hcr ▸ List.mem_cons_self q t))
    rw [hred, ← hqj, getNode, hnq]
    show Except.ok nq.value = getD D k
    rw [hnv]
    rw [getD, lookupD, hcr]
    rw [show ((q :: t).head?.bind fun p => if p.2.key = k then some p.2.value else none) =
      if q.2.key = k then some q.2.value else none from rfl]
    rw [if_pos hqk]

/-- `RangeByKey` as a function of the tracked chain. -/
def rangeByKeyD (D : List (Nat × Node K V)) (a b : K) : Except String (List (K × V)) :=
  if a > b then .error errInvalidRange
  else .ok (absPairs ((restOf D a).takeWhile (fun p => decide (p.2.key ≤ b))))

theorem collectFwdLe_succ_node {j : Nat} {n : Node K V} (hn : nodeAt sl.arena j = some n)
    (b : K) (f : Nat) :
    collectFwdLe sl b (f+1) (some j) =
      if n.key ≤ b then (n.key, n.value) :: collectFwdLe sl b f (fwdA sl.arena j 0)
      else [] := by
  show (match nodeAt sl.arena j with
    | some n => if n.key ≤ b then (n.key, n.value) :: collectFwdLe sl b f (fwdA sl.arena j 0)
        else []
    | none => ([] : List (K × V))) = _
  rw [hn]

theorem collectFwdLe_spec (h : InvL sl D) (b : K) :
    ∀ (S X : List (Nat × Node K V)), D = X ++ S → ∀ fuel, S.length < fuel →
      collectFwdLe sl b fuel (idxs S).head? =
        absPairs (S.takeWhile (fun p => decide (p.2.key ≤ b))) := by
  intro S
  induction S with
  | nil =>
    intro X hX fuel hf
    cases fuel with
    | zero => omega
    | succ f => rfl
  | cons p S' ih =>
    intro X hX fuel hf
    cases fuel with
    | zero => omega
    | succ f =>
      obtain ⟨-, -, -, n, hn, hk', hv', -, -⟩ := h.mem p (by
        rw [hX]
        exact List.mem_append_right X (List.mem_cons_self p S'))
      have hfwd : fwdA sl.arena p.1 0 = (idxs S').head? := by
        have hsp : idxs (atLvl D 0) = idxs X ++ p.1 :: idxs S' := by
          rw [h.atLvl_zero, hX, idxs_append, idxs_cons]
        exact h.elem_fwd (by decide) hsp
      show collectFwdLe sl b (f+1) (some p.1) = _
      rw [collectFwdLe_succ_node hn b f, hfwd, List.takeWhile_cons]
      by_cases hle : p.2.key ≤ b
      · rw [if_pos (by rw [hk']; exact hle), if_pos (by simpa using hle)]
        rw [ih (X ++ [p]) (by rw [hX, List.append_assoc]; rfl) f (by
          rw [List.length_cons] at hf
          omega)]
        rw [hk', hv']
        rfl
      · rw [if_neg (by rw [hk']; exact hle), if_neg (by simpa using hle)]
        rfl

theorem rangeByKey_eqD (h : InvL sl D) (a b : K) : rangeByKey sl a b = rangeByKeyD D a b := by
  by_cases hab : a > b
  · rw [rangeByKey, rangeByKeyD, if_pos hab, if_pos hab]
  · have hf := h.find_eq a
    have hsplitD : D = lowOf D a ++ restOf D a := (List.takeWhile_append_dropWhile _ _).symm
    have hflen : (restOf D a).length < sl.arena.length := by
      have hle : (restOf D a).length ≤ D.length := by
        conv_rhs => rw [hsplitD]
        rw [List.length_append]
        omega
      exact lt_of_le_of_lt hle h.length_lt_arena
    have hcoll := collectFwdLe_spec h b (restOf D a) (lowOf D a) hsplitD sl.arena.length hflen
    cases hhit : hitOf D a with
    | none =>
      rw [hhit] at hf
      have hred : rangeByKey sl a b = .ok (collectFwdLe sl b sl.arena.length
          (fwdA sl.arena (((List.range MaxLevel).map (fun t => predIdx D t a)).getD 0 0) 0)) := by
        rw [rangeByKey, if_neg hab, hf]
        rfl
      rw [hred, getD_map_range _ (by decide : (0:Nat) < MaxLevel),
        h.fwd_pred (by decide) a, h.atLvl_zero, hcoll, rangeByKeyD, if_neg hab]
    | some j =>
      obtain ⟨q, t, hcr, hqk, hqj⟩ := hitOf_some_elim hhit
      rw [hhit] at hf
      have hred : rangeByKey sl a b = .ok (collectFwdLe sl b sl.arena.length (some j)) := by
        rw [rangeByKey, if_neg hab, hf]
        rfl
      have hst : some j = (idxs (restOf D a)).head? := by
        rw [hcr, idxs_cons, ← hqj]
        rfl
      rw [hred, hst, hcoll, rangeByKeyD, if_neg hab]

theorem collectDir_succ_node {j : Nat} {n : Node K V} (hn : nodeAt sl.arena j = some n)
    (hj : j ≠ 0) (fw : Bool) (c : Nat) :
    collectDir sl fw (c+1) (some j) =
      (n.key, n.value) ::
        collectDir sl fw c (if fw then fwdA sl.arena j 0 else n.backward) := by
  show (if j = 0 then [] else
    match nodeAt sl.arena j with
    | some n => (n.key, n.value) ::
        collectDir sl fw c (if fw then fwdA sl.arena j 0 else n.backward)
    | none => ([] : List (K × V))) = _
  rw [if_neg hj, hn]

theorem collectDir_header (fw : Bool) (c : Nat) : collectDir sl fw c (some 0) = [] := by
  cases c with
  | zero => rfl
  | succ c => rfl

theorem collectDir_none (fw : Bool) (c : Nat) : collectDir sl fw c none = [] := by
  cases c with
  | zero => rfl
  | succ c => rfl

/-- The forward collection loop over a suffix of the chain gathers the first
`cnt` entries of the suffix. -/
theorem collectDir_fwd_spec (h : InvL sl D) :
    ∀ (S X : List (Nat × Node K V)), D = X ++ S → ∀ cnt,
      collectDir sl true cnt (idxs S).head? = absPairs (S.take cnt) := by
  intro S
  induction S with
  | nil =>
    intro X hX cnt
    cases cnt with
    | zero => rfl
    | succ c => rfl
  | cons p S' ih =>
    intro X hX cnt
    cases cnt with
    | zero => rfl
    | succ c =>
      obtain ⟨hne0, -, -, n, hn, hk', hv', -, -⟩ := h.mem p (by
        rw [hX]
        exact List.mem_append_right X (List.mem_cons_self p S'))
      have hfwd : fwdA sl.arena p.1 0 = (idxs S').head? := by
        have hsp : idxs (atLvl D 0) = idxs X ++ p.1 :: idxs S' := by
          rw [h.atLvl_zero, hX, idxs_append, idxs_cons]
        exact h.elem_fwd (by decide) hsp
      show collectDir sl true (c+1) (some p.1) = _
      rw [collectDir_succ_node hn hne0 true c]
      show (n.key, n.value) :: collectDir sl true c (fwdA sl.arena p.1 0) = _
      rw [hfwd, ih (X ++ [p]) (by rw [hX, List.append_assoc]; rfl) c, hk', hv']
      rfl

/-- The backward collection loop from an element gathers the reversal of the
chain up to and including it, capped at `cnt` and stopped at the header. -/
theorem collectDir_bwd_spec (h : InvL sl D) :
    ∀ (X : List (Nat × Node K V)) (p : Nat × Node K V) (Y : List (Nat × Node K V)),
      D = X ++ p :: Y → ∀ cnt,
      collectDir sl false cnt (some p.1) =
        absPairs (((X ++ [p]).reverse).take cnt) := by
  intro X
  induction X using List.reverseRecOn with
  | nil =>
    intro p Y hX cnt
    cases cnt with
    | zero => rfl
    | succ c =>
      obtain ⟨hne0, -, -, n, hn, hk', hv', -, -⟩ := h.mem p (by
        rw [hX]
        exact List.mem_cons_self p Y)
      have hbwd : bwdA sl.arena p.1 = some 0 := by
        have hsp : idxs D = ([] : List Nat) ++ p.1 :: idxs Y := by
          rw [hX]
          rfl
        exact h.elem_bwd hsp
      have hb : bwdA sl.arena p.1 = n.backward := by
        rw [bwdA, hn]
      rw [collectDir_succ_node hn hne0 false c]
      show (n.key, n.value) :: collectDir sl false c n.backward = _
      rw [← hb, hbwd, collectDir_header, hk', hv']
      rw [List.nil_append, List.reverse_singleton, List.take_succ_cons, List.take_nil]
      rfl
  | append_singleton X' r ih =>
    intro p Y hX cnt
    cases cnt with
    | zero => rfl
    | succ c =>
      obtain ⟨hne0, -, -, n, hn, hk', hv', -, -⟩ := h.mem p (by
        rw [hX]
        exact List.mem_append_right _ (List.mem_cons_self p Y))
      have hbwd : bwdA sl.arena p.1 = some r.1 := by
        have hsp : idxs D = idxs (X' ++ [r]) ++ p.1 :: idxs Y := by
          rw [hX, idxs_append, idxs_cons]
        have hres := h.elem_bwd hsp
        rw [idxs_append] at hres
        rw [hres]
        rw [show idxs [r] = [r.1] from rfl]
        rw [show ((idxs X' ++ [r.1]).getLastD 0) = r.1 from by
          rw [List.getLastD_eq_getLast?, List.getLast?_concat]
          rfl]
      have hb : bwdA sl.arena p.1 = n.backward := by
        rw [bwdA, hn]
      rw [collectDir_succ_node hn hne0 false c]
      show (n.key, n.value) :: collectDir sl false c n.backward = _
      rw [← hb, hbwd, ih r (p :: Y) (by rw [hX, List.append_assoc]; rfl) c, hk', hv']
      conv_rhs => rw [List.reverse_append]
      rfl

/-- `RangeByCount` as a function of the tracked chain: forward takes from
the first key ≥ `s`; backward walks the reversal of the keys ≤ `s`; the
bound is the wrapped 64-bit negation for negative counts (zero items at the
minimum value). -/
def rangeByCountD (D : List (Nat × Node K V)) (s : K) (c : Int) :
    Except String (List (K × V)) :=
  if c = 0 then .error errZeroCount
  else if 0 < c then .ok (absPairs ((restOf D s).take c.toNat))
  else .ok (absPairs ((D.takeWhile (fun p => decide (p.2.key ≤ s))).reverse.take
    (wrap64 (0 - c)).toNat))

theorem takeWhile_le_of_none {D : List (Nat × Node K V)} {k : K}
    (hs : D.Pairwise (fun p q => p.2.key < q.2.key)) (hnone : hitOf D k = none) :
    D.takeWhile (fun p => decide (p.2.key ≤ k)) = lowOf D k := by
  have hsplitD : D = lowOf D k ++ restOf D k := (List.takeWhile_append_dropWhile _ _).symm
  conv_lhs => rw [hsplitD]
  refine takeWhile_append_of _ _ _ ?_ ?_
  · intro a ha
    have hlt := @List.mem_takeWhile_imp _ (fun q : Nat × Node K V => decide (q.2.key < k)) _ _ ha
    simp only [decide_eq_true_eq] at hlt
    exact decide_eq_true (le_of_lt hlt)
  · intro b hb
    have hgt := restOf_gt_of_none hs hnone b hb
    exact decide_eq_false (not_le_of_lt hgt)

theorem takeWhile_le_of_hit {D : List (Nat × Node K V)} {k : K} {q : Nat × Node K V}
    {t : List (Nat × Node K V)}
    (hs : D.Pairwise (fun p r => p.2.key < r.2.key))
    (hrest : restOf D k = q :: t) (hkey : q.2.key = k) :
    D.takeWhile (fun p => decide (p.2.key ≤ k)) = lowOf D k ++ [q] := by
  have hsplitD : D = (lowOf D k ++ [q]) ++ t := by
    rw [List.append_assoc]
    rw [show ([q] : List (Nat × Node K V)) ++ t = q :: t from rfl, ← hrest]
    exact (List.takeWhile_append_dropWhile _ _).symm
  have htgt : ∀ b ∈ t, k < b.2.key := by
    have hsr : (restOf D k).Pairwise (fun p r => p.2.key < r.2.key) :=
      List.Pairwise.sublist (List.dropWhile_sublist _) hs
    rw [hrest, List.pairwise_cons] at hsr
    intro b hb
    rw [← hkey]
    exact hsr.1 b hb
  conv_lhs => rw [hsplitD]
  refine takeWhile_append_of _ _ _ ?_ ?_
  · intro a ha
    rcases List.mem_append.mp ha with hal | haq
    · have hlt := @List.mem_takeWhile_imp _ (fun r : Nat × Node K V => decide (r.2.key < k)) _ _ hal
      simp only [decide_eq_true_eq] at hlt
      exact decide_eq_true (le_of_lt hlt)
    · rcases List.mem_singleton.mp haq with rfl
      exact decide_eq_true (le_of_eq hkey)
  · intro b hb
    exact decide_eq_false (not_le_of_lt (htgt b hb))

theorem rangeByCount_eqD (h : InvL sl D) (s : K) (c : Int) :
    rangeByCount sl s c = rangeByCountD D s c := by
  by_cases hc0 : c = 0
  · rw [rangeByCount, rangeByCountD, if_pos hc0, if_pos hc0]
  · have hf := h.find_eq s
    have hsplitD : D = lowOf D s ++ restOf D s := (List.takeWhile_append_dropWhile _ _).symm
    have hpred0 : predIdx D 0 s = (idxs (lowOf D s)).getLastD 0 := by
      rw [predIdx, h.atLvl_zero]
    by_cases hpos : 0 < c
    · have hfw : decide (0 < c) = true := decide_eq_true hpos
      cases hhit : hitOf D s with
      | none =>
        rw [hhit] at hf
        have hred : rangeByCount sl s c = .ok (collectDir sl true c.toNat
            (fwdA sl.arena
              (((List.range MaxLevel).map (fun t => predIdx D t s)).getD 0 0) 0)) := by
          rw [rangeByCount, if_neg hc0, hf, hfw, if_neg (by omega : ¬ c < 0)]
          rfl
        rw [hred, getD_map_range _ (by decide : (0:Nat) < MaxLevel),
          h.fwd_pred (by decide) s, h.atLvl_zero,
          collectDir_fwd_spec h (restOf D s) (lowOf D s) hsplitD c.toNat,
          rangeByCountD, if_neg hc0, if_pos hpos]
      | some j =>
        obtain ⟨q, t, hcr, hqk, hqj⟩ := hitOf_some_elim hhit
        rw [hhit] at hf
        have hred : rangeByCount sl s c = .ok (collectDir sl true c.toNat (some j)) := by
          rw [rangeByCount, if_neg hc0, hf, hfw, if_neg (by omega : ¬ c < 0)]
          rfl
        have hst : some j = (idxs (restOf D s)).head? := by
          rw [hcr, idxs_cons, ← hqj]
          rfl
        rw [hred, hst, collectDir_fwd_spec h (restOf D s) (lowOf D s) hsplitD c.toNat,
          rangeByCountD, if_neg hc0, if_pos hpos]
    · have hfw : decide (0 < c) = false := decide_eq_false hpos
      cases hhit : hitOf D s with
      | none =>
        rw [hhit] at hf
        have hred : rangeByCount sl s c = .ok (collectDir sl false (wrap64 (0 - c)).toNat
            (some (((List.range MaxLevel).map (fun t => predIdx D t s)).getD 0 0))) := by
          rw [rangeByCount, if_neg hc0, hf, hfw, if_pos (by omega : c < 0)]
          rfl
        rw [hred, getD_map_range _ (by decide : (0:Nat) < MaxLevel), hpred0]
        rcases List.eq_nil_or_concat (lowOf D s) with hle | ⟨X', r, hlc⟩
        · rw [hle]
          rw [show ((idxs ([] : List (Nat × Node K V))).getLastD 0) = 0 from rfl]
          rw [collectDir_header, rangeByCountD, if_neg hc0, if_neg hpos,
            takeWhile_le_of_none h.sorted hhit, hle]
          rw [List.reverse_nil, List.take_nil]
          rfl
        · rw [List.concat_eq_append] at hlc
          have hgl : (idxs (lowOf D s)).getLastD 0 = r.1 := by
            rw [hlc, idxs_append, show idxs [r] = [r.1] from rfl,
              List.getLastD_eq_getLast?, List.getLast?_concat]
            rfl
          have hDsp : D = X' ++ r :: restOf D s := by
            conv_lhs => rw [hsplitD, hlc]
            rw [List.append_assoc]
            rfl
          rw [hgl, collectDir_bwd_spec h X' r (restOf D s) hDsp (wrap64 (0 - c)).toNat,
            rangeByCountD, if_neg hc0, if_neg hpos,
            takeWhile_le_of_none h.sorted hhit, hlc]
      | some j =>
        obtain ⟨q, t, hcr, hqk, hqj⟩ := hitOf_some_elim hhit
        rw [hhit] at hf
        have hred : rangeByCount sl s c = .ok (collectDir sl false (wrap64 (0 - c)).toNat
            (some j)) := by
          rw [rangeByCount, if_neg hc0, hf, hfw, if_pos (by omega : c < 0)]
          rfl
        have hDsp : D = lowOf D s ++ q :: t := by
          conv_lhs => rw [hsplitD, hcr]
        rw [hred, ← hqj, collectDir_bwd_spec h (lowOf D s) q t hDsp (wrap64 (0 - c)).toNat,
          rangeByCountD, if_neg hc0, if_neg hpos,
          takeWhile_le_of_hit h.sorted hcr hqk]

/-- `RangeByIndex` as a function of the tracked chain: positional start
resolution, then directional collection; the bound is the wrapped 64-bit
negation for negative counts (zero items at the minimum value). -/
def rangeByIndexD (D : List (Nat × Node K V)) (start c : Int) :
    Except String (List (K × V)) :=
  if c = 0 then .error errZeroCount
  else if start ≥ (D.length : Int) ∨ start < 0 - (D.length : Int) then .error errOutOfRange
  else
    let p : Nat := (if 0 ≤ start then start else (D.length : Int) + start).toNat
    if 0 < c then .ok (absPairs ((D.drop p).take c.toNat))
    else .ok (absPairs ((D.take (p+1)).reverse.take (wrap64 (0 - c)).toNat))

theorem stepFwdN_spec (h : InvL sl D) :
    ∀ (n : Nat) (S X : List (Nat × Node K V)), D = X ++ S →
      stepFwdN sl n (idxs S).head? = (idxs (S.drop n)).head? := by
  intro n
  induction n with
  | zero =>
    intro S X hX
    rfl
  | succ m ih =>
    intro S X hX
    cases S with
    | nil => rfl
    | cons p S' =>
      have hfwd : fwdA sl.arena p.1 0 = (idxs S').head? := by
        have hsp : idxs (atLvl D 0) = idxs X ++ p.1 :: idxs S' := by
          rw [h.atLvl_zero, hX, idxs_append, idxs_cons]
        exact h.elem_fwd (by decide) hsp
      show stepFwdN sl m (fwdA sl.arena p.1 0) = _
      rw [hfwd]
      exact ih S' (X ++ [p]) (by rw [hX, List.append_assoc]; rfl)

theorem stepBwdN_zero (n : Nat) : stepBwdN sl n (some 0) = some 0 := by
  cases n with
  | zero => rfl
  | succ m => rfl

theorem stepBwdN_succ_pos {j : Nat} (hj : j ≠ 0) (n : Nat) :
    stepBwdN sl (n+1) (some j) = stepBwdN sl n (bwdA sl.arena j) := by
  obtain ⟨m, rfl⟩ := Nat.exists_eq_succ_of_ne_zero hj
  rfl

theorem stepBwdN_spec (h : InvL sl D) :
    ∀ (X : List (Nat × Node K V)) (p : Nat × Node K V) (Y : List (Nat × Node K V)),
      D = X ++ p :: Y → ∀ n,
      stepBwdN sl n (some p.1) = some (((idxs (X ++ [p])).reverse.drop n).headD 0) := by
  intro X
  induction X using List.reverseRecOn with
  | nil =>
    intro p Y hX n
    cases n with
    | zero => rfl
    | succ m =>
      have hne0 : p.1 ≠ 0 := (h.mem p (by rw [hX]; exact List.mem_cons_self p Y)).1
      have hbwd : bwdA sl.arena p.1 = some 0 := by
        have hsp : idxs D = ([] : List Nat) ++ p.1 :: idxs Y := by
          rw [hX]
          rfl
        exact h.elem_bwd hsp
      rw [stepBwdN_succ_pos hne0 m, hbwd, stepBwdN_zero]
      rw [show ((idxs (([] : List (Nat × Node K V)) ++ [p])).reverse) = [p.1] from rfl,
        List.drop_succ_cons, List.drop_nil]
      rfl
  | append_singleton X' r ih =>
    intro p Y hX n
    have hrev : (idxs ((X' ++ [r]) ++ [p])).reverse = p.1 :: (idxs (X' ++ [r])).reverse := by
      rw [idxs_append, List.reverse_append]
      rfl
    cases n with
    | zero =>
      rw [hrev]
      rfl
    | succ m =>
      have hne0 : p.1 ≠ 0 := (h.mem p (by
        rw [hX]
        exact List.mem_append_right _ (List.mem_cons_self p Y))).1
      have hbwd : bwdA sl.arena p.1 = some r.1 := by
        have hsp : idxs D = idxs (X' ++ [r]) ++ p.1 :: idxs Y := by
          rw [hX, idxs_append, idxs_cons]
        have hres := h.elem_bwd hsp
        rw [hres]
        rw [idxs_append, show idxs [r] = [r.1] from rfl]
        rw [show ((idxs X' ++ [r.1]).getLastD 0) = r.1 from by
          rw [List.getLastD_eq_getLast?, List.getLast?_concat]
          rfl]
      rw [stepBwdN_succ_pos hne0 m, hbwd, ih r (p :: Y)
        (by rw [hX, List.append_assoc]; rfl) m]
      rw [hrev, List.drop_succ_cons]

theorem reverse_drop_headD {α : Type _} (l : List α) (m : Nat) (hm : m < l.length) (d : α) :
    (l.reverse.drop m).headD d = l.getD (l.length - 1 - m) d := by
  rw [List.headD_eq_head?]
  rw [List.head?_drop]
  rw [List.getElem?_reverse hm]
  rw [List.getD_eq_get?, List.get?_eq_getElem?]

theorem rangeByIndex_eqD (h : InvL sl D) (start c : Int) :
    rangeByIndex sl start c = rangeByIndexD D start c := by
  by_cases hc0 : c = 0
  · rw [rangeByIndex, rangeByIndexD, if_pos hc0, if_pos hc0]
  · by_cases hbnd : start ≥ sl.length ∨ start < 0 - sl.length
    · rw [rangeByIndex, rangeByIndexD, if_neg hc0, if_neg hc0,
        if_pos hbnd, if_pos (by rw [← h.len]; exact hbnd)]
    · have hbnd' : ¬ (start ≥ (D.length : Int) ∨ start < 0 - (D.length : Int)) := by
        rw [← h.len]
        exact hbnd
      obtain ⟨hlt, hge⟩ := not_or.mp hbnd
      rw [h.len] at hlt hge
      have hlt' : start < (D.length : Int) := lt_of_not_ge hlt
      have hge' : 0 - (D.length : Int) ≤ start := le_of_not_lt hge
      have hD1 : 1 ≤ D.length := by omega
      have hDne : D ≠ [] := by
        intro hDe
        rw [hDe] at hD1
        simp at hD1
      have hRHSgen : ∀ pN : Nat,
          (if 0 ≤ start then start else (D.length : Int) + start).toNat = pN →
          rangeByIndexD D start c =
            (if 0 < c then Except.ok (absPairs ((D.drop pN).take c.toNat))
             else Except.ok (absPairs ((D.take (pN+1)).reverse.take (wrap64 (0 - c)).toNat))) := by
        intro pN hpN
        rw [rangeByIndexD, if_neg hc0, if_neg hbnd']
        show (if 0 < c then
            Except.ok (absPairs ((D.drop
              ((if 0 ≤ start then start else ((D.length : Int)) + start).toNat)).take c.toNat))
          else Except.ok (absPairs ((D.take
              (((if 0 ≤ start then start else ((D.length : Int)) + start).toNat)+1)).reverse.take
            (wrap64 (0 - c)).toNat))) = _
        rw [hpN]
      by_cases hst0 : 0 ≤ start
      · have hpN : start.toNat < D.length := by omega
        have hs00 : fwdA sl.arena 0 0 = (idxs D).head? :=
          ((linkedFrom_iff _ _ _ _).mp h.chain0).1
        have hstep := stepFwdN_spec h start.toNat D [] rfl
        have hq : D.drop start.toNat =
            D.get ⟨start.toNat, hpN⟩ :: D.drop (start.toNat + 1) := List.drop_eq_get_cons hpN
        have hDsp : D = D.take start.toNat ++
            D.get ⟨start.toNat, hpN⟩ :: D.drop (start.toNat + 1) := by
          conv_lhs => rw [← List.take_append_drop start.toNat D]
          rw [hq]
        have htake : D.take (start.toNat + 1) =
            D.take start.toNat ++ [D.get ⟨start.toNat, hpN⟩] := by
          rw [List.take_succ, List.getElem?_eq_getElem hpN]
          rfl
        have hpeq : (if 0 ≤ start then start else (D.length : Int) + start).toNat
            = start.toNat := by
          rw [if_pos hst0]
        rw [hRHSgen start.toNat hpeq]
        by_cases hpos : 0 < c
        · have hfw : decide (0 < c) = true := decide_eq_true hpos
          have hred : rangeByIndex sl start c = .ok (collectDir sl true c.toNat
              (stepFwdN sl start.toNat (fwdA sl.arena 0 0))) := by
            rw [rangeByIndex, if_neg hc0, if_neg hbnd, hfw, if_neg (by omega : ¬ c < 0),
              if_pos hst0]
          rw [hred, hs00, hstep,
            collectDir_fwd_spec h (D.drop start.toNat) (D.take start.toNat)
              (List.take_append_drop _ _).symm c.toNat,
            if_pos hpos]
        · have hfw : decide (0 < c) = false := decide_eq_false hpos
          have hred : rangeByIndex sl start c = .ok (collectDir sl false
              (wrap64 (0 - c)).toNat
              (stepFwdN sl start.toNat (fwdA sl.arena 0 0))) := by
            rw [rangeByIndex, if_neg hc0, if_neg hbnd, hfw, if_pos (by omega : c < 0),
              if_pos hst0]
          have hhead : (idxs (D.drop start.toNat)).head? =
              some (D.get ⟨start.toNat, hpN⟩).1 := by
            rw [hq, idxs_cons]
            rfl
          rw [hred, hs00, hstep, hhead,
            collectDir_bwd_spec h (D.take start.toNat) (D.get ⟨start.toNat, hpN⟩)
              (D.drop (start.toNat + 1)) hDsp (wrap64 (0 - c)).toNat,
            if_neg hpos, ← htake]
      · have hm : (-1 - start).toNat < D.length := by omega
        have hpN : ((D.length : Int) + start).toNat < D.length := by omega
        have harith : D.length - 1 - (-1 - start).toNat = ((D.length : Int) + start).toNat := by
          omega
        rcases List.eq_nil_or_concat D with hDe | ⟨X0, lastp, hconc⟩
        · exact absurd hDe hDne
        rw [List.concat_eq_append] at hconc
        have htail : sl.tail = some lastp.1 := by
          rw [h.tl1 hDne]
          conv_lhs => rw [hconc]
          rw [idxs_append, show idxs [lastp] = [lastp.1] from rfl, List.getLast?_concat]
        have hstepB := stepBwdN_spec h X0 lastp [] (by rw [hconc]) (-1 - start).toNat
        rw [← hconc] at hstepB
        have hlenI : (idxs D).length = D.length := by
          rw [idxs, List.length_map]
        have hval : ((idxs D).reverse.drop (-1 - start).toNat).headD 0 =
            (D.get ⟨((D.length : Int) + start).toNat, hpN⟩).1 := by
          rw [reverse_drop_headD (idxs D) _ (by rw [hlenI]; exact hm) 0]
          rw [hlenI, harith]
          rw [List.getD_eq_get?, idxs, List.get?_map, List.get?_eq_get hpN]
          rfl
        have hq : D.drop ((D.length : Int) + start).toNat =
            D.get ⟨((D.length : Int) + start).toNat, hpN⟩ ::
              D.drop (((D.length : Int) + start).toNat + 1) := List.drop_eq_get_cons hpN
        have hDsp : D = D.take ((D.length : Int) + start).toNat ++
            D.get ⟨((D.length : Int) + start).toNat, hpN⟩ ::
              D.drop (((D.length : Int) + start).toNat + 1) := by
          conv_lhs => rw [← List.take_append_drop (((D.length : Int) + start).toNat) D]
          rw [hq]
        have htake : D.take (((D.length : Int) + start).toNat + 1) =
            D.take ((D.length : Int) + start).toNat ++
              [D.get ⟨((D.length : Int) + start).toNat, hpN⟩] := by
          rw [List.take_succ, List.getElem?_eq_getElem hpN]
          rfl
        have hpeq : (if 0 ≤ start then start else (D.length : Int) + start).toNat
            = ((D.length : Int) + start).toNat := by
          rw [if_neg hst0]
        rw [hRHSgen (((D.length : Int) + start).toNat) hpeq]
        by_cases hpos : 0 < c
        · have hfw : decide (0 < c) = true := decide_eq_true hpos
          have hred : rangeByIndex sl start c = .ok (collectDir sl true c.toNat
              (stepBwdN sl (-1 - start).toNat sl.tail)) := by
            rw [rangeByIndex, if_neg hc0, if_neg hbnd, hfw, if_neg (by omega : ¬ c < 0),
              if_neg hst0]
          have hhead : some (D.get ⟨((D.length : Int) + start).toNat, hpN⟩).1 =
              (idxs (D.drop ((D.length : Int) + start).toNat)).head? := by
            rw [hq, idxs_cons]
            rfl
          rw [hred, htail, hstepB, hval, hhead,
            collectDir_fwd_spec h (D.drop ((D.length : Int) + start).toNat)
              (D.take ((D.length : Int) + start).toNat)
              (List.take_append_drop _ _).symm c.toNat,
            if_pos hpos]
        · have hfw : decide (0 < c) = false := decide_eq_false hpos
          have hred : rangeByIndex sl start c = .ok (collectDir sl false
              (wrap64 (0 - c)).toNat
              (stepBwdN sl (-1 - start).toNat sl.tail)) := by
            rw [rangeByIndex, if_neg hc0, if_neg hbnd, hfw, if_pos (by omega : c < 0),
              if_neg hst0]
          rw [hred, htail, hstepB, hval,
            collectDir_bwd_spec h (D.take ((D.length : Int) + start).toNat)
              (D.get ⟨((D.length : Int) + start).toNat, hpN⟩)
              (D.drop (((D.length : Int) + start).toNat + 1)) hDsp (wrap64 (0 - c)).toNat,
            if_neg hpos, ← htake]

/-- Inserting an absent key and deleting it again restores a state tracked
by the very same chain-with-data. -/
theorem put_del_D (h : InvL sl D) {k : K} (v : V) {lvl : Nat}
    (hnone : hitOf D k = none) (h1 : 1 ≤ lvl) (h2 : lvl ≤ MaxLevel) :
    InvL (del (put sl k v lvl) k).1 D := by
  by_cases hlen : sl.length = 0
  · have hD : D = [] := by
      have hl := h.len
      rw [hlen] at hl
      have hl0 : D.length = 0 := by exact_mod_cast hl.symm
      exact List.eq_nil_of_length_eq_zero hl0
    have hI' := put_inv_empty h hD k v lvl
    have hrest : restOf [(sl.arena.length, (⟨k, v, 1, [none], some 0⟩ : Node K V))] k =
        (sl.arena.length, (⟨k, v, 1, [none], some 0⟩ : Node K V)) :: [] := by
      rw [restOf, List.dropWhile_cons, if_neg (by simp)]
    have hdel := del_found_spec hI' hrest rfl
    have hlow : lowOf [(sl.arena.length, (⟨k, v, 1, [none], some 0⟩ : Node K V))] k
        = [] := by
      rw [lowOf, List.takeWhile_cons, if_neg (by simp)]
    rw [hlow] at hdel
    rw [hD]
    exact hdel
  · have hins := put_insert_spec (v := v) h hnone h1 h2 hlen
    have hsplitD : D = lowOf D k ++ restOf D k := (List.takeWhile_append_dropWhile _ _).symm
    have hlowtrue : ∀ a ∈ lowOf D k, decide (a.2.key < k) = true := by
      intro a ha
      have hlt := @List.mem_takeWhile_imp _
        (fun q : Nat × Node K V => decide (q.2.key < k)) _ _ ha
      exact hlt
    have hrestfalse : ∀ b ∈ (sl.arena.length, (⟨k, v, lvl, [], none⟩ : Node K V)) ::
        restOf D k, decide (b.2.key < k) = false := by
      intro b hb
      rcases List.mem_cons.mp hb with rfl | hbr
      · simp
      · exact decide_eq_false (not_lt_of_gt (restOf_gt_of_none h.sorted hnone b hbr))
    have hrest' : restOf (lowOf D k ++
        (sl.arena.length, (⟨k, v, lvl, [], none⟩ : Node K V)) :: restOf D k) k =
        (sl.arena.length, (⟨k, v, lvl, [], none⟩ : Node K V)) :: restOf D k := by
      rw [restOf]
      exact dropWhile_append_of _ _ _ hlowtrue hrestfalse
    have hlow' : lowOf (lowOf D k ++
        (sl.arena.length, (⟨k, v, lvl, [], none⟩ : Node K V)) :: restOf D k) k =
        lowOf D k := by
      rw [lowOf]
      exact takeWhile_append_of _ _ _ hlowtrue hrestfalse
    have hdel := del_found_spec hins hrest' rfl
    rw [hlow', ← hsplitD] at hdel
    exact hdel

/-! ### Sorted-list characterizations used by the claims -/

theorem restOf_eq_filter {a : K} :
    ∀ {D : List (Nat × Node K V)}, D.Pairwise (fun p q => p.2.key < q.2.key) →
      restOf D a = D.filter (fun p => decide (a ≤ p.2.key)) := by
  intro D
  induction D with
  | nil => intro _; rfl
  | cons p T ih =>
    intro hs
    obtain ⟨hall, hT⟩ := List.pairwise_cons.mp hs
    rw [restOf, List.dropWhile_cons, List.filter_cons]
    by_cases hlt : p.2.key < a
    · rw [if_pos (by simpa using hlt), if_neg (by simpa using not_le_of_lt hlt)]
      exact ih hT
    · have hle : a ≤ p.2.key := le_of_not_lt hlt
      rw [if_neg (by simpa using hlt), if_pos (by simpa using hle)]
      congr 1
      symm
      rw [List.filter_eq_self]
      intro b hb
      simpa using le_trans hle (le_of_lt (hall b hb))

theorem takeWhile_le_eq_filter {b : K} :
    ∀ {D : List (Nat × Node K V)}, D.Pairwise (fun p q => p.2.key < q.2.key) →
      D.takeWhile (fun p => decide (p.2.key ≤ b)) =
        D.filter (fun p => decide (p.2.key ≤ b)) := by
  intro D
  induction D with
  | nil => intro _; rfl
  | cons p T ih =>
    intro hs
    obtain ⟨hall, hT⟩ := List.pairwise_cons.mp hs
    rw [List.takeWhile_cons, List.filter_cons]
    by_cases hle : p.2.key ≤ b
    · rw [if_pos (by simpa using hle), if_pos (by simpa using hle)]
      rw [ih hT]
    · rw [if_neg (by simpa using hle), if_neg (by simpa using hle)]
      symm
      rw [List.filter_eq_nil]
      intro q hq
      simp only [decide_eq_true_eq]
      intro hqb
      exact hle (le_trans (le_of_lt (hall q hq)) hqb)

theorem sorted_getLast_max {D : List (Nat × Node K V)} {p : Nat × Node K V} :
    D.Pairwise (fun x y => x.2.key < y.2.key) → D.getLast? = some p →
    ∀ r ∈ D, r = p ∨ r.2.key < p.2.key := by
  induction D with
  | nil =>
    intro _ hl
    exact absurd hl (by simp)
  | cons q T ih =>
    intro hs hl r hr
    obtain ⟨hall, hT⟩ := List.pairwise_cons.mp hs
    cases T with
    | nil =>
      have hqp : q = p := by
        have hl2 : some q = some p := hl
        exact Option.some.inj hl2
      rcases List.mem_singleton.mp hr with rfl
      exact Or.inl hqp
    | cons t ts =>
      rw [List.getLast?_cons_cons] at hl
      have hpin : p ∈ t :: ts := mem_of_getLast?_eq hl
      rcases List.mem_cons.mp hr with rfl | hrt
      · exact Or.inr (hall p hpin)
      · exact ih hT hl r hrt

theorem rangeByIndexD_reduce {D : List (Nat × Node K V)} {start c : Int}
    (hc0 : c ≠ 0)
    (hbnd : ¬ (start ≥ (D.length : Int) ∨ start < 0 - (D.length : Int))) :
    rangeByIndexD D start c =
      (if 0 < c then
        Except.ok (absPairs ((D.drop
          ((if 0 ≤ start then start else (D.length : Int) + start).toNat)).take c.toNat))
       else Except.ok (absPairs ((D.take
          (((if 0 ≤ start then start else (D.length : Int) + start).toNat)+1)).reverse.take
        (wrap64 (0 - c)).toNat))) := by
  rw [rangeByIndexD, if_neg hc0, if_neg hbnd]

/-! ### The claims -/

/-- The 8-key example container of the test suite (src/unnamed/part_000,
`buildSkiplist`): keys 000,001,008,003,005,007,006,004 inserted in that
order, then `Put("004","004-rewrite")` overwriting in place.  Keys and
values are `List Char` (Go strings compare lexicographically).  All inserts
draw level 1; range-query results do not depend on the drawn levels. -/
def exContainer : Skiplist (List Char) (List Char) :=
  put (put (put (put (put (put (put (put (put
    (new [] []) ['0','0','0'] ['0','0','0'] 1)
    ['0','0','1'] ['0','0','1'] 1)
    ['0','0','8'] ['0','0','8'] 1)
    ['0','0','3'] ['0','0','3'] 1)
    ['0','0','5'] ['0','0','5'] 1)
    ['0','0','7'] ['0','0','7'] 1)
    ['0','0','6'] ['0','0','6'] 1)
    ['0','0','4'] ['0','0','4'] 1)
    ['0','0','4'] ['0','0','4','-','r','e','w','r','i','t','e'] 1

/-- C1: on every reachable container, `RangeByKey(a,b)` with `a > b` yields
InvalidRange and no items, and with `a ≤ b` returns exactly the stored
entries whose key lies in `[a,b]`, each with its current value, in strictly
ascending key order (the tracked chain `D` enumerates the stored pairs). -/
theorem rangeByKey_returns_sorted_window {sl : Skiplist K V} (hr : Reachable sl) (a b : K) :
    (a > b → rangeByKey sl a b = .error errInvalidRange) ∧
    (a ≤ b → ∃ D, InvL sl D ∧
      rangeByKey sl a b = .ok (absPairs (D.filter
        (fun p => decide (a ≤ p.2.key) && decide (p.2.key ≤ b)))) ∧
      (absPairs (D.filter (fun p => decide (a ≤ p.2.key) && decide (p.2.key ≤ b)))).Pairwise
        (fun x y => x.1 < y.1)) := by
  constructor
  · intro hab
    rw [rangeByKey, if_pos hab]
  · intro hab
    obtain ⟨D, hI⟩ := reach_inv hr
    refine ⟨D, hI, ?_, ?_⟩
    · rw [rangeByKey_eqD hI a b, rangeByKeyD, if_neg (not_lt.mpr hab)]
      congr 1
      have hsr : (restOf D a).Pairwise (fun p q => p.2.key < q.2.key) :=
        List.Pairwise.sublist (List.dropWhile_sublist _) hI.sorted
      rw [takeWhile_le_eq_filter hsr, restOf_eq_filter hI.sorted, List.filter_filter]
      exact congrArg absPairs (List.filter_congr (fun x _ => Bool.and_comm _ _))
    · rw [absPairs, List.pairwise_map]
      exact List.Pairwise.sublist (List.filter_sublist D) hI.sorted

theorem rangeByKey_window_witness :
    ∃ D, InvL (put (new 0 0) 5 50 1 : Skiplist Nat Nat) D ∧
      rangeByKey (put (new 0 0) 5 50 1 : Skiplist Nat Nat) 2 7 =
        .ok (absPairs (D.filter (fun p => decide (2 ≤ p.2.key) && decide (p.2.key ≤ 7)))) ∧
      (absPairs (D.filter (fun p => decide (2 ≤ p.2.key) && decide (p.2.key ≤ 7)))).Pairwise
        (fun x y => x.1 < y.1) :=
  (rangeByKey_returns_sorted_window
    (Reachable.put 5 50 (Reachable.new 0 0) (by decide) (by decide)) 2 7).2 (by decide)

/-- C2 (counterexample): deleting the only element leaves `tail` pointing at
the header sentinel (`some 0`), not `none`, on a reachable container of
length 0 — `Del` (skiplist.go:127) writes `node.backward`, which is the
header, never `nil`. -/
theorem tail_of_emptied_container_not_none :
    Reachable ((del (put (new 0 0) 1 101 1) 1).1 : Skiplist Nat Nat) ∧
    ((del (put (new 0 0) 1 101 1) 1).1 : Skiplist Nat Nat).length = 0 ∧
    ((del (put (new 0 0) 1 101 1) 1).1 : Skiplist Nat Nat).tail ≠ none := by
  refine ⟨Reachable.del 1 (Reachable.put 1 101 (Reachable.new 0 0)
    (by decide) (by decide)), by decide, by decide⟩

/-- C2 (amended): on every reachable container, when the length is nonzero
the tail points at the entry holding the strictly greatest key; when the
length is zero the tail is `none` (fresh container) or the header sentinel
`some 0` (after deletions). -/
theorem tail_amended_invariant {sl : Skiplist K V} (hr : Reachable sl) :
    ∃ D, InvL sl D ∧
      (sl.length = 0 → sl.tail = none ∨ sl.tail = some 0) ∧
      (sl.length ≠ 0 → ∃ p, p ∈ D ∧ sl.tail = some p.1 ∧
        ∀ r ∈ D, r = p ∨ r.2.key < p.2.key) := by
  obtain ⟨D, hI⟩ := reach_inv hr
  refine ⟨D, hI, ?_, ?_⟩
  · intro hlen
    refine hI.tl0 ?_
    have hl := hI.len
    rw [hlen] at hl
    have hl0 : D.length = 0 := by exact_mod_cast hl.symm
    exact List.eq_nil_of_length_eq_zero hl0
  · intro hlen
    have hDne : D ≠ [] := by
      intro hDe
      rw [hDe] at hI
      exact hlen (by rw [hI.len]; rfl)
    rcases List.eq_nil_or_concat D with hDe | ⟨X0, p, hconc⟩
    · exact absurd hDe hDne
    rw [List.concat_eq_append] at hconc
    have hgl : D.getLast? = some p := by
      rw [hconc, List.getLast?_concat]
    refine ⟨p, mem_of_getLast?_eq hgl, ?_, sorted_getLast_max hI.sorted hgl⟩
    rw [hI.tl1 hDne]
    conv_lhs => rw [hconc]
    rw [idxs_append, show idxs [p] = [p.1] from rfl, List.getLast?_concat]

theorem tail_amended_witness :
    ∃ D, InvL (put (new 0 0) 5 50 1 : Skiplist Nat Nat) D ∧
      ((put (new 0 0) 5 50 1 : Skiplist Nat Nat).length = 0 →
        (put (new 0 0) 5 50 1 : Skiplist Nat Nat).tail = none ∨
        (put (new 0 0) 5 50 1 : Skiplist Nat Nat).tail = some 0) ∧
      ((put (new 0 0) 5 50 1 : Skiplist Nat Nat).length ≠ 0 →
        ∃ p, p ∈ D ∧ (put (new 0 0) 5 50 1 : Skiplist Nat Nat).tail = some p.1 ∧
          ∀ r ∈ D, r = p ∨ r.2.key < p.2.key) :=
  tail_amended_invariant (Reachable.put 5 50 (Reachable.new 0 0) (by decide) (by decide))

/-- C3: on every reachable container, the level-0 forward walk from the
header visits the stored entries in strictly ascending key order, and the
backward links mirror that chain exactly, starting at the header sentinel
(`List.Chain … 0` makes the first node's backward link point to index 0). -/
theorem chain_sorted_and_backward_mirror {sl : Skiplist K V} (hr : Reachable sl) :
    ∃ D, InvL sl D ∧ chainIdx sl = idxs D ∧
      (pairsOf sl).Pairwise (fun x y => x.1 < y.1) ∧
      List.Chain (fun x y => bwdA sl.arena y = some x) 0 (chainIdx sl) := by
  obtain ⟨D, hI⟩ := reach_inv hr
  refine ⟨D, hI, hI.chainIdx_eq, ?_, ?_⟩
  · rw [hI.pairsOf_eq]
    exact hI.pairs_sorted
  · rw [hI.chainIdx_eq]
    exact hI.bwd

theorem chain_mirror_witness :
    ∃ D, InvL (put (new 0 0) 5 50 1 : Skiplist Nat Nat) D ∧
      chainIdx (put (new 0 0) 5 50 1 : Skiplist Nat Nat) = idxs D ∧
      (pairsOf (put (new 0 0) 5 50 1 : Skiplist Nat Nat)).Pairwise (fun x y => x.1 < y.1) ∧
      List.Chain (fun x y => bwdA (put (new 0 0) 5 50 1 : Skiplist Nat Nat).arena y = some x)
        0 (chainIdx (put (new 0 0) 5 50 1 : Skiplist Nat Nat)) :=
  chain_sorted_and_backward_mirror
    (Reachable.put 5 50 (Reachable.new 0 0) (by decide) (by decide))

theorem collectDir_zero (fw : Bool) (st : Option Nat) : collectDir sl fw 0 st = [] := by
  cases st with
  | none => rfl
  | some j => rfl

/-- `RangeByCount` at the minimum 64-bit count: the negation at
skiplist.go:170 wraps, the bound stays negative, and the loop collects
nothing, whatever the container and start key. -/
theorem rangeByCount_minInt (sl : Skiplist K V) (u : K) :
    rangeByCount sl u (-(2^63)) = .ok [] := by
  have hz : rangeByCount sl u (-(2^63)) = .ok (collectDir sl false 0
      (if (find sl u).1 then (find sl u).2.1
       else if decide ((0:Int) < -(2^63)) = true then
         fwdA sl.arena ((find sl u).2.2.getD 0 0) 0
       else some ((find sl u).2.2.getD 0 0))) := rfl
  rw [hz, collectDir_zero]

/-- `RangeByIndex` at the minimum 64-bit count, inside the index bounds:
the wrapped negation (skiplist.go:212) leaves the loop collecting
nothing. -/
theorem rangeByIndex_minInt (sl : Skiplist K V) (start : Int)
    (hbnd : ¬ (start ≥ sl.length ∨ start < 0 - sl.length)) :
    rangeByIndex sl start (-(2^63)) = .ok [] := by
  rw [rangeByIndex, if_neg (by decide : ¬ ((-(2^63) : Int) = 0)), if_neg hbnd]
  show Except.ok (collectDir sl false 0
      (if (0:Int) ≤ start then stepFwdN sl start.toNat (fwdA sl.arena 0 0)
       else stepBwdN sl (-1 - start).toNat sl.tail)) = .ok []
  rw [collectDir_zero]

/-- C4 (counterexample): on a reachable container storing key 5,
`RangeByCount(5, -2^63)` returns no items even though the start key is
stored — the int64 negation `count = 0 - count` (skiplist.go:170) wraps at
the minimum value, so the matching node is not the first item collected,
refuting the claim which covers every `count ≠ 0`. -/
theorem rangeByCount_minInt_collects_nothing :
    Reachable (put (new 0 0) 5 50 1 : Skiplist Nat Nat) ∧
    get (put (new 0 0) 5 50 1 : Skiplist Nat Nat) 5 = .ok 50 ∧
    rangeByCount (put (new 0 0) 5 50 1 : Skiplist Nat Nat) 5 (-(2^63)) = .ok [] := by
  refine ⟨Reachable.put 5 50 (Reachable.new 0 0) (by decide) (by decide), rfl, rfl⟩

/-- C4 (amended): for a 64-bit `count` other than 0 and the minimum value,
`RangeByCount(start,count)` collects up to `|count|` items — with
`count > 0` forward from the hit node (inclusive) or from the smallest
stored key above `start`; with `count < 0` backward over the reversal of
the keys `≤ start` (inclusive of the hit; from the level-0 predecessor,
possibly the sentinel, when `start` is absent) — stopping early at the
boundary.  At the minimum count the negation wraps and the call returns no
items. -/
theorem rangeByCount_directional_walk_amended {sl : Skiplist K V} (hr : Reachable sl)
    (s : K) (c : Int) (hc : c ≠ 0) (hlo : -(2^63) < c) (hhi : c < 2^63) :
    (∃ D, InvL sl D ∧
      (0 < c → rangeByCount sl s c = .ok (absPairs ((restOf D s).take c.natAbs))) ∧
      (c < 0 → rangeByCount sl s c = .ok (absPairs
        ((D.takeWhile (fun p => decide (p.2.key ≤ s))).reverse.take c.natAbs)))) ∧
    (∀ u : K, rangeByCount sl u (-(2^63)) = .ok []) := by
  constructor
  · obtain ⟨D, hI⟩ := reach_inv hr
    refine ⟨D, hI, ?_, ?_⟩
    · intro hpos
      rw [rangeByCount_eqD hI s c, rangeByCountD, if_neg hc, if_pos hpos,
        show c.toNat = c.natAbs from by omega]
    · intro hneg
      rw [rangeByCount_eqD hI s c, rangeByCountD, if_neg hc, if_neg (by omega),
        show (wrap64 (0 - c)).toNat = c.natAbs from by
          rw [wrap64]
          omega]
  · intro u
    exact rangeByCount_minInt sl u

theorem rangeByCount_amended_witness :
    ((∃ D, InvL (put (new 0 0) 5 50 1 : Skiplist Nat Nat) D ∧
      ((0:Int) < 1 → rangeByCount (put (new 0 0) 5 50 1 : Skiplist Nat Nat) 5 1 =
        .ok (absPairs ((restOf D 5).take (1:Int).natAbs))) ∧
      ((1:Int) < 0 → rangeByCount (put (new 0 0) 5 50 1 : Skiplist Nat Nat) 5 1 =
        .ok (absPairs ((D.takeWhile (fun p => decide (p.2.key ≤ 5))).reverse.take
          (1:Int).natAbs)))) ∧
    (∀ u : Nat, rangeByCount (put (new 0 0) 5 50 1 : Skiplist Nat Nat) u (-(2^63)) =
      .ok [])) :=
  rangeByCount_directional_walk_amended
    (Reachable.put 5 50 (Reachable.new 0 0) (by decide) (by decide)) 5 1
    (by decide) (by decide) (by decide)

/-- C5 (counterexample): on a reachable container of length 1,
`RangeByIndex(0, -2^63)` resolves the start node (position 0 is in bounds)
yet returns no items — the int64 negation `count = 0 - count`
(skiplist.go:212) wraps at the minimum value, refuting the claim which
covers every `count ≠ 0`. -/
theorem rangeByIndex_minInt_collects_nothing :
    Reachable (put (new 0 0) 5 50 1 : Skiplist Nat Nat) ∧
    lengthOf (put (new 0 0) 5 50 1 : Skiplist Nat Nat) = 1 ∧
    rangeByIndex (put (new 0 0) 5 50 1 : Skiplist Nat Nat) 0 (-(2^63)) = .ok [] := by
  refine ⟨Reachable.put 5 50 (Reachable.new 0 0) (by decide) (by decide), rfl, rfl⟩

/-- C5 (amended): on every reachable container with `start` in
`[-length, length-1]` and a 64-bit `count` other than 0 and the minimum
value, `RangeByIndex` resolves the start node positionally (`start ≥ 0`
counts forward from the first node, `start < 0` counts `length + start`
from the front, i.e. `-1-start` steps back from the tail), then collects up
to `|count|` items in the direction of `count`'s sign, inclusive, stopping
at the sentinel boundary; at the minimum count the wrapped negation makes
the call return no items; and on the test suite's 8-key example,
`RangeByIndex(-5,-5)` returns exactly the four pairs for keys 004 (with its
rewritten value), 003, 001 and 000. -/
theorem rangeByIndex_positional_amended {sl : Skiplist K V} (hr : Reachable sl)
    (start c : Int) (hc : c ≠ 0) (hcl : -(2^63) < c) (hch : c < 2^63)
    (hlo : 0 - sl.length ≤ start) (hhi : start < sl.length) :
    (∃ D, InvL sl D ∧
      ((0 < c → rangeByIndex sl start c = .ok (absPairs
          ((D.drop ((if 0 ≤ start then start else sl.length + start).toNat)).take c.natAbs))) ∧
       (c < 0 → rangeByIndex sl start c = .ok (absPairs
          ((D.take ((if 0 ≤ start then start else sl.length + start).toNat + 1)).reverse.take
            c.natAbs))))) ∧
    rangeByIndex sl start (-(2^63)) = .ok [] ∧
    rangeByIndex exContainer (-5) (-5) =
      .ok [(['0','0','4'], ['0','0','4','-','r','e','w','r','i','t','e']),
           (['0','0','3'], ['0','0','3']),
           (['0','0','1'], ['0','0','1']),
           (['0','0','0'], ['0','0','0'])] := by
  refine ⟨?_, ?_, ?_⟩
  · obtain ⟨D, hI⟩ := reach_inv hr
    have hbnd' : ¬ (start ≥ (D.length : Int) ∨ start < 0 - (D.length : Int)) := by
      rw [hI.len] at hlo hhi
      push_neg
      exact ⟨hhi, hlo⟩
    refine ⟨D, hI, ?_, ?_⟩
    · intro hpos
      rw [rangeByIndex_eqD hI start c, rangeByIndexD_reduce hc hbnd', if_pos hpos, hI.len,
        show c.toNat = c.natAbs from by omega]
    · intro hneg
      rw [rangeByIndex_eqD hI start c, rangeByIndexD_reduce hc hbnd', if_neg (by omega),
        hI.len,
        show (wrap64 (0 - c)).toNat = c.natAbs from by
          rw [wrap64]
          omega]
  · refine rangeByIndex_minInt sl start ?_
    push_neg
    exact ⟨hhi, hlo⟩
  · rfl

theorem rangeByIndex_amended_witness :
    ((∃ D, InvL (put (new 0 0) 5 50 1 : Skiplist Nat Nat) D ∧
      (((0:Int) < 1 → rangeByIndex (put (new 0 0) 5 50 1 : Skiplist Nat Nat) 0 1 =
        .ok (absPairs ((D.drop ((if (0:Int) ≤ 0 then (0:Int)
            else (put (new 0 0) 5 50 1 : Skiplist Nat Nat).length + 0).toNat)).take
          (1:Int).natAbs))) ∧
       ((1:Int) < 0 → rangeByIndex (put (new 0 0) 5 50 1 : Skiplist Nat Nat) 0 1 =
        .ok (absPairs ((D.take ((if (0:Int) ≤ 0 then (0:Int)
            else (put (new 0 0) 5 50 1 : Skiplist Nat Nat).length + 0).toNat + 1)).reverse.take
          (1:Int).natAbs))))) ∧
    rangeByIndex (put (new 0 0) 5 50 1 : Skiplist Nat Nat) 0 (-(2^63)) = .ok [] ∧
    rangeByIndex exContainer (-5) (-5) =
      .ok [(['0','0','4'], ['0','0','4','-','r','e','w','r','i','t','e']),
           (['0','0','3'], ['0','0','3']),
           (['0','0','1'], ['0','0','1']),
           (['0','0','0'], ['0','0','0'])]) :=
  rangeByIndex_positional_amended
    (Reachable.put 5 50 (Reachable.new 0 0) (by decide) (by decide)) 0 1
    (by decide) (by decide) (by decide) (by decide) (by decide)

/-- C6: inserting an absent key and deleting it again yields a state
observably identical to the original: same `Length()` and identical results
for every `Get` and every range query. -/
theorem put_then_del_observational_identity {sl : Skiplist K V} (hr : Reachable sl)
    (k : K) (v : V) {lvl : Nat} (h1 : 1 ≤ lvl) (h2 : lvl ≤ MaxLevel)
    (habs : get sl k = .error errNotFound) :
    lengthOf (del (put sl k v lvl) k).1 = lengthOf sl ∧
    (∀ q, get (del (put sl k v lvl) k).1 q = get sl q) ∧
    (∀ a b, rangeByKey (del (put sl k v lvl) k).1 a b = rangeByKey sl a b) ∧
    (∀ s c, rangeByCount (del (put sl k v lvl) k).1 s c = rangeByCount sl s c) ∧
    (∀ s c, rangeByIndex (del (put sl k v lvl) k).1 s c = rangeByIndex sl s c) := by
  obtain ⟨D, hI⟩ := reach_inv hr
  have hnone : hitOf D k = none := by
    cases hhit : hitOf D k with
    | none => rfl
    | some j =>
      obtain ⟨q, t, hcr, hqk, hqj⟩ := hitOf_some_elim hhit
      have hget := get_eqD hI k
      rw [habs, getD, lookupD, hcr] at hget
      rw [show ((q :: t).head?.bind fun p => if p.2.key = k then some p.2.value else none) =
        if q.2.key = k then some q.2.value else none from rfl, if_pos hqk] at hget
      exact Except.noConfusion hget
  have hI2 := put_del_D hI v hnone h1 h2
  refine ⟨?_, ?_, ?_, ?_, ?_⟩
  · rw [lengthOf, lengthOf, hI2.len, hI.len]
  · intro q
    rw [get_eqD hI2 q, get_eqD hI q]
  · intro a b
    rw [rangeByKey_eqD hI2 a b, rangeByKey_eqD hI a b]
  · intro s c
    rw [rangeByCount_eqD hI2 s c, rangeByCount_eqD hI s c]
  · intro s c
    rw [rangeByIndex_eqD hI2 s c, rangeByIndex_eqD hI s c]

theorem put_del_identity_witness :
    lengthOf (del (put (put (new 0 0) 5 50 1 : Skiplist Nat Nat) 7 70 1) 7).1 =
      lengthOf (put (new 0 0) 5 50 1 : Skiplist Nat Nat) ∧
    (∀ q, get (del (put (put (new 0 0) 5 50 1 : Skiplist Nat Nat) 7 70 1) 7).1 q =
      get (put (new 0 0) 5 50 1 : Skiplist Nat Nat) q) ∧
    (∀ a b, rangeByKey (del (put (put (new 0 0) 5 50 1 : Skiplist Nat Nat) 7 70 1) 7).1 a b =
      rangeByKey (put (new 0 0) 5 50 1 : Skiplist Nat Nat) a b) ∧
    (∀ s c, rangeByCount (del (put (put (new 0 0) 5 50 1 : Skiplist Nat Nat) 7 70 1) 7).1 s c =
      rangeByCount (put (new 0 0) 5 50 1 : Skiplist Nat Nat) s c) ∧
    (∀ s c, rangeByIndex (del (put (put (new 0 0) 5 50 1 : Skiplist Nat Nat) 7 70 1) 7).1 s c =
      rangeByIndex (put (new 0 0) 5 50 1 : Skiplist Nat Nat) s c) :=
  put_then_del_observational_identity
    (Reachable.put 5 50 (Reachable.new 0 0) (by decide) (by decide)) 7 70
    (by decide) (by decide) (by rfl)

/-- C7: `Put` of a key already stored (skiplist.go:76-78) overwrites only
that node's value: length, level, tail, the arena size, every forward and
backward link and every other node are unchanged, and no node is created. -/
theorem put_existing_key_value_only {sl : Skiplist K V} (hr : Reachable sl)
    (k : K) (v : V) (lvl : Nat) :
    ∃ D, InvL sl D ∧ ∀ j, hitOf D k = some j →
      (put sl k v lvl).tail = sl.tail ∧
      (put sl k v lvl).length = sl.length ∧
      (put sl k v lvl).level = sl.level ∧
      (put sl k v lvl).arena.length = sl.arena.length ∧
      (∀ x i, fwdA (put sl k v lvl).arena x i = fwdA sl.arena x i) ∧
      (∀ x, bwdA (put sl k v lvl).arena x = bwdA sl.arena x) ∧
      (∀ x, levelA (put sl k v lvl).arena x = levelA sl.arena x) ∧
      (∀ x, x ≠ j → nodeAt (put sl k v lvl).arena x = nodeAt sl.arena x) ∧
      (∃ n, nodeAt sl.arena j = some n ∧
        nodeAt (put sl k v lvl).arena j = some { n with value := v }) := by
  obtain ⟨D, hI⟩ := reach_inv hr
  refine ⟨D, hI, ?_⟩
  intro j hsome
  have hput := put_found_unfold hI k v lvl hsome
  obtain ⟨q, t, hcr, hqk, hqj⟩ := hitOf_some_elim hsome
  obtain ⟨-, -, -, nq, hnq, -⟩ := hI.mem q (mem_of_restOf (hcr ▸ List.mem_cons_self q t))
  rw [hput]
  refine ⟨rfl, rfl, rfl, length_setVal _ _ _, ?_, ?_, ?_, ?_, ?_⟩
  · intro x i
    exact fwdA_setVal _ _ _ _ _
  · intro x
    exact bwdA_setVal _ _ _ _
  · intro x
    show levelA (setVal sl.arena j v) x = levelA sl.arena x
    rw [levelA, levelA, nodeAt_setVal]
    by_cases hx : x = j
    · rw [if_pos hx, hx]
      cases nodeAt sl.arena j with
      | none => rfl
      | some n => rfl
    · rw [if_neg hx]
  · intro x hx
    show nodeAt (setVal sl.arena j v) x = nodeAt sl.arena x
    rw [nodeAt_setVal, if_neg hx]
  · refine ⟨nq, ?_, ?_⟩
    · rw [← hqj]
      exact hnq
    · show nodeAt (setVal sl.arena j v) j = _
      rw [nodeAt_setVal, if_pos rfl, ← hqj, hnq]
      rfl

theorem put_existing_witness :
    ∃ D, InvL (put (new 0 0) 5 50 1 : Skiplist Nat Nat) D ∧ ∀ j, hitOf D 5 = some j →
      (put (put (new 0 0) 5 50 1 : Skiplist Nat Nat) 5 51 1).tail =
        (put (new 0 0) 5 50 1 : Skiplist Nat Nat).tail ∧
      (put (put (new 0 0) 5 50 1 : Skiplist Nat Nat) 5 51 1).length =
        (put (new 0 0) 5 50 1 : Skiplist Nat Nat).length ∧
      (put (put (new 0 0) 5 50 1 : Skiplist Nat Nat) 5 51 1).level =
        (put (new 0 0) 5 50 1 : Skiplist Nat Nat).level ∧
      (put (put (new 0 0) 5 50 1 : Skiplist Nat Nat) 5 51 1).arena.length =
        (put (new 0 0) 5 50 1 : Skiplist Nat Nat).arena.length ∧
      (∀ x i, fwdA (put (put (new 0 0) 5 50 1 : Skiplist Nat Nat) 5 51 1).arena x i =
        fwdA (put (new 0 0) 5 50 1 : Skiplist Nat Nat).arena x i) ∧
      (∀ x, bwdA (put (put (new 0 0) 5 50 1 : Skiplist Nat Nat) 5 51 1).arena x =
        bwdA (put (new 0 0) 5 50 1 : Skiplist Nat Nat).arena x) ∧
      (∀ x, levelA (put (put (new 0 0) 5 50 1 : Skiplist Nat Nat) 5 51 1).arena x =
        levelA (put (new 0 0) 5 50 1 : Skiplist Nat Nat).arena x) ∧
      (∀ x, x ≠ j → nodeAt (put (put (new 0 0) 5 50 1 : Skiplist Nat Nat) 5 51 1).arena x =
        nodeAt (put (new 0 0) 5 50 1 : Skiplist Nat Nat).arena x) ∧
      (∃ n, nodeAt (put (new 0 0) 5 50 1 : Skiplist Nat Nat).arena j = some n ∧
        nodeAt (put (put (new 0 0) 5 50 1 : Skiplist Nat Nat) 5 51 1).arena j =
          some { n with value := 51 }) :=
  put_existing_key_value_only
    (Reachable.put 5 50 (Reachable.new 0 0) (by decide) (by decide)) 5 51 1

/-- C8: every error return leaves the container untouched.  The queries
(`Get`, the three range queries) perform no writes at all — in this
embedding they are pure functions of the state — and `Del` of an absent key
returns the state unchanged alongside `Not Found`. -/
theorem error_paths_leave_state {sl : Skiplist K V} (hr : Reachable sl) (k : K) :
    (∃ D, InvL sl D ∧ (hitOf D k = none →
      del sl k = (sl, some errNotFound) ∧ get sl k = .error errNotFound)) ∧
    (∀ a b : K, a > b → rangeByKey sl a b = .error errInvalidRange) ∧
    (∀ s : K, rangeByCount sl s 0 = .error errZeroCount) ∧
    (∀ start : Int, rangeByIndex sl start 0 = .error errZeroCount) ∧
    (∀ start c : Int, c ≠ 0 → (start ≥ sl.length ∨ start < 0 - sl.length) →
      rangeByIndex sl start c = .error errOutOfRange) := by
  obtain ⟨D, hI⟩ := reach_inv hr
  refine ⟨⟨D, hI, ?_⟩, ?_, ?_, ?_, ?_⟩
  · intro hnone
    refine ⟨del_notfound hI k hnone, ?_⟩
    rw [get_eqD hI k, getD, lookupD_of_hitOf_none hnone]
  · intro a b hab
    rw [rangeByKey, if_pos hab]
  · intro s
    rw [rangeByCount, if_pos rfl]
  · intro start
    rw [rangeByIndex, if_pos rfl]
  · intro start c hc hbnd
    rw [rangeByIndex, if_neg hc, if_pos hbnd]

theorem error_paths_witness :
    (∃ D, InvL (put (new 0 0) 5 50 1 : Skiplist Nat Nat) D ∧ (hitOf D 7 = none →
      del (put (new 0 0) 5 50 1 : Skiplist Nat Nat) 7 =
        ((put (new 0 0) 5 50 1 : Skiplist Nat Nat), some errNotFound) ∧
      get (put (new 0 0) 5 50 1 : Skiplist Nat Nat) 7 = .error errNotFound)) ∧
    (∀ a b : Nat, a > b →
      rangeByKey (put (new 0 0) 5 50 1 : Skiplist Nat Nat) a b = .error errInvalidRange) ∧
    (∀ s : Nat, rangeByCount (put (new 0 0) 5 50 1 : Skiplist Nat Nat) s 0 =
      .error errZeroCount) ∧
    (∀ start : Int, rangeByIndex (put (new 0 0) 5 50 1 : Skiplist Nat Nat) start 0 =
      .error errZeroCount) ∧
    (∀ start c : Int, c ≠ 0 →
      (start ≥ (put (new 0 0) 5 50 1 : Skiplist Nat Nat).length ∨
        start < 0 - (put (new 0 0) 5 50 1 : Skiplist Nat Nat).length) →
      rangeByIndex (put (new 0 0) 5 50 1 : Skiplist Nat Nat) start c =
        .error errOutOfRange) :=
  error_paths_leave_state
    (Reachable.put 5 50 (Reachable.new 0 0) (by decide) (by decide)) 7

theorem randomLevelAux_congr {d d' : Nat → Nat} (h : ∀ i, d i = d' i) :
    ∀ fuel i lv, randomLevelAux d fuel i lv = randomLevelAux d' fuel i lv := by
  intro fuel
  induction fuel with
  | zero =>
    intro i lv
    rfl
  | succ f ih =>
    intro i lv
    rw [randomLevelAux, randomLevelAux, h i]
    by_cases hgt : d' i % 65536 > 19660
    · rw [if_pos hgt, if_pos hgt]
    · rw [if_neg hgt, if_neg hgt, ih]

/-- C9: the level drawn by `randomLevel` (skiplist.go:267) is a pure
function of the clock reading taken by the call — the generator is rebuilt
from `time.Now().UnixNano()` every time, so the draw stream restarts at
index 0 for every call; only the stream freshly seeded with `now` matters,
and calls within one clock tick always coincide (the behaviour the spec
rules out). -/
theorem randomLevel_depends_only_on_clock (src src' : Nat → Nat → Nat) (now : Nat)
    (h : ∀ i, src now i = src' now i) :
    randomLevel src now = randomLevel src' now := by
  rw [randomLevel, randomLevel, randomLevelAux_congr h MaxLevel 0 1]

theorem randomLevel_clock_witness :
    randomLevel (fun _ _ => 30000) 7 = randomLevel (fun n _ => 30000 + 0 * n) 7 :=
  randomLevel_depends_only_on_clock _ _ 7 (fun _ => by decide)

/-- C10: `RangeByIndex` with count 0 always signals Zero COUNT, whatever the
start index — the zero-count test (skiplist.go:201) precedes the bounds test
(skiplist.go:204) — so Out of range is only ever signalled when the count is
nonzero. -/
theorem rangeByIndex_zero_count_precedence (sl : Skiplist K V) (start : Int) :
    rangeByIndex sl start 0 = .error errZeroCount ∧
    (∀ c : Int, rangeByIndex sl start c = .error errOutOfRange → c ≠ 0) := by
  constructor
  · rw [rangeByIndex, if_pos rfl]
  · intro c hcase hc0
    rw [hc0, rangeByIndex, if_pos rfl] at hcase
    injection hcase with hh
    exact absurd hh (by decide)

end SkipGo
